import Mathlib

/-! # A verification development for the configuration-language translator

The Go program (`main.go`) lexes a small configuration language, parses it with
a recursive-descent parser and renders the result as TOML-like text.  This file
embeds the lexer, the parser and the serializer as Lean functions and proves
properties of them.

Conventions of the embedding:

* a Go `string` is a list of bytes (`GoString`); every byte is a natural number
  below 256.  The lexer indexes its input bytewise (`line[pos]`), so bytes, not
  code points, are the right unit;
* the conversion `string(b)` of a byte `b` is the UTF-8 text of the code point
  `b` (`encodeRune`): the byte itself below 128, two bytes from 128 on.  The
  identifier scan builds the text of its token this way (`identText`);
* a Go `int` is a 64-bit two's complement integer, represented by an `Int`
  that is wrapped explicitly after every addition and multiplication;
* `float64` arithmetic and `strconv.ParseFloat` belong to the Go runtime; they
  are taken as a parameter (`FloatOps`);
* a Go `map[string]T` is an association list with unique keys (`GoMap`); the
  order in which a `range` visits a map is unspecified in Go and is a parameter
  of the serializer (`order`), as is `fmt.Sprintf("%.1f", v)` (`fmtFloat`);
* an `error` is a value of a structured type that records the arguments of the
  `fmt.Errorf` call that produced it;
* loops are structural recursions over an explicit `fuel` argument.  The
  starting fuel is always an upper bound of the number of iterations.
-/

set_option autoImplicit false

namespace GoParser

/-! ## Byte strings -/

/-- A Go string: a sequence of bytes. -/
abbrev GoString := List Nat

/-- The UTF-8 encoding of one code point. -/
def encodeRune (r : Nat) : GoString :=
  if r < 128 then [r]
  else if r < 2048 then [192 + r / 64, 128 + r % 64]
  else if r < 65536 then [224 + r / 4096, 128 + (r / 64) % 64, 128 + r % 64]
  else [240 + r / 262144, 128 + (r / 4096) % 64, 128 + (r / 64) % 64, 128 + r % 64]

/-- The bytes of a string literal of the Go source (UTF-8). -/
def bytes (s : String) : GoString :=
  (s.toList.map (fun c => encodeRune c.toNat)).flatten

/-- Go `strings.HasPrefix(s, p)`. -/
def startsWith : GoString → GoString → Bool
  | _, [] => true
  | [], _ :: _ => false
  | c :: s, d :: p => c == d && startsWith s p

/-- Go `unicode.IsSpace(rune(b))` for a byte `b` (the Latin-1 table). -/
def isSpace (b : Nat) : Bool :=
  b == 9 || b == 10 || b == 11 || b == 12 || b == 13 || b == 32 || b == 133 || b == 160

/-- Go `unicode.IsDigit(rune(b))` for a byte `b`: only `0` to `9`. -/
def isDigit (b : Nat) : Bool :=
  decide (48 ≤ b) && decide (b ≤ 57)

/-- Go `unicode.IsLetter(rune(b))` for a byte `b` (the Latin-1 table). -/
def isLetter (b : Nat) : Bool :=
  (decide (65 ≤ b) && decide (b ≤ 90)) || (decide (97 ≤ b) && decide (b ≤ 122)) ||
  b == 170 || b == 181 || b == 186 ||
  (decide (192 ≤ b) && decide (b ≤ 214)) || (decide (216 ≤ b) && decide (b ≤ 246)) ||
  (decide (248 ≤ b) && decide (b ≤ 255))

/-- The UTF-8 encodings of the code points for which Go `unicode.IsSpace` holds:
tab, LF, VT, FF, CR, space, U+0085, U+00A0, U+1680, U+2000 to U+200A, U+2028,
U+2029, U+202F, U+205F and U+3000. -/
def spaceEncodings : List GoString :=
  [[9], [10], [11], [12], [13], [32], [194, 133], [194, 160], [225, 154, 128],
   [226, 128, 128], [226, 128, 129], [226, 128, 130], [226, 128, 131], [226, 128, 132],
   [226, 128, 133], [226, 128, 134], [226, 128, 135], [226, 128, 136], [226, 128, 137],
   [226, 128, 138], [226, 128, 168], [226, 128, 169], [226, 128, 175], [226, 129, 159],
   [227, 128, 128]]

/-- The byte length of the white-space rune at the start of `s`, 0 when `s`
does not start with one. -/
def leadingSpaceLen (s : GoString) : Nat :=
  match spaceEncodings.find? (fun e => startsWith s e) with
  | some e => e.length
  | none => 0

/-- The byte length of the white-space rune at the end of `s`, 0 when `s` does
not end with one. -/
def trailingSpaceLen (s : GoString) : Nat :=
  match spaceEncodings.find? (fun e => startsWith s.reverse e.reverse) with
  | some e => e.length
  | none => 0

/-- Removes leading white-space runes, one per unit of fuel. -/
def trimLeftLoop : Nat → GoString → GoString
  | 0, s => s
  | fuel + 1, s =>
    if leadingSpaceLen s = 0 then s
    else trimLeftLoop fuel (s.drop (leadingSpaceLen s))

/-- Removes trailing white-space runes, one per unit of fuel. -/
def trimRightLoop : Nat → GoString → GoString
  | 0, s => s
  | fuel + 1, s =>
    if trailingSpaceLen s = 0 then s
    else trimRightLoop fuel (s.take (s.length - trailingSpaceLen s))

/-- Go `strings.TrimSpace`: the string without its leading and trailing
Unicode white space. -/
def TrimSpace (s : GoString) : GoString :=
  let t := trimLeftLoop s.length s
  trimRightLoop t.length t

/-- One piece of `strings.Split(s, "\n")`: `cur` holds the bytes of the current
piece, reversed. -/
def splitLoop : GoString → GoString → List GoString
  | [], cur => [cur.reverse]
  | c :: s, cur => if c == 10 then cur.reverse :: splitLoop s [] else splitLoop s (c :: cur)

/-- Go `strings.Split(input, "\n")`. -/
def splitLines (input : GoString) : List GoString := splitLoop input []

/-- Go `strings.Index(s, "'")` and the like: the index of the first byte equal
to `b`, if any. -/
def indexByte : GoString → Nat → Option Nat
  | [], _ => none
  | c :: s, b => if c == b then some 0 else (indexByte s b).map (· + 1)

/-! ## Tokens -/

/-- The token kinds, in the order of the `iota` block of the source. -/
inductive TokenType where
  | TOKEN_EOF
  | TOKEN_IDENT
  | TOKEN_NUMBER
  | TOKEN_STRING
  | TOKEN_LPAREN
  | TOKEN_RPAREN
  | TOKEN_LBRACKET
  | TOKEN_RBRACKET
  | TOKEN_SEMICOLON
  | TOKEN_ASSIGN
  | TOKEN_HASH
  | TOKEN_BANG
  | TOKEN_DEFINE
  | TOKEN_BEGIN
  | TOKEN_END
  | TOKEN_PLUS
  | TOKEN_STAR
  deriving DecidableEq, Repr

open TokenType

/-- The integer value of a token kind (`iota`). -/
def TokenType.code : TokenType → Nat
  | TOKEN_EOF => 0
  | TOKEN_IDENT => 1
  | TOKEN_NUMBER => 2
  | TOKEN_STRING => 3
  | TOKEN_LPAREN => 4
  | TOKEN_RPAREN => 5
  | TOKEN_LBRACKET => 6
  | TOKEN_RBRACKET => 7
  | TOKEN_SEMICOLON => 8
  | TOKEN_ASSIGN => 9
  | TOKEN_HASH => 10
  | TOKEN_BANG => 11
  | TOKEN_DEFINE => 12
  | TOKEN_BEGIN => 13
  | TOKEN_END => 14
  | TOKEN_PLUS => 15
  | TOKEN_STAR => 16

/-- The `Token` struct of the source. -/
structure Token where
  Kind : TokenType
  Value : GoString
  Line : Nat
  Pos : Nat
  deriving DecidableEq, Repr

/-- The errors `lex` returns; each constructor is one `fmt.Errorf` call and
carries its arguments. `fuelExhausted` belongs to the embedding only. -/
inductive LexError where
  | unclosedString (line : Nat)
  | unexpectedColon (line pos : Nat)
  | unexpectedCharacter (c line pos : Nat)
  | fuelExhausted
  deriving DecidableEq, Repr

deriving instance DecidableEq for Except

/-! ## The lexer -/

/-- Whether `s` starts with a run of at least one digit followed by what `k`
accepts. -/
def digitsThen (k : GoString → Bool) (s : GoString) : Bool :=
  match s with
  | [] => false
  | c :: _ => isDigit c && k (s.dropWhile isDigit)

/-- The tail `[eE][+-]?\d+` of the scientific-notation pattern. -/
def sciExponent (s : GoString) : Bool :=
  match s with
  | [] => false
  | c :: r =>
    (c == 101 || c == 69) &&
      (match r with
       | [] => false
       | d :: r2 => if d == 43 || d == 45 then (r2.head?.map isDigit).getD false else isDigit d)

/-- The part `\.?\d*[eE][+-]?\d+` of the scientific-notation pattern. -/
def sciFraction (s : GoString) : Bool :=
  match s with
  | 46 :: r => sciExponent (r.dropWhile isDigit)
  | _ => sciExponent s

/-- Go `regexp.MatchString` with the pattern `^[+-]?\d+\.?\d*[eE][+-]?\d+`:
whether the text starts with a scientific-notation literal. -/
def sciMatch (s : GoString) : Bool :=
  match s with
  | [] => false
  | c :: r => if c == 43 || c == 45 then digitsThen sciFraction r else digitsThen sciFraction s

/-- The bytes the loop after a scientific-notation match consumes. -/
def isSciChar (b : Nat) : Bool :=
  isDigit b || b == 46 || b == 101 || b == 69 || b == 43 || b == 45

/-- The bytes an identifier continues with. -/
def isIdentChar (b : Nat) : Bool :=
  isLetter b || isDigit b || b == 95

/-- The optional fraction of the plain number scan (source lines 112 to 119):
a `.` and a run of digits. Returns the bytes consumed and the rest. -/
def scanFraction (s : GoString) : GoString × GoString :=
  match s with
  | 46 :: r => (46 :: r.takeWhile isDigit, r.dropWhile isDigit)
  | _ => ([], s)

/-- The optional sign of the plain number scan (source lines 104 to 107). -/
def scanSign (s : GoString) : GoString :=
  match s with
  | c :: _ => if c == 45 || c == 43 then [c] else []
  | [] => []

/-- The plain number scan (source lines 102 to 119): an optional sign, a run of
digits, and an optional `.` with a further run of digits. Returns the literal
and the rest of the line. -/
def scanNumber (s : GoString) : GoString × GoString :=
  let r1 := s.drop (scanSign s).length
  let frac := scanFraction (r1.dropWhile isDigit)
  (scanSign s ++ r1.takeWhile isDigit ++ frac.1, frac.2)

/-- The string that the identifier scan builds from the bytes it reads (source
line 128): `ident += string(line[pos])` appends the UTF-8 encoding of the code
point whose number is the byte, which is the byte itself below 128 and two bytes
from 128 on. -/
def identText (raw : GoString) : GoString := (raw.map encodeRune).flatten

/-- The kind of the token for an identifier-shaped word (the `switch ident`). -/
def identKind (ident : GoString) : TokenType :=
  if ident = bytes "define" then TOKEN_DEFINE
  else if ident = bytes "begin" then TOKEN_BEGIN
  else if ident = bytes "end" then TOKEN_END
  else TOKEN_IDENT

/-- The body of the inner loop of `lex` at a byte `c` that `cs` follows
(`c :: cs` is `line[pos:]`); `next` is the next iteration of the loop, at a new
`pos`, rest of the line and token slice. The number scans append
`string(line[pos])` too, but only for digits, `.`, `e`, `E`, `+` and `-`, which
are below 128 and stay one byte. -/
def lexStep (lineNum : Nat) (next : Nat → GoString → List Token → Except LexError (List Token))
    (pos c : Nat) (cs : GoString) (tokens : List Token) : Except LexError (List Token) :=
  if isSpace c then next (pos + 1) cs tokens
  else if startsWith (c :: cs) [45, 45] then .ok tokens
  else if c == 39 then
    match indexByte cs 39 with
    | none => .error (.unclosedString lineNum)
    | some e =>
      next (pos + (e + 2)) (cs.drop (e + 1)) (tokens ++ [⟨TOKEN_STRING, cs.take e, lineNum, pos⟩])
  else if sciMatch (c :: cs) then
    let num := (c :: cs).takeWhile isSciChar
    next (pos + num.length) ((c :: cs).dropWhile isSciChar)
      (tokens ++ [⟨TOKEN_NUMBER, num, lineNum, pos⟩])
  else if isDigit c || ((c == 45 || c == 43) && (cs.head?.map isDigit).getD false) then
    let r := scanNumber (c :: cs)
    next (pos + r.1.length) r.2 (tokens ++ [⟨TOKEN_NUMBER, r.1, lineNum, pos⟩])
  else if isLetter c || c == 95 then
    let raw := (c :: cs).takeWhile isIdentChar
    let ident := identText raw
    next (pos + raw.length) ((c :: cs).dropWhile isIdentChar)
      (tokens ++ [⟨identKind ident, ident, lineNum, pos⟩])
  else if c == 40 then next (pos + 1) cs (tokens ++ [⟨TOKEN_LPAREN, [40], lineNum, pos⟩])
  else if c == 41 then next (pos + 1) cs (tokens ++ [⟨TOKEN_RPAREN, [41], lineNum, pos⟩])
  else if c == 91 then next (pos + 1) cs (tokens ++ [⟨TOKEN_LBRACKET, [91], lineNum, pos⟩])
  else if c == 93 then next (pos + 1) cs (tokens ++ [⟨TOKEN_RBRACKET, [93], lineNum, pos⟩])
  else if c == 59 then next (pos + 1) cs (tokens ++ [⟨TOKEN_SEMICOLON, [59], lineNum, pos⟩])
  else if c == 58 then
    (if cs.head? = some 61 then
      next (pos + 2) (cs.drop 1) (tokens ++ [⟨TOKEN_ASSIGN, [58, 61], lineNum, pos⟩])
    else .error (.unexpectedColon lineNum pos))
  else if c == 35 then next (pos + 1) cs (tokens ++ [⟨TOKEN_HASH, [35], lineNum, pos⟩])
  else if c == 33 then next (pos + 1) cs (tokens ++ [⟨TOKEN_BANG, [33], lineNum, pos⟩])
  else if c == 43 then next (pos + 1) cs (tokens ++ [⟨TOKEN_PLUS, [43], lineNum, pos⟩])
  else if c == 42 then next (pos + 1) cs (tokens ++ [⟨TOKEN_STAR, [42], lineNum, pos⟩])
  else .error (.unexpectedCharacter c lineNum pos)

/-- The inner loop of `lex` over one trimmed line: `rest` is `line[pos:]` and
the loop ends when `pos` reaches `len(line)`. Every iteration consumes at least
one byte, so `fuel = len(line)` is enough. -/
def lexLoop (lineNum : Nat) : Nat → Nat → GoString → List Token → Except LexError (List Token)
  | _, _, [], tokens => .ok tokens
  | 0, _, _ :: _, _ => .error .fuelExhausted
  | fuel + 1, pos, c :: cs, tokens => lexStep lineNum (lexLoop lineNum fuel) pos c cs tokens

/-- The scan for `=cut` after a line that starts with `=begin` (source lines 59
to 63): `i` runs from `lineNum` while `i < len(lines)` and stops at the first
`i` for which `lines[i-1]`, trimmed, is `=cut`. Returns the final `i`. -/
def scanCut (lines : List GoString) : Nat → Nat → Nat
  | 0, i => i
  | fuel + 1, i =>
    if i < lines.length then
      if TrimSpace (lines.getD (i - 1) []) = bytes "=cut" then i
      else scanCut lines fuel (i + 1)
    else i

/-- The outer loop of `lex`: `rest` holds the lines not yet read and `lineNum`
is the 1-based number of the first of them. The result of the `=cut` scan is a
local variable of the source that nothing reads; the outer loop goes on with
the next line. -/
def lexLines (lines : List GoString) : Nat → List GoString → List Token →
    Except LexError (List Token)
  | _, [], tokens => .ok tokens
  | lineNum, raw :: rest, tokens =>
    let line := TrimSpace raw
    if line = [] || startsWith line (bytes "--") then lexLines lines (lineNum + 1) rest tokens
    else if startsWith line (bytes "=begin") then
      let _i := scanCut lines lines.length lineNum
      lexLines lines (lineNum + 1) rest tokens
    else
      match lexLoop lineNum line.length 0 line tokens with
      | .error e => .error e
      | .ok tokens2 => lexLines lines (lineNum + 1) rest tokens2

/-- The function `lex` of the source. -/
def lex (input : GoString) : Except LexError (List Token) :=
  let lines := splitLines input
  match lexLines lines 1 lines [] with
  | .error e => .error e
  | .ok tokens => .ok (tokens ++ [⟨TOKEN_EOF, [], lines.length + 1, 0⟩])

/-! ## Values -/

/-- The operations on `float64` the parser uses. They belong to the Go runtime
(`strconv.ParseFloat`, the conversion `float64(i)`, `+` and `*`) and are a
parameter of the embedding. -/
structure FloatOps (F : Type) where
  ParseFloat : GoString → Option F
  ofInt : Int → F
  add : F → F → F
  mul : F → F → F

/-- The dynamic type `Value` (`interface{}`) of the source, restricted to the
dynamic types the program stores in it: `nil` is the nil interface, `array` is
`[]Value` and `dict` is `map[string]Value`. -/
inductive Value (F : Type) where
  | nil : Value F
  | int : Int → Value F
  | float : F → Value F
  | str : GoString → Value F
  | array : List (Value F) → Value F
  | dict : List (GoString × Value F) → Value F

/-- A Go `map[string]V`: an association list in which every key occurs once.
The order of the list is the order in which the keys were first set; Go itself
leaves the iteration order of a map unspecified. -/
abbrev GoMap (V : Type) := List (GoString × V)

/-- The map lookup `v, exists := m[k]`. -/
def GoMap.get {V : Type} : GoMap V → GoString → Option V
  | [], _ => none
  | (k2, v) :: m, k => if k2 = k then some v else GoMap.get m k

/-- The map assignment `m[k] = v`. -/
def GoMap.set {V : Type} : GoMap V → GoString → V → GoMap V
  | [], k, v => [(k, v)]
  | (k2, v2) :: m, k, v => if k2 = k then (k, v) :: m else (k2, v2) :: GoMap.set m k v

/-- The range of a 64-bit Go `int`. -/
def inInt64 (x : Int) : Prop := -9223372036854775808 ≤ x ∧ x ≤ 9223372036854775807

instance (x : Int) : Decidable (inInt64 x) := by unfold inInt64; infer_instance

/-- The result of an `int` operation whose mathematical result is `x`: the
value is reduced modulo 2^64 into the signed range. -/
def wrapInt (x : Int) : Int :=
  (x + 9223372036854775808) % 18446744073709551616 - 9223372036854775808

/-- The value of a run of decimal digits. -/
def digitsValue (s : GoString) : Nat :=
  s.foldl (fun n d => 10 * n + (d - 48)) 0

/-- Go `strconv.Atoi` on a 64-bit platform: an optional sign and one or more
decimal digits, whose value lies in the range of `int`; `none` is a non-nil
error. -/
def Atoi (s : GoString) : Option Int :=
  let neg := match s with
    | c :: _ => c == 45
    | [] => false
  let body := match s with
    | c :: r => if c == 43 || c == 45 then r else s
    | [] => []
  if body = [] || !body.all isDigit then none
  else if neg then
    (if digitsValue body ≤ 9223372036854775808 then some (-(digitsValue body : Int)) else none)
  else
    (if digitsValue body ≤ 9223372036854775807 then some (digitsValue body : Int) else none)

/-! ## The parser -/

/-- The errors the parser returns; each constructor is one `fmt.Errorf` call
and carries its arguments. `fuelExhausted` belongs to the embedding only. -/
inductive ParseError where
  | invalidNumber (text : GoString) (line : Nat)
  | unexpectedValueToken (token : Token)
  | expected (tokenType got : TokenType) (line : Nat)
  | expectedDictIdentifier (token : Token)
  | unexpectedExprIdentifier (text : GoString) (line : Nat)
  | unexpectedExprToken (token : Token)
  | invalidOperands (operator : GoString) (line : Nat)
  | expectedDefineIdentifier (line : Nat)
  | unexpectedTopLevel (token : Token)
  | fuelExhausted
  deriving DecidableEq, Repr

/-- The method `Parser.current`: the token under the cursor, or an
end-of-input token when the cursor is past the last token. -/
def current (tokens : List Token) (pos : Nat) : Token :=
  tokens.getD pos ⟨TOKEN_EOF, [], 0, 0⟩

/-- The method `Parser.expect`: returns the advanced cursor. -/
def expect (tokens : List Token) (pos : Nat) (tokenType : TokenType) : Except ParseError Nat :=
  if (current tokens pos).Kind ≠ tokenType then
    .error (.expected tokenType (current tokens pos).Kind (current tokens pos).Line)
  else .ok (pos + 1)

section Parser

variable {F : Type}

/-- The function `asInts`; `none` stands for `ok == false`. -/
def asInts (a b : Value F) : Option (Int × Int) :=
  match a, b with
  | .int numA, .int numB => some (numA, numB)
  | _, _ => none

/-- One operand of `asFloats`: a `float64`, or an `int` converted. -/
def asFloat (fl : FloatOps F) (a : Value F) : Option F :=
  match a with
  | .float x => some x
  | .int i => some (fl.ofInt i)
  | _ => none

/-- The function `asFloats`; `none` stands for `ok == false`. -/
def asFloats (fl : FloatOps F) (a b : Value F) : Option (F × F) :=
  match asFloat fl a, asFloat fl b with
  | some numA, some numB => some (numA, numB)
  | _, _ => none

/-- The `for` loop of `parseArray`; `pv` is the recursive call `p.parseValue()`
at a given cursor. -/
def parseArrayLoop (pv : Nat → Except ParseError (Value F × Nat)) (tokens : List Token) :
    Nat → Nat → List (Value F) → Except ParseError (List (Value F) × Nat)
  | 0, _, _ => .error .fuelExhausted
  | fuel + 1, pos, array =>
    if (current tokens pos).Kind ≠ TOKEN_RPAREN ∧ (current tokens pos).Kind ≠ TOKEN_EOF then
      match pv pos with
      | .error e => .error e
      | .ok (val, pos2) => parseArrayLoop pv tokens fuel pos2 (array ++ [val])
    else .ok (array, pos)

/-- The method `Parser.parseArray`. -/
def parseArray (pv : Nat → Except ParseError (Value F × Nat)) (tokens : List Token)
    (pos : Nat) : Except ParseError (Value F × Nat) :=
  match expect tokens pos TOKEN_HASH with
  | .error e => .error e
  | .ok pos1 =>
    match expect tokens pos1 TOKEN_LPAREN with
    | .error e => .error e
    | .ok pos2 =>
      match parseArrayLoop pv tokens (tokens.length + 1) pos2 [] with
      | .error e => .error e
      | .ok (array, pos3) =>
        match expect tokens pos3 TOKEN_RPAREN with
        | .error e => .error e
        | .ok pos4 => .ok (.array array, pos4)

/-- The `for` loop of `parseDictionary`. -/
def parseDictionaryLoop (pv : Nat → Except ParseError (Value F × Nat)) (tokens : List Token) :
    Nat → Nat → GoMap (Value F) → Except ParseError (GoMap (Value F) × Nat)
  | 0, _, _ => .error .fuelExhausted
  | fuel + 1, pos, dict =>
    if (current tokens pos).Kind ≠ TOKEN_END ∧ (current tokens pos).Kind ≠ TOKEN_EOF then
      if (current tokens pos).Kind ≠ TOKEN_IDENT then
        .error (.expectedDictIdentifier (current tokens pos))
      else
        let key := (current tokens pos).Value
        match expect tokens (pos + 1) TOKEN_ASSIGN with
        | .error e => .error e
        | .ok pos2 =>
          match pv pos2 with
          | .error e => .error e
          | .ok (val, pos3) =>
            match expect tokens pos3 TOKEN_SEMICOLON with
            | .error e => .error e
            | .ok pos4 => parseDictionaryLoop pv tokens fuel pos4 (dict.set key val)
    else .ok (dict, pos)

/-- The method `Parser.parseDictionary`. -/
def parseDictionary (pv : Nat → Except ParseError (Value F × Nat)) (tokens : List Token)
    (pos : Nat) : Except ParseError (Value F × Nat) :=
  match expect tokens pos TOKEN_BEGIN with
  | .error e => .error e
  | .ok pos1 =>
    match parseDictionaryLoop pv tokens (tokens.length + 1) pos1 [] with
    | .error e => .error e
    | .ok (dict, pos2) =>
      match expect tokens pos2 TOKEN_END with
      | .error e => .error e
      | .ok pos3 => .ok (.dict dict, pos3)

/-- The first `switch` in the loop of `parseConstantExpression`: the operator
and the advanced cursor. -/
def parseOperator (tokens : List Token) (pos : Nat) : Except ParseError (GoString × Nat) :=
  match (current tokens pos).Kind with
  | TOKEN_PLUS => .ok ([43], pos + 1)
  | TOKEN_STAR => .ok ([42], pos + 1)
  | TOKEN_IDENT =>
    if (current tokens pos).Value = [43] then .ok ([43], pos + 1)
    else if (current tokens pos).Value = [42] then .ok ([42], pos + 1)
    else .error (.unexpectedExprIdentifier (current tokens pos).Value (current tokens pos).Line)
  | _ => .error (.unexpectedExprToken (current tokens pos))

/-- The second `switch` in the loop of `parseConstantExpression`: the new value
of `left`; `line` is the line of the token under the cursor. -/
def applyOperator (fl : FloatOps F) (operator : GoString) (left right : Value F) (line : Nat) :
    Except ParseError (Value F) :=
  if operator = [43] then
    match asInts left right with
    | some (leftNum, rightNum) => .ok (.int (wrapInt (leftNum + rightNum)))
    | none =>
      match asFloats fl left right with
      | some (leftNum, rightNum) => .ok (.float (fl.add leftNum rightNum))
      | none => .error (.invalidOperands [43] line)
  else if operator = [42] then
    match asInts left right with
    | some (leftNum, rightNum) => .ok (.int (wrapInt (leftNum * rightNum)))
    | none =>
      match asFloats fl left right with
      | some (leftNum, rightNum) => .ok (.float (fl.mul leftNum rightNum))
      | none => .error (.invalidOperands [42] line)
  else .ok left

/-- The `for` loop of `parseConstantExpression`. -/
def parseConstantExpressionLoop (fl : FloatOps F)
    (pv : Nat → Except ParseError (Value F × Nat)) (tokens : List Token) :
    Nat → Nat → Value F → Except ParseError (Value F × Nat)
  | 0, _, _ => .error .fuelExhausted
  | fuel + 1, pos, left =>
    if (current tokens pos).Kind ≠ TOKEN_RBRACKET ∧ (current tokens pos).Kind ≠ TOKEN_EOF then
      match parseOperator tokens pos with
      | .error e => .error e
      | .ok (operator, pos2) =>
        match pv pos2 with
        | .error e => .error e
        | .ok (right, pos3) =>
          match applyOperator fl operator left right (current tokens pos3).Line with
          | .error e => .error e
          | .ok left2 => parseConstantExpressionLoop fl pv tokens fuel pos3 left2
    else .ok (left, pos)

/-- The method `Parser.parseConstantExpression`. -/
def parseConstantExpression (fl : FloatOps F) (pv : Nat → Except ParseError (Value F × Nat))
    (tokens : List Token) (pos : Nat) : Except ParseError (Value F × Nat) :=
  match expect tokens pos TOKEN_BANG with
  | .error e => .error e
  | .ok pos1 =>
    match expect tokens pos1 TOKEN_LBRACKET with
    | .error e => .error e
    | .ok pos2 =>
      match pv pos2 with
      | .error e => .error e
      | .ok (left, pos3) =>
        match parseConstantExpressionLoop fl pv tokens (tokens.length + 1) pos3 left with
        | .error e => .error e
        | .ok (left2, pos4) =>
          match expect tokens pos4 TOKEN_RBRACKET with
          | .error e => .error e
          | .ok pos5 => .ok (left2, pos5)

/-- Whether a number token is read as a float (source line 207). -/
def isFloatText (s : GoString) : Bool :=
  s.contains 46 || s.contains 101 || s.contains 69

/-- The method `Parser.parseValue`: the value and the advanced cursor. The
fuel bounds the nesting depth of the recursion; every nested call comes after
at least one consumed token. -/
def parseValue (fl : FloatOps F) (tokens : List Token) (defs : GoMap (Value F)) :
    Nat → Nat → Except ParseError (Value F × Nat)
  | 0, _ => .error .fuelExhausted
  | fuel + 1, pos =>
    let token := current tokens pos
    match token.Kind with
    | TOKEN_NUMBER =>
      if isFloatText token.Value then
        match fl.ParseFloat token.Value with
        | none => .error (.invalidNumber token.Value token.Line)
        | some val => .ok (.float val, pos + 1)
      else
        match Atoi token.Value with
        | none => .error (.invalidNumber token.Value token.Line)
        | some val => .ok (.int val, pos + 1)
    | TOKEN_STRING => .ok (.str token.Value, pos + 1)
    | TOKEN_HASH => parseArray (parseValue fl tokens defs fuel) tokens pos
    | TOKEN_BEGIN => parseDictionary (parseValue fl tokens defs fuel) tokens pos
    | TOKEN_BANG => parseConstantExpression fl (parseValue fl tokens defs fuel) tokens pos
    | TOKEN_IDENT =>
      match defs.get token.Value with
      | some val => .ok (val, pos + 1)
      | none => .ok (.str token.Value, pos + 1)
    | _ => .error (.unexpectedValueToken token)

/-- The method `Parser.parseDefine`: the new constant table and the advanced
cursor. -/
def parseDefine (fl : FloatOps F) (tokens : List Token) (defs : GoMap (Value F)) (pos : Nat) :
    Except ParseError (GoMap (Value F) × Nat) :=
  match expect tokens pos TOKEN_LPAREN with
  | .error e => .error e
  | .ok pos1 =>
    match expect tokens pos1 TOKEN_DEFINE with
    | .error e => .error e
    | .ok pos2 =>
      if (current tokens pos2).Kind ≠ TOKEN_IDENT then
        .error (.expectedDefineIdentifier (current tokens pos2).Line)
      else
        let name := (current tokens pos2).Value
        match parseValue fl tokens defs (tokens.length + 1) (pos2 + 1) with
        | .error e => .error e
        | .ok (val, pos3) =>
          match expect tokens pos3 TOKEN_RPAREN with
          | .error e => .error e
          | .ok pos4 =>
            match expect tokens pos4 TOKEN_SEMICOLON with
            | .error e => .error e
            | .ok pos5 => .ok (defs.set name val, pos5)

/-- The `for` loop of `Parser.parse`: `defs` is the constant table `p.defs` and
`result` the Document built so far. -/
def parseLoop (fl : FloatOps F) (tokens : List Token) :
    Nat → Nat → GoMap (Value F) → GoMap (Value F) → Except ParseError (GoMap (Value F))
  | 0, _, _, _ => .error .fuelExhausted
  | fuel + 1, pos, defs, result =>
    if (current tokens pos).Kind ≠ TOKEN_EOF then
      match (current tokens pos).Kind with
      | TOKEN_LPAREN =>
        match parseDefine fl tokens defs pos with
        | .error e => .error e
        | .ok (defs2, pos2) => parseLoop fl tokens fuel pos2 defs2 result
      | TOKEN_IDENT =>
        let key := (current tokens pos).Value
        match expect tokens (pos + 1) TOKEN_ASSIGN with
        | .error e => .error e
        | .ok pos2 =>
          match parseValue fl tokens defs (tokens.length + 1) pos2 with
          | .error e => .error e
          | .ok (val, pos3) =>
            match expect tokens pos3 TOKEN_SEMICOLON with
            | .error e => .error e
            | .ok pos4 => parseLoop fl tokens fuel pos4 defs (result.set key val)
      | _ => .error (.unexpectedTopLevel (current tokens pos))
    else .ok result

/-- The method `Parser.parse` of a parser made as `Parser{tokens: tokens}`: the
cursor starts at 0 and the constant table and the Document start empty. -/
def parse (fl : FloatOps F) (tokens : List Token) : Except ParseError (GoMap (Value F)) :=
  parseLoop fl tokens (tokens.length + 1) 0 [] []

/-- The pipeline of `main`: `lex`, then `parse`. A lexer error ends the run
before the parser (`none`). -/
def lexParse (fl : FloatOps F) (input : GoString) : Option (Except ParseError (GoMap (Value F))) :=
  match lex input with
  | .error _ => none
  | .ok tokens => some (parse fl tokens)

end Parser

/-! ## Vocabulary of the statements -/

/-- The run on `input` ends with the Document `doc`, whatever the float
operations are. -/
def ParsesTo (input : GoString) (doc : (F : Type) → GoMap (Value F)) : Prop :=
  ∀ (F : Type) (fl : FloatOps F), lexParse fl input = some (.ok (doc F))

/-- The run on `input` gets through the lexer and ends with the parser error
`e`, whatever the float operations are. -/
def ParseFailsWith (input : GoString) (e : ParseError) : Prop :=
  ∀ (F : Type) (fl : FloatOps F), lexParse fl input = some (.error e)

/-- The bytes that the lexer reads as one identifier: a letter or underscore,
then letters, digits or underscores (in the lexer's bytewise reading of these
classes, where a byte from 128 on stands for the code point of its number). -/
def isIdentifier (s : GoString) : Bool :=
  match s with
  | [] => false
  | c :: cs => (isLetter c || c == 95) && cs.all isIdentChar

/-- An identifier made of ASCII letters, digits and underscores only: the text
of its token is the identifier itself. -/
def isAsciiIdentifier (s : GoString) : Bool :=
  isIdentifier s && s.all (fun b => decide (b < 128))

/-- A bare integer literal: an optional sign and one or more decimal digits. -/
def isIntLiteral (s : GoString) : Bool :=
  match s with
  | [] => false
  | c :: cs => if c == 43 || c == 45 then (cs != [] && cs.all isDigit) else (c :: cs).all isDigit

/-- The integer a bare integer literal denotes. -/
def literalValue (s : GoString) : Int :=
  match s with
  | [] => 0
  | c :: cs =>
    if c == 45 then -(digitsValue cs : Int)
    else if c == 43 then (digitsValue cs : Int)
    else (digitsValue (c :: cs) : Int)

/-- The inner loop of `lex` on the rest of a line, with the fuel `lex` gives it
or more. -/
def lexRun (lineNum pos : Nat) (rest : GoString) (tokens : List Token) :
    Except LexError (List Token) :=
  lexLoop lineNum rest.length pos rest tokens

/-- The single-byte punctuation and the kind of its token. -/
def punctKind (c : Nat) : Option TokenType :=
  if c = 40 then some TOKEN_LPAREN
  else if c = 41 then some TOKEN_RPAREN
  else if c = 91 then some TOKEN_LBRACKET
  else if c = 93 then some TOKEN_RBRACKET
  else if c = 59 then some TOKEN_SEMICOLON
  else if c = 35 then some TOKEN_HASH
  else if c = 33 then some TOKEN_BANG
  else if c = 42 then some TOKEN_STAR
  else none

/-- What may follow a bare integer literal for the literal to be a token of its
own: not a digit, `.`, `e` or `E`. -/
def endsNumber (r : GoString) : Bool :=
  match r with
  | [] => true
  | d :: _ => !(isDigit d || d == 46 || d == 101 || d == 69)

/-- A sufficient condition, on the first two bytes, for a string not to start
with a white-space rune. -/
def noLeadingSpace (s : GoString) : Bool :=
  match s with
  | [] => true
  | c :: r =>
    !(c == 9 || c == 10 || c == 11 || c == 12 || c == 13 || c == 32) &&
    (!(c == 194 || c == 225 || c == 226 || c == 227) ||
      (match r with
       | [] => true
       | d :: _ => !(d == 133 || d == 160 || d == 154 || d == 128 || d == 129)))

/-- A sufficient condition, on the last byte, for a string not to end with a
white-space rune. -/
def noTrailingSpace (s : GoString) : Bool :=
  match s.reverse with
  | [] => true
  | c :: _ =>
    !(c == 9 || c == 10 || c == 11 || c == 12 || c == 13 || c == 32 || c == 133 || c == 160 ||
      (decide (128 ≤ c) && decide (c ≤ 138)) || c == 168 || c == 169 || c == 175 || c == 159)

/-- The keywords of the lexer. -/
def keywords : List GoString := [bytes "define", bytes "begin", bytes "end"]

/-- The result of folding the operator `op` (`+` is 43, `*` is 42) into an
integer accumulator, with the overflow behaviour of a Go `int`. -/
def foldStep (acc : Int) (p : Nat × GoString) : Int :=
  if p.1 = 43 then wrapInt (acc + literalValue p.2) else wrapInt (acc * literalValue p.2)

/-- The text of the operator-operand pairs of a constant expression, each
written as a space, the operator, a space and the operand. -/
def opsText : List (Nat × GoString) → GoString
  | [] => []
  | (op, l) :: rest => 32 :: op :: 32 :: (l ++ opsText rest)

/-- The tokens of `opsText` at position `pos` of line `ln`. -/
def opsTokens (ln : Nat) : Nat → List (Nat × GoString) → List Token
  | _, [] => []
  | pos, (op, l) :: rest =>
    ⟨if op = 43 then TOKEN_PLUS else TOKEN_STAR, [op], ln, pos + 1⟩ ::
      ⟨TOKEN_NUMBER, l, ln, pos + 1 + 1 + 1⟩ :: opsTokens ln (pos + 1 + 1 + 1 + l.length) rest

/-- The operator-operand pairs of the statements below: `+` or `*` and a bare
integer literal in the range of `int`. -/
def validOps (ops : List (Nat × GoString)) : Prop :=
  ∀ p ∈ ops, (p.1 = 43 ∨ p.1 = 42) ∧ isIntLiteral p.2 = true ∧ inInt64 (literalValue p.2)

instance (ops : List (Nat × GoString)) : Decidable (validOps ops) := by
  unfold validOps; infer_instance

/-- The exact arithmetic of one operator of a constant expression. -/
def exactStep (acc : Int) (p : Nat × GoString) : Int :=
  if p.1 = 43 then acc + literalValue p.2 else acc * literalValue p.2

/-- Every intermediate result of the exact left fold is in the range of `int`. -/
def intermediatesFit : Int → List (Nat × GoString) → Bool
  | _, [] => true
  | acc, p :: rest => decide (inInt64 (exactStep acc p)) && intermediatesFit (exactStep acc p) rest

/-- The text of the elements of an array, each written after one space. -/
def numsText : List GoString → GoString
  | [] => []
  | l :: rest => 32 :: (l ++ numsText rest)

/-- The tokens of `numsText` at position `pos` of line `ln`. -/
def numsTokens (ln : Nat) : Nat → List GoString → List Token
  | _, [] => []
  | pos, l :: rest => ⟨TOKEN_NUMBER, l, ln, pos + 1⟩ :: numsTokens ln (pos + 1 + l.length) rest

/-- Bare integer literals in the range of `int`. -/
def validInts (lits : List GoString) : Prop :=
  ∀ l ∈ lits, isIntLiteral l = true ∧ inInt64 (literalValue l)

instance (lits : List GoString) : Decidable (validInts lits) := by
  unfold validInts; infer_instance

/-- The value of a dictionary entry in the statements below: a string literal or a bare
integer literal. -/
inductive Literal where
  | str (s : GoString)
  | int (text : GoString)
  deriving DecidableEq

/-- A string literal holds no single quote and no newline; an integer literal
is in the range of `int`. -/
def Literal.valid : Literal → Prop
  | .str s => 39 ∉ s ∧ 10 ∉ s
  | .int l => isIntLiteral l = true ∧ inInt64 (literalValue l)

instance (v : Literal) : Decidable v.valid := by
  cases v <;> (unfold Literal.valid; infer_instance)

/-- The source text of a literal. -/
def Literal.text : Literal → GoString
  | .str s => 39 :: (s ++ [39])
  | .int l => l

/-- The value a literal denotes. -/
def Literal.value (F : Type) : Literal → Value F
  | .str s => .str s
  | .int l => .int (literalValue l)

/-- The token of a literal. -/
def Literal.token (ln pos : Nat) : Literal → Token
  | .str s => ⟨TOKEN_STRING, s, ln, pos⟩
  | .int l => ⟨TOKEN_NUMBER, l, ln, pos⟩

/-- The text of dictionary entries, each written as a space and `key := value;`. -/
def entriesText : List (GoString × Literal) → GoString
  | [] => []
  | (k, v) :: rest => 32 :: (k ++ 32 :: 58 :: 61 :: 32 :: (v.text ++ 59 :: entriesText rest))

/-- The tokens of `entriesText` at position `pos` of line `ln`. -/
def entriesTokens (ln : Nat) : Nat → List (GoString × Literal) → List Token
  | _, [] => []
  | pos, (k, v) :: rest =>
    ⟨TOKEN_IDENT, k, ln, pos + 1⟩ :: ⟨TOKEN_ASSIGN, [58, 61], ln, pos + 1 + k.length + 1⟩ ::
      v.token ln (pos + 1 + k.length + 1 + 2 + 1) ::
      ⟨TOKEN_SEMICOLON, [59], ln, pos + 1 + k.length + 1 + 2 + 1 + v.text.length⟩ ::
      entriesTokens ln (pos + 1 + k.length + 1 + 2 + 1 + v.text.length + 1) rest

/-- The entries of the statements below: the key is an identifier of ASCII
letters, digits and underscores and no keyword, the value a valid literal. -/
def validEntries (es : List (GoString × Literal)) : Prop :=
  ∀ e ∈ es, isAsciiIdentifier e.1 = true ∧ e.1 ∉ keywords ∧ e.2.valid

instance (es : List (GoString × Literal)) : Decidable (validEntries es) := by
  unfold validEntries; infer_instance

/-- The dictionary the entries build: each entry is assigned in turn. -/
def dictOf (F : Type) (es : List (GoString × Literal)) : GoMap (Value F) :=
  es.foldl (fun d e => d.set e.1 (e.2.value F)) []

/-- The value of the last entry written with the key `k`, if there is one. -/
def lastEntry (F : Type) (es : List (GoString × Literal)) (k : GoString) : Option (Value F) :=
  (es.reverse.find? (fun e => e.1 == k)).map (fun e => e.2.value F)

/-- No token of the list is an end-of-input token. -/
def noEOF (tokens : List Token) : Prop := ∀ t ∈ tokens, t.Kind ≠ TOKEN_EOF

/-- The lines of an input, joined by newlines. -/
def joinLines : List GoString → GoString
  | [] => []
  | [l] => l
  | l :: rest => l ++ 10 :: joinLines rest

/-- The decimal digits of a natural number (`%d`). -/
def decimal (n : Nat) : GoString := (Nat.toDigits 10 n).map Char.toNat

/-- The text of a lexer error (the format strings of the source). -/
def LexError.message : LexError → GoString
  | .unclosedString line => bytes "unclosed string at line " ++ decimal line
  | .unexpectedColon line pos =>
    bytes "unexpected character ':' at line " ++ decimal line ++ bytes ", position " ++
      decimal pos
  | .unexpectedCharacter c line pos =>
    bytes "unexpected character '" ++ encodeRune c ++ bytes "' at line " ++ decimal line ++
      bytes ", position " ++ decimal pos
  | .fuelExhausted => []

/-! ## Values that are missing or of the wrong kind -/

/-- The token kinds with which `parseValue` starts a value. -/
def valueKinds : List TokenType :=
  [TOKEN_NUMBER, TOKEN_STRING, TOKEN_HASH, TOKEN_BEGIN, TOKEN_BANG, TOKEN_IDENT]

/-! ## Progress and totality of the parser -/

/-- Every successful call at a cursor returns a strictly greater cursor that is
at most the number of tokens. -/
def Progresses {F : Type} (pv : Nat → Except ParseError (Value F × Nat)) (tokens : List Token) :
    Prop :=
  ∀ p v p2, pv p = .ok (v, p2) → p < p2 ∧ p2 ≤ tokens.length

/-- No call at a cursor from `p0` to the number of tokens runs out of fuel. -/
def FuelSafeFrom {F : Type} (pv : Nat → Except ParseError (Value F × Nat)) (tokens : List Token)
    (p0 : Nat) : Prop :=
  ∀ p, p0 ≤ p → p ≤ tokens.length → pv p ≠ .error .fuelExhausted

/-! ## Operands that are no numbers -/

/-- A non-negative integer literal: one or more decimal digits. -/
def isDigits (s : GoString) : Bool := s != [] && s.all isDigit

/-! ## Well-formed tokens -/

/-- The fixed text of the punctuation and keyword kinds; identifier, number,
string and end-of-input tokens have none. -/
def fixedText : TokenType → Option GoString
  | TOKEN_LPAREN => some (bytes "(")
  | TOKEN_RPAREN => some (bytes ")")
  | TOKEN_LBRACKET => some (bytes "[")
  | TOKEN_RBRACKET => some (bytes "]")
  | TOKEN_SEMICOLON => some (bytes ";")
  | TOKEN_ASSIGN => some (bytes ":=")
  | TOKEN_HASH => some (bytes "#")
  | TOKEN_BANG => some (bytes "!")
  | TOKEN_DEFINE => some (bytes "define")
  | TOKEN_BEGIN => some (bytes "begin")
  | TOKEN_END => some (bytes "end")
  | TOKEN_PLUS => some (bytes "+")
  | TOKEN_STAR => some (bytes "*")
  | _ => none

/-- The text of a token fits its kind. The text of an identifier token is the
UTF-8 text of a sequence of code points that starts with a letter or underscore
and goes on with letters, digits and underscores, and it is no keyword; a keyword
or punctuation token holds its fixed text, and the end-of-input token holds the
empty text. Number and string tokens hold any text. -/
def Token.wellFormed (t : Token) : Prop :=
  match t.Kind with
  | TOKEN_IDENT =>
    (∃ raw, isIdentifier raw = true ∧ t.Value = identText raw) ∧ t.Value ∉ keywords
  | TOKEN_NUMBER => True
  | TOKEN_STRING => True
  | TOKEN_EOF => t.Value = []
  | k => fixedText k = some t.Value

/-! ## The serializer -/

/-- Go `fmt.Sprintf("%d", v)` for an `int`: a `-` for a negative number, then
the decimal digits of the magnitude. -/
def formatInt (v : Int) : GoString :=
  if v < 0 then 45 :: decimal v.natAbs else decimal v.natAbs

/-- Go `strings.Join`. -/
def joinWith (sep : GoString) : List GoString → GoString
  | [] => []
  | [s] => s
  | s :: rest => s ++ sep ++ joinWith sep rest

/-- The text `k = v` the serializer writes for a map entry whose value is
already rendered. -/
def entryText (e : GoString × GoString) : GoString := e.1 ++ bytes " = " ++ e.2

section Serializer

variable {F : Type}

mutual

/-- The function `valueToTOML` of the source. `fmtFloat` is `fmt.Sprintf("%.1f", v)`
on a `float64`. Go leaves the order in which `range` visits a map unspecified:
`order` is the order of the run, it takes the entries of a map in stored order,
each with its value rendered, and returns them in the order of the visit. -/
def valueToTOML (fmtFloat : F → GoString)
    (order : List (GoString × GoString) → List (GoString × GoString)) : Value F → GoString
  | .int v => formatInt v
  | .float v => fmtFloat v
  | .str v => bytes "\"" ++ v ++ bytes "\""
  | .array v => bytes "[" ++ joinWith (bytes ", ") (elementsToTOML fmtFloat order v) ++ bytes "]"
  | .dict v =>
    bytes "\x7b " ++ joinWith (bytes ", ") ((order (entriesToTOML fmtFloat order v)).map entryText) ++
      bytes " \x7d"
  | .nil => bytes "null"

/-- The slice `elements` of `valueToTOML`: the renderings of the elements of an
array, in order. -/
def elementsToTOML (fmtFloat : F → GoString)
    (order : List (GoString × GoString) → List (GoString × GoString)) :
    List (Value F) → List GoString
  | [] => []
  | v :: rest => valueToTOML fmtFloat order v :: elementsToTOML fmtFloat order rest

/-- The entries of a map in stored order, each with its value rendered. -/
def entriesToTOML (fmtFloat : F → GoString)
    (order : List (GoString × GoString) → List (GoString × GoString)) :
    List (GoString × Value F) → List (GoString × GoString)
  | [] => []
  | (k, v) :: rest => (k, valueToTOML fmtFloat order v) :: entriesToTOML fmtFloat order rest

end

/-- The function `toTOML` of the source: for every entry the `range` visits, the
key, ` = `, the rendered value and a newline. The parameter `indent` of the
source is not used. -/
def toTOML (fmtFloat : F → GoString)
    (order : List (GoString × GoString) → List (GoString × GoString))
    (data : GoMap (Value F)) : GoString :=
  ((order (entriesToTOML fmtFloat order data)).map (fun e => entryText e ++ bytes "\n")).flatten

end Serializer

/-! ## The order of the lines -/

/-- An order of visit of the entries of a map is a permutation of the entries:
all that Go promises of a `range` over a map. -/
def IsVisitOrder (order : List (GoString × GoString) → List (GoString × GoString)) : Prop :=
  ∀ l, (order l).Perm l

/-- The line `key = value` and its newline that `toTOML` writes for an entry of
the Document. -/
def lineOf {F : Type} (fmtFloat : F → GoString)
    (order : List (GoString × GoString) → List (GoString × GoString))
    (e : GoString × Value F) : GoString :=
  e.1 ++ bytes " = " ++ valueToTOML fmtFloat order e.2 ++ bytes "\n"

/-! ## The reference renderer -/

/-- Reference: the decimal digits of a natural number, most significant first,
`0` for zero. -/
def referenceDecimal (n : Nat) : GoString :=
  if n = 0 then [48] else (Nat.digits 10 n).reverse.map (fun d => 48 + d)

mutual

/-- A value built only from integers, strings and arrays, at every depth. -/
def Value.isPlain {F : Type} : Value F → Bool
  | .int _ => true
  | .str _ => true
  | .array v => Value.allPlain v
  | _ => false

/-- Every value of the list is built only from integers, strings and arrays. -/
def Value.allPlain {F : Type} : List (Value F) → Bool
  | [] => true
  | v :: rest => v.isPlain && Value.allPlain rest

end

mutual

/-- Reference renderer, written from the words of the specification: an integer
is its decimal digits with a leading `-` exactly when it is negative; a string
is a double quote, the string unchanged and a double quote; an array is `[`,
the renderings of its elements in order with `, ` between them, and `]`. Other
values are outside the reference and render as the empty text. -/
def referenceRender {F : Type} : Value F → GoString
  | .int v => (if v < 0 then bytes "-" else []) ++ referenceDecimal v.natAbs
  | .str s => bytes "\"" ++ s ++ bytes "\""
  | .array v => bytes "[" ++ (List.intersperse (bytes ", ") (referenceRenderAll v)).flatten ++
      bytes "]"
  | _ => []

/-- Reference renderings of the values of a list, in order. -/
def referenceRenderAll {F : Type} : List (Value F) → List GoString
  | [] => []
  | v :: rest => referenceRender v :: referenceRenderAll rest

end

/-! ## The value model is closed under parsing -/

mutual

/-- The value is an integer, a float, a string, an array of such values or a
dictionary of such values: no nil interface at any depth. -/
def Value.closed {F : Type} : Value F → Bool
  | .nil => false
  | .int _ => true
  | .float _ => true
  | .str _ => true
  | .array v => Value.allClosed v
  | .dict v => Value.entriesClosed v

/-- Every value of the list is closed. -/
def Value.allClosed {F : Type} : List (Value F) → Bool
  | [] => true
  | v :: rest => v.closed && Value.allClosed rest

/-- Every value stored in the map is closed. -/
def Value.entriesClosed {F : Type} : List (GoString × Value F) → Bool
  | [] => true
  | (_, v) :: rest => v.closed && Value.entriesClosed rest

end

mutual

/-- The value itself and every value stored in it, at every depth. -/
def Value.subvalues {F : Type} : Value F → List (Value F)
  | .nil => [.nil]
  | .int v => [.int v]
  | .float v => [.float v]
  | .str v => [.str v]
  | .array v => .array v :: Value.subvaluesOfList v
  | .dict v => .dict v :: Value.subvaluesOfEntries v

/-- The subvalues of the values of a list. -/
def Value.subvaluesOfList {F : Type} : List (Value F) → List (Value F)
  | [] => []
  | v :: rest => v.subvalues ++ Value.subvaluesOfList rest

/-- The subvalues of the values stored in a map. -/
def Value.subvaluesOfEntries {F : Type} : List (GoString × Value F) → List (Value F)
  | [] => []
  | (_, v) :: rest => v.subvalues ++ Value.subvaluesOfEntries rest

end

/-- Every value a call returns is closed. -/
def ClosedResults {F : Type} (pv : Nat → Except ParseError (Value F × Nat)) : Prop :=
  ∀ p v p2, pv p = .ok (v, p2) → v.closed = true

/-! ## Trailing comments -/

/-- The white space at the end of a line that `strings.TrimSpace` removes: what
follows the trimmed line in the line without its leading white space. -/
def trailingSpace (s : GoString) : GoString :=
  (trimLeftLoop s.length s).drop (TrimSpace s).length

/-! # Theorems -/

/-! ## The lexer: fuel and steps -/

theorem length_dropWhile_le (p : Nat → Bool) (s : GoString) :
    (s.dropWhile p).length ≤ s.length := by
  induction s with
  | nil => simp
  | cons c s ih =>
    simp only [List.dropWhile_cons]
    split
    · simp only [List.length_cons]; omega
    · exact Nat.le_refl _

theorem scanFraction_length (s : GoString) : (scanFraction s).2.length ≤ s.length := by
  unfold scanFraction
  split
  · rename_i r
    have := length_dropWhile_le isDigit r
    simp only [List.length_cons]; omega
  · exact Nat.le_refl _

theorem indexByte_lt {s : GoString} {b e : Nat} (h : indexByte s b = some e) : e < s.length := by
  induction s generalizing e with
  | nil => simp [indexByte] at h
  | cons c s ih =>
    simp only [indexByte] at h
    split at h
    · simp at h; subst h; simp
    · cases hs : indexByte s b with
      | none => simp [hs] at h
      | some e2 =>
        simp [hs] at h
        subst h
        have := ih hs
        simp only [List.length_cons]; omega

theorem scanNumber_length (c : Nat) (cs : GoString)
    (h : (isDigit c || ((c == 45 || c == 43) && (cs.head?.map isDigit).getD false)) = true) :
    (scanNumber (c :: cs)).2.length ≤ cs.length := by
  unfold scanNumber
  by_cases hs : (c == 45 || c == 43) = true
  · have h1 := scanFraction_length (cs.dropWhile isDigit)
    have h2 := length_dropWhile_le isDigit cs
    simp only [scanSign, hs, if_true, List.length_singleton, List.drop_succ_cons, List.drop_zero]
    omega
  · have hd : isDigit c = true := by
      simp only [Bool.not_eq_true] at hs
      simpa [hs] using h
    have h1 := scanFraction_length (cs.dropWhile isDigit)
    have h2 := length_dropWhile_le isDigit cs
    simp only [scanSign, hs, List.length_nil, List.drop_zero, List.dropWhile_cons, hd, if_true]
    simp only [Bool.false_eq_true, if_false, List.length_nil, List.drop_zero,
      List.dropWhile_cons, hd, if_true]
    omega

theorem sciMatch_first {c : Nat} {cs : GoString} (h : sciMatch (c :: cs) = true) :
    isSciChar c = true := by
  unfold sciMatch at h
  by_cases hs : (c == 43 || c == 45) = true
  · simp only [Bool.or_eq_true, beq_iff_eq] at hs
    rcases hs with rfl | rfl <;> decide
  · simp only [hs, Bool.false_eq_true, if_false, digitsThen, Bool.and_eq_true] at h
    simp [isSciChar, h.1]

theorem lexLoop_nil (ln f pos : Nat) (acc : List Token) :
    lexLoop ln f pos [] acc = .ok acc := by
  cases f <;> rfl

theorem lexLoop_cons (ln f pos c : Nat) (cs : GoString) (acc : List Token) :
    lexLoop ln (f + 1) pos (c :: cs) acc = lexStep ln (lexLoop ln f) pos c cs acc := rfl

/-- Every iteration of the inner loop either ends the loop, with the tokens
read so far or with an error, or goes on with a strictly shorter rest of the
line and at most one more token, which is no end-of-input token. -/
theorem lexStep_shape (ln pos c : Nat) (cs : GoString) (acc : List Token) :
    (∃ res, (res = .ok acc ∨ ∃ e, res = .error e ∧ e ≠ .fuelExhausted) ∧
      ∀ k, lexStep ln k pos c cs acc = res) ∨
    (∃ p r a, r.length ≤ cs.length ∧ (a = acc ∨ ∃ t, a = acc ++ [t] ∧ t.Kind ≠ TOKEN_EOF) ∧
      ∀ k, lexStep ln k pos c cs acc = k p r a) := by
  have hd : ∀ k, (cs.drop k).length ≤ cs.length := by
    intro k; rw [List.length_drop]; omega
  unfold lexStep
  by_cases h1 : isSpace c = true
  · exact Or.inr ⟨_, _, _, Nat.le_refl _, Or.inl rfl, fun k => by rw [if_pos h1]⟩
  simp only [if_neg h1]
  by_cases h2 : startsWith (c :: cs) [45, 45] = true
  · exact Or.inl ⟨_, Or.inl rfl, fun k => by rw [if_pos h2]⟩
  simp only [if_neg h2]
  by_cases h3 : (c == 39) = true
  · cases hi : indexByte cs 39 with
    | none =>
      refine Or.inl ⟨_, Or.inr ⟨_, rfl, ?_⟩, fun k => by rw [if_pos h3]⟩
      simp
    | some e =>
      refine Or.inr ⟨_, _, _, hd (e + 1), Or.inr ⟨_, rfl, ?_⟩, fun k => by rw [if_pos h3]⟩
      simp
  simp only [if_neg h3]
  by_cases h4 : sciMatch (c :: cs) = true
  · have hc := sciMatch_first h4
    have hl := length_dropWhile_le isSciChar cs
    refine Or.inr ⟨_, _, _, ?_, Or.inr ⟨_, rfl, ?_⟩, fun k => by rw [if_pos h4]⟩
    · simp only [List.dropWhile_cons, hc, if_true]
      exact hl
    · simp
  simp only [if_neg h4]
  by_cases h5 : (isDigit c || ((c == 45 || c == 43) && (cs.head?.map isDigit).getD false)) = true
  · refine Or.inr ⟨_, _, _, scanNumber_length c cs h5, Or.inr ⟨_, rfl, ?_⟩,
      fun k => by rw [if_pos h5]⟩
    simp
  simp only [if_neg h5]
  by_cases h6 : (isLetter c || c == 95) = true
  · have hc : isIdentChar c = true := by
      simp only [Bool.or_eq_true, beq_iff_eq] at h6
      rcases h6 with h | h
      · simp [isIdentChar, h]
      · subst h; decide
    have hl := length_dropWhile_le isIdentChar cs
    refine Or.inr ⟨_, _, _, ?_, Or.inr ⟨_, rfl, ?_⟩, fun k => by rw [if_pos h6]⟩
    · simp only [List.dropWhile_cons, hc, if_true]
      exact hl
    · simp only [identKind]
      split
      · simp
      · split
        · simp
        · split <;> simp
  simp only [if_neg h6]
  by_cases h7 : (c == 40) = true
  · refine Or.inr ⟨_, _, _, Nat.le_refl _, Or.inr ⟨_, rfl, ?_⟩, fun k => by rw [if_pos h7]⟩
    simp
  simp only [if_neg h7]
  by_cases h8 : (c == 41) = true
  · refine Or.inr ⟨_, _, _, Nat.le_refl _, Or.inr ⟨_, rfl, ?_⟩, fun k => by rw [if_pos h8]⟩
    simp
  simp only [if_neg h8]
  by_cases h9 : (c == 91) = true
  · refine Or.inr ⟨_, _, _, Nat.le_refl _, Or.inr ⟨_, rfl, ?_⟩, fun k => by rw [if_pos h9]⟩
    simp
  simp only [if_neg h9]
  by_cases h10 : (c == 93) = true
  · refine Or.inr ⟨_, _, _, Nat.le_refl _, Or.inr ⟨_, rfl, ?_⟩, fun k => by rw [if_pos h10]⟩
    simp
  simp only [if_neg h10]
  by_cases h11 : (c == 59) = true
  · refine Or.inr ⟨_, _, _, Nat.le_refl _, Or.inr ⟨_, rfl, ?_⟩, fun k => by rw [if_pos h11]⟩
    simp
  simp only [if_neg h11]
  by_cases h12 : (c == 58) = true
  · by_cases h13 : cs.head? = some 61
    · refine Or.inr ⟨_, _, _, hd 1, Or.inr ⟨_, rfl, ?_⟩,
        fun k => by rw [if_pos h12, if_pos h13]⟩
      simp
    · refine Or.inl ⟨_, Or.inr ⟨_, rfl, ?_⟩, fun k => by rw [if_pos h12, if_neg h13]⟩
      simp
  simp only [if_neg h12]
  by_cases h14 : (c == 35) = true
  · refine Or.inr ⟨_, _, _, Nat.le_refl _, Or.inr ⟨_, rfl, ?_⟩, fun k => by rw [if_pos h14]⟩
    simp
  simp only [if_neg h14]
  by_cases h15 : (c == 33) = true
  · refine Or.inr ⟨_, _, _, Nat.le_refl _, Or.inr ⟨_, rfl, ?_⟩, fun k => by rw [if_pos h15]⟩
    simp
  simp only [if_neg h15]
  by_cases h16 : (c == 43) = true
  · refine Or.inr ⟨_, _, _, Nat.le_refl _, Or.inr ⟨_, rfl, ?_⟩, fun k => by rw [if_pos h16]⟩
    simp
  simp only [if_neg h16]
  by_cases h17 : (c == 42) = true
  · refine Or.inr ⟨_, _, _, Nat.le_refl _, Or.inr ⟨_, rfl, ?_⟩, fun k => by rw [if_pos h17]⟩
    simp
  simp only [if_neg h17]
  refine Or.inl ⟨_, Or.inr ⟨_, rfl, ?_⟩, fun k => rfl⟩
  simp

/-- The inner loop does not depend on its fuel once the fuel covers the rest of
the line. -/
theorem lexLoop_fuel (ln : Nat) : ∀ (f1 f2 pos : Nat) (rest : GoString) (acc : List Token),
    rest.length ≤ f1 → rest.length ≤ f2 →
    lexLoop ln f1 pos rest acc = lexLoop ln f2 pos rest acc := by
  intro f1
  induction f1 with
  | zero =>
    intro f2 pos rest acc h1 h2
    have : rest = [] := List.length_eq_zero.mp (Nat.le_zero.mp h1)
    subst this
    rw [lexLoop_nil, lexLoop_nil]
  | succ n1 ih =>
    intro f2 pos rest acc h1 h2
    cases rest with
    | nil => rw [lexLoop_nil, lexLoop_nil]
    | cons c cs =>
      cases f2 with
      | zero => simp at h2
      | succ n2 =>
        simp only [List.length_cons, Nat.add_le_add_iff_right] at h1 h2
        rw [lexLoop_cons, lexLoop_cons]
        rcases lexStep_shape ln pos c cs acc with ⟨res, _, hres⟩ | ⟨p, r, a, hr, _, hk⟩
        · rw [hres, hres]
        · rw [hk, hk]
          exact ih _ _ _ _ (Nat.le_trans hr h1) (Nat.le_trans hr h2)

/-- The inner loop never runs out of fuel when the fuel covers the rest of the
line. -/
theorem lexLoop_ne_fuelExhausted (ln : Nat) : ∀ (f pos : Nat) (rest : GoString)
    (acc : List Token), rest.length ≤ f → lexLoop ln f pos rest acc ≠ .error .fuelExhausted := by
  intro f
  induction f with
  | zero =>
    intro pos rest acc h
    have : rest = [] := List.length_eq_zero.mp (Nat.le_zero.mp h)
    subst this
    rw [lexLoop_nil]; simp
  | succ n ih =>
    intro pos rest acc h
    cases rest with
    | nil => rw [lexLoop_nil]; simp
    | cons c cs =>
      simp only [List.length_cons, Nat.add_le_add_iff_right] at h
      rw [lexLoop_cons]
      rcases lexStep_shape ln pos c cs acc with ⟨res, hne, hres⟩ | ⟨p, r, a, hr, _, hk⟩
      · rw [hres]
        rcases hne with rfl | ⟨e, rfl, he⟩
        · simp
        · simpa using he
      · rw [hk]; exact ih _ _ _ (Nat.le_trans hr h)

theorem lexRun_nil (ln pos : Nat) (acc : List Token) : lexRun ln pos [] acc = .ok acc := rfl

/-- The inner loop as a fixed point of its body. -/
theorem lexRun_cons (ln pos c : Nat) (cs : GoString) (acc : List Token) :
    lexRun ln pos (c :: cs) acc = lexStep ln (lexRun ln) pos c cs acc := by
  show lexLoop ln (cs.length + 1) pos (c :: cs) acc = _
  rw [lexLoop_cons]
  rcases lexStep_shape ln pos c cs acc with ⟨res, _, hres⟩ | ⟨p, r, a, hr, _, hk⟩
  · rw [hres, hres]
  · rw [hk, hk]
    exact lexLoop_fuel ln _ _ _ _ _ hr (Nat.le_refl _)

theorem lexRun_space (ln pos c : Nat) (cs : GoString) (acc : List Token)
    (h : isSpace c = true) : lexRun ln pos (c :: cs) acc = lexRun ln (pos + 1) cs acc := by
  rw [lexRun_cons]; unfold lexStep; rw [if_pos h]

theorem lexRun_punct (ln pos c : Nat) (cs : GoString) (acc : List Token) (k : TokenType)
    (h : punctKind c = some k) :
    lexRun ln pos (c :: cs) acc = lexRun ln (pos + 1) cs (acc ++ [⟨k, [c], ln, pos⟩]) := by
  rw [lexRun_cons]
  unfold punctKind at h
  repeat' split at h
  all_goals first
    | (subst c; cases h
       simp [lexStep, isSpace, startsWith, sciMatch, digitsThen, isDigit, isLetter])
    | cases h

theorem lexRun_plus (ln pos : Nat) (cs : GoString) (acc : List Token)
    (h : (cs.head?.map isDigit).getD false = false) :
    lexRun ln pos (43 :: cs) acc = lexRun ln (pos + 1) cs (acc ++ [⟨TOKEN_PLUS, [43], ln, pos⟩]) := by
  rw [lexRun_cons]
  have hs : sciMatch (43 :: cs) = false := by
    cases cs with
    | nil => rfl
    | cons d r => simp at h; simp [sciMatch, digitsThen, h]
  simp [lexStep, isSpace, startsWith, hs, h, isDigit, isLetter]

theorem lexRun_assign (ln pos : Nat) (cs : GoString) (acc : List Token) :
    lexRun ln pos (58 :: 61 :: cs) acc =
      lexRun ln (pos + 2) cs (acc ++ [⟨TOKEN_ASSIGN, [58, 61], ln, pos⟩]) := by
  rw [lexRun_cons]
  simp [lexStep, isSpace, startsWith, sciMatch, digitsThen, isDigit, isLetter]

theorem indexByte_append (s r : GoString) (b : Nat) (h : b ∉ s) :
    indexByte (s ++ b :: r) b = some s.length := by
  induction s with
  | nil => simp [indexByte]
  | cons c s ih =>
    simp only [List.mem_cons, not_or] at h
    have hc : (c == b) = false := by simpa using fun e => h.1 e.symm
    simp [indexByte, hc, ih h.2]

theorem indexByte_none (s : GoString) (b : Nat) (h : b ∉ s) : indexByte s b = none := by
  induction s with
  | nil => rfl
  | cons c s ih =>
    simp only [List.mem_cons, not_or] at h
    have hc : (c == b) = false := by simpa using fun e => h.1 e.symm
    simp [indexByte, hc, ih h.2]

theorem lexRun_string (ln pos : Nat) (s cs : GoString) (acc : List Token) (h : 39 ∉ s) :
    lexRun ln pos (39 :: (s ++ 39 :: cs)) acc =
      lexRun ln (pos + (s.length + 2)) cs (acc ++ [⟨TOKEN_STRING, s, ln, pos⟩]) := by
  rw [lexRun_cons]
  simp [lexStep, isSpace, startsWith, indexByte_append s cs 39 h]

theorem lexRun_unclosed (ln pos : Nat) (s : GoString) (acc : List Token) (h : 39 ∉ s) :
    lexRun ln pos (39 :: s) acc = .error (.unclosedString ln) := by
  rw [lexRun_cons]
  simp [lexStep, isSpace, startsWith, indexByte_none s 39 h]

theorem takeWhile_append_stop (p : Nat → Bool) (w r : GoString) (hw : w.all p = true)
    (hr : (r.head?.map p).getD false = false) : (w ++ r).takeWhile p = w := by
  induction w with
  | nil =>
    cases r with
    | nil => rfl
    | cons d r => simp at hr; simp [List.takeWhile_cons, hr]
  | cons c w ih =>
    simp only [List.all_cons, Bool.and_eq_true] at hw
    simp [List.takeWhile_cons, hw.1, ih hw.2]

theorem dropWhile_append_stop (p : Nat → Bool) (w r : GoString) (hw : w.all p = true)
    (hr : (r.head?.map p).getD false = false) : (w ++ r).dropWhile p = r := by
  induction w with
  | nil =>
    cases r with
    | nil => rfl
    | cons d r => simp at hr; simp [List.dropWhile_cons, hr]
  | cons c w ih =>
    simp only [List.all_cons, Bool.and_eq_true] at hw
    simp [List.dropWhile_cons, hw.1, ih hw.2]

theorem identStart_facts {c : Nat} (h : (isLetter c || c == 95) = true) :
    isSpace c = false ∧ c ≠ 45 ∧ c ≠ 43 ∧ c ≠ 39 ∧ isDigit c = false ∧ isIdentChar c = true := by
  have hi : isIdentChar c = true := by
    simp only [Bool.or_eq_true] at h
    rcases h with h | h <;> simp [isIdentChar, h]
  simp only [isLetter, isSpace, isDigit, Bool.or_eq_true, Bool.and_eq_true, decide_eq_true_eq,
    beq_iff_eq, Bool.or_eq_false_iff, Bool.and_eq_false_iff, decide_eq_false_iff_not,
    beq_eq_false_iff_ne] at h ⊢
  refine ⟨?_, ?_, ?_, ?_, ?_, hi⟩ <;> omega

theorem identText_ascii (w : GoString) (h : w.all (fun b => decide (b < 128)) = true) :
    identText w = w := by
  induction w with
  | nil => rfl
  | cons c cs ih =>
    simp only [List.all_cons, Bool.and_eq_true, decide_eq_true_eq] at h
    have e : encodeRune c = [c] := by simp [encodeRune, h.1]
    show encodeRune c ++ identText cs = c :: cs
    rw [e, ih h.2]
    rfl

theorem isAsciiIdentifier_raw {w : GoString} (h : isAsciiIdentifier w = true) :
    isIdentifier w = true ∧ identText w = w := by
  simp only [isAsciiIdentifier, Bool.and_eq_true] at h
  exact ⟨h.1, identText_ascii w h.2⟩

/-- The bytes of an identifier followed by a byte that cannot continue it are one
token, whose text is the re-encoded identifier. -/
theorem lexRun_identifier (ln pos : Nat) (w r : GoString) (acc : List Token)
    (hw : isIdentifier w = true) (hr : (r.head?.map isIdentChar).getD false = false) :
    lexRun ln pos (w ++ r) acc =
      lexRun ln (pos + w.length) r
        (acc ++ [⟨identKind (identText w), identText w, ln, pos⟩]) := by
  cases w with
  | nil => simp [isIdentifier] at hw
  | cons c cs =>
    simp only [isIdentifier, Bool.and_eq_true] at hw
    obtain ⟨hc, hcs⟩ := hw
    obtain ⟨h1, h2, h3, h4, h5, h6⟩ := identStart_facts hc
    have ht : (c :: (cs ++ r)).takeWhile isIdentChar = c :: cs := by
      simp [List.takeWhile_cons, h6, takeWhile_append_stop isIdentChar cs r hcs hr]
    have hdr : (c :: (cs ++ r)).dropWhile isIdentChar = r := by
      simp [List.dropWhile_cons, h6, dropWhile_append_stop isIdentChar cs r hcs hr]
    have hsci : sciMatch (c :: (cs ++ r)) = false := by
      simp [sciMatch, h2, h3, digitsThen, h5]
    have hsw : startsWith (c :: (cs ++ r)) [45, 45] = false := by
      simp [startsWith, h2]
    rw [List.cons_append, lexRun_cons]
    unfold lexStep
    rw [if_neg (by simp [h1]), if_neg (by simp [hsw]), if_neg (by simp [h4]),
      if_neg (by simp [hsci]), if_neg (by simp [h5, h2, h3]), if_pos hc]
    simp only [ht, hdr]

/-- An ASCII identifier followed by a byte that cannot continue it is one token. -/
theorem lexRun_ident (ln pos : Nat) (w r : GoString) (acc : List Token)
    (hw : isAsciiIdentifier w = true) (hr : (r.head?.map isIdentChar).getD false = false) :
    lexRun ln pos (w ++ r) acc =
      lexRun ln (pos + w.length) r (acc ++ [⟨identKind w, w, ln, pos⟩]) := by
  obtain ⟨h1, h2⟩ := isAsciiIdentifier_raw hw
  have h := lexRun_identifier ln pos w r acc h1 hr
  rw [h2] at h
  exact h

theorem endsNumber_digit {r : GoString} (h : endsNumber r = true) :
    (r.head?.map isDigit).getD false = false := by
  cases r with
  | nil => rfl
  | cons d r =>
    simp only [endsNumber, Bool.not_eq_true', Bool.or_eq_false_iff] at h
    simp [h.1.1.1]

theorem sciFraction_stop {r : GoString} (h : endsNumber r = true) : sciFraction r = false := by
  cases r with
  | nil => rfl
  | cons d r =>
    simp only [endsNumber, Bool.not_eq_true', Bool.or_eq_false_iff, beq_eq_false_iff_ne] at h
    obtain ⟨⟨⟨_, h46⟩, h101⟩, h69⟩ := h
    unfold sciFraction
    split
    · rename_i heq; cases heq; exact absurd rfl h46
    · simp [sciExponent, h101, h69]

theorem scanFraction_stop {r : GoString} (h : endsNumber r = true) : scanFraction r = ([], r) := by
  cases r with
  | nil => rfl
  | cons d r =>
    simp only [endsNumber, Bool.not_eq_true', Bool.or_eq_false_iff, beq_eq_false_iff_ne] at h
    obtain ⟨⟨⟨_, h46⟩, _⟩, _⟩ := h
    unfold scanFraction
    split
    · rename_i heq; cases heq; exact absurd rfl h46
    · rfl

theorem digits_scan (ds r : GoString) (hne : ds ≠ []) (hds : ds.all isDigit = true)
    (hr : endsNumber r = true) :
    digitsThen sciFraction (ds ++ r) = false ∧
    (ds ++ r).takeWhile isDigit = ds ∧ (ds ++ r).dropWhile isDigit = r := by
  have hd := endsNumber_digit hr
  have h2 := takeWhile_append_stop isDigit ds r hds hd
  have h3 := dropWhile_append_stop isDigit ds r hds hd
  refine ⟨?_, h2, h3⟩
  cases ds with
  | nil => exact absurd rfl hne
  | cons d ds =>
    simp only [List.cons_append, digitsThen]
    rw [← List.cons_append, h3, sciFraction_stop hr]
    simp

/-- A bare integer literal followed by a byte that cannot continue a number is
one number token. -/
theorem lexRun_number (ln pos : Nat) (w r : GoString) (acc : List Token)
    (hw : isIntLiteral w = true) (hr : endsNumber r = true) :
    lexRun ln pos (w ++ r) acc =
      lexRun ln (pos + w.length) r (acc ++ [⟨TOKEN_NUMBER, w, ln, pos⟩]) := by
  cases w with
  | nil => simp [isIntLiteral] at hw
  | cons c cs =>
    rw [List.cons_append, lexRun_cons]
    unfold isIntLiteral at hw
    by_cases hs : (c == 43 || c == 45) = true
    · simp only [hs, if_true, Bool.and_eq_true, bne_iff_ne] at hw
      obtain ⟨hne, hds⟩ := hw
      obtain ⟨h1, h2, h3⟩ := digits_scan cs r hne hds hr
      have hsp : isSpace c = false := by
        simp only [Bool.or_eq_true, beq_iff_eq] at hs
        rcases hs with rfl | rfl <;> rfl
      have hq : (c == 39) = false := by
        simp only [Bool.or_eq_true, beq_iff_eq] at hs
        rcases hs with rfl | rfl <;> rfl
      have hs2 : (c == 45 || c == 43) = true := by
        simpa [Bool.or_comm] using hs
      obtain ⟨d, ds, rfl⟩ := List.exists_cons_of_ne_nil hne
      have hdd : isDigit d = true := by
        simp only [List.all_cons, Bool.and_eq_true] at hds; exact hds.1
      have hsw : startsWith (c :: (d :: ds ++ r)) [45, 45] = false := by
        have : d ≠ 45 := by
          intro e; subst e; simp [isDigit] at hdd
        simp [startsWith, this]
      have hsci : sciMatch (c :: (d :: ds ++ r)) = false := by
        simp only [sciMatch, hs, if_true]; exact h1
      unfold lexStep
      rw [if_neg (by simp [hsp]), if_neg (Bool.eq_false_iff.mp hsw), if_neg (by simp [hq]),
        if_neg (Bool.eq_false_iff.mp hsci), if_pos (by simp [hs2, hdd])]
      have hscan : scanNumber (c :: (d :: ds ++ r)) = (c :: d :: ds, r) := by
        simp only [scanNumber, scanSign, hs2, if_true, List.length_singleton,
          List.drop_succ_cons, List.drop_zero, h2, h3, scanFraction_stop hr]
        simp
      simp only [hscan]
    · simp only [hs, Bool.false_eq_true, if_false] at hw
      have hne : c :: cs ≠ [] := by simp
      obtain ⟨h1, h2, h3⟩ := digits_scan (c :: cs) r hne hw
        hr
      have hdc : isDigit c = true := by
        simp only [List.all_cons, Bool.and_eq_true] at hw; exact hw.1
      have hc : 48 ≤ c ∧ c ≤ 57 := by simpa [isDigit] using hdc
      have hsp : isSpace c = false := by
        simp only [isSpace, Bool.or_eq_false_iff, beq_eq_false_iff_ne]; omega
      have hq : (c == 39) = false := by
        simp only [beq_eq_false_iff_ne]; omega
      have hsw : startsWith (c :: (cs ++ r)) [45, 45] = false := by
        have : c ≠ 45 := by omega
        simp [startsWith, this]
      have hsci : sciMatch (c :: (cs ++ r)) = false := by
        simp only [sciMatch, hs, Bool.false_eq_true, if_false]
        exact h1
      unfold lexStep
      rw [if_neg (by simp [hsp]), if_neg (Bool.eq_false_iff.mp hsw), if_neg (by simp [hq]),
        if_neg (Bool.eq_false_iff.mp hsci), if_pos (by simp [hdc])]
      have hss : scanSign (c :: (cs ++ r)) = [] := by
        have : (c == 45 || c == 43) = false := by
          simp only [Bool.or_eq_false_iff, beq_eq_false_iff_ne]; omega
        simp [scanSign, this]
      have hscan : scanNumber (c :: (cs ++ r)) = (c :: cs, r) := by
        simp only [scanNumber, hss, List.length_nil, List.drop_zero]
        rw [← List.cons_append, h2, h3, scanFraction_stop hr]
        simp
      simp only [hscan]

/-! ## Trimming and splitting -/

theorem leadingSpaceLen_eq_zero {s : GoString} (h : noLeadingSpace s = true) :
    leadingSpaceLen s = 0 := by
  unfold leadingSpaceLen
  have : spaceEncodings.find? (fun e => startsWith s e) = none := by
    rw [List.find?_eq_none]
    cases s with
    | nil => simp [spaceEncodings, startsWith]
    | cons c r =>
      cases r with
      | nil =>
        simp only [noLeadingSpace, Bool.and_eq_true, Bool.not_eq_true', Bool.or_eq_false_iff,
          beq_eq_false_iff_ne, Bool.or_eq_true] at h
        simp only [spaceEncodings, List.forall_mem_cons, startsWith]
        simp
        omega
      | cons d r =>
        simp only [noLeadingSpace, Bool.and_eq_true, Bool.not_eq_true', Bool.or_eq_false_iff,
          beq_eq_false_iff_ne, Bool.or_eq_true] at h
        simp only [spaceEncodings, List.forall_mem_cons, startsWith]
        simp
        omega
  rw [this]

theorem trailingSpaceLen_eq_zero {s : GoString} (h : noTrailingSpace s = true) :
    trailingSpaceLen s = 0 := by
  unfold trailingSpaceLen
  have : spaceEncodings.find? (fun e => startsWith s.reverse e.reverse) = none := by
    rw [List.find?_eq_none]
    unfold noTrailingSpace at h
    cases hs : s.reverse with
    | nil => simp [spaceEncodings, startsWith]
    | cons c r =>
      rw [hs] at h
      simp only [Bool.and_eq_true, Bool.not_eq_true', Bool.or_eq_false_iff,
        beq_eq_false_iff_ne, Bool.or_eq_true, Bool.and_eq_false_iff, decide_eq_false_iff_not] at h
      simp only [spaceEncodings, List.forall_mem_cons, startsWith, List.reverse_cons,
        List.reverse_nil, List.nil_append, List.cons_append]
      simp
      omega
  rw [this]

theorem TrimSpace_id {s : GoString} (h1 : noLeadingSpace s = true)
    (h2 : noTrailingSpace s = true) : TrimSpace s = s := by
  have e1 : ∀ n, trimLeftLoop n s = s := by
    intro n; cases n with
    | zero => rfl
    | succ n => simp [trimLeftLoop, leadingSpaceLen_eq_zero h1]
  have e2 : ∀ n, trimRightLoop n s = s := by
    intro n; cases n with
    | zero => rfl
    | succ n => simp [trimRightLoop, trailingSpaceLen_eq_zero h2]
  simp only [TrimSpace, e1, e2]

theorem splitLoop_no_newline (s cur : GoString) (h : 10 ∉ s) :
    splitLoop s cur = [cur.reverse ++ s] := by
  induction s generalizing cur with
  | nil => simp [splitLoop]
  | cons c s ih =>
    simp only [List.mem_cons, not_or] at h
    have hc : (c == 10) = false := by simpa using fun e => h.1 e.symm
    simp [splitLoop, hc, ih _ h.2]

theorem splitLoop_newline (s t cur : GoString) (h : 10 ∉ s) :
    splitLoop (s ++ 10 :: t) cur = (cur.reverse ++ s) :: splitLoop t [] := by
  induction s generalizing cur with
  | nil => simp [splitLoop]
  | cons c s ih =>
    simp only [List.mem_cons, not_or] at h
    have hc : (c == 10) = false := by simpa using fun e => h.1 e.symm
    simp [splitLoop, hc, ih _ h.2]

theorem splitLines_no_newline (s : GoString) (h : 10 ∉ s) : splitLines s = [s] := by
  simp [splitLines, splitLoop_no_newline s [] h]

/-- The result of `lex` on an input of one line that trimming leaves alone. -/
theorem lex_one_line (line : GoString) (toks : List Token) (h10 : 10 ∉ line)
    (hl : noLeadingSpace line = true) (ht : noTrailingSpace line = true)
    (hne : line ≠ []) (hc : startsWith line (bytes "--") = false)
    (hb : startsWith line (bytes "=begin") = false)
    (hrun : lexRun 1 0 line [] = .ok toks) :
    lex line = .ok (toks ++ [⟨TOKEN_EOF, [], 2, 0⟩]) := by
  unfold lex
  simp only [splitLines_no_newline line h10, lexLines, TrimSpace_id hl ht]
  have hrun2 : lexLoop 1 line.length 0 line [] = .ok toks := hrun
  simp [hne, hc, hb, hrun2]

/-! ## Bindings of literals -/

theorem identKind_of_not_keyword {w : GoString} (h : w ∉ keywords) : identKind w = TOKEN_IDENT := by
  simp only [keywords, List.mem_cons, List.mem_singleton, not_or, List.not_mem_nil,
    or_false] at h
  simp [identKind, h.1, h.2.1, h.2.2]

theorem identChar_facts {c : Nat} (h : isIdentChar c = true) :
    c ≠ 10 ∧ c ≠ 32 ∧ c ≠ 133 ∧ c ≠ 160 ∧ c ≠ 154 ∧ c ≠ 128 ∧ c ≠ 129 := by
  simp only [isIdentChar, isLetter, isDigit, Bool.or_eq_true, Bool.and_eq_true,
    decide_eq_true_eq, beq_iff_eq] at h
  omega

theorem identifier_no_newline {w : GoString} (h : isAsciiIdentifier w = true) : 10 ∉ w := by
  replace h := (isAsciiIdentifier_raw h).1
  cases w with
  | nil => simp
  | cons c cs =>
    simp only [isIdentifier, Bool.and_eq_true, List.all_eq_true] at h
    intro hm
    rcases List.mem_cons.mp hm with e | hm
    · have := (identStart_facts h.1).2.2.2.2.2
      exact (identChar_facts this).1 e.symm
    · exact (identChar_facts (h.2 _ hm)).1 rfl

/-- A line that starts with an identifier and a space is neither trimmed on the
left nor taken for a comment. -/
theorem identifier_line {w : GoString} (h : isAsciiIdentifier w = true) (r : GoString) :
    noLeadingSpace (w ++ 32 :: r) = true ∧ startsWith (w ++ 32 :: r) (bytes "--") = false ∧
    startsWith (w ++ 32 :: r) (bytes "=begin") = false ∧ w ++ 32 :: r ≠ [] := by
  replace h := (isAsciiIdentifier_raw h).1
  cases w with
  | nil => simp [isIdentifier] at h
  | cons c cs =>
    simp only [isIdentifier, Bool.and_eq_true, List.all_eq_true] at h
    obtain ⟨hc, hcs⟩ := h
    have hc2 := hc
    simp only [isLetter, Bool.or_eq_true, Bool.and_eq_true, decide_eq_true_eq, beq_iff_eq] at hc2
    have h45 : c ≠ 45 := by omega
    have h61 : c ≠ 61 := by omega
    refine ⟨?_, ?_, ?_, by simp⟩
    · cases cs with
      | nil =>
        simp only [List.cons_append, List.nil_append, noLeadingSpace, Bool.and_eq_true,
          Bool.not_eq_true', Bool.or_eq_false_iff, beq_eq_false_iff_ne, Bool.or_eq_true]
        omega
      | cons d ds =>
        have hd := identChar_facts (hcs d (by simp))
        simp only [List.cons_append, noLeadingSpace, Bool.and_eq_true,
          Bool.not_eq_true', Bool.or_eq_false_iff, beq_eq_false_iff_ne, Bool.or_eq_true]
        omega
    · have : bytes "--" = [45, 45] := by decide
      simp [this, startsWith, h45]
    · have : bytes "=begin" = [61, 98, 101, 103, 105, 110] := by decide
      simp [this, startsWith, h61]

set_option maxRecDepth 4000 in
/-- C1 (as amended): a binding of a string literal to an identifier of ASCII letters, digits
and underscores that is no keyword, `IDENT := 'S';` with `S` free of single quotes and
newlines, lexes and parses to the Document with the one entry that maps `IDENT` to the
bytes of `S`, unchanged. -/
theorem string_binding (ident s : GoString) (hid : isAsciiIdentifier ident = true)
    (hkw : ident ∉ keywords) (hq : 39 ∉ s) (hn : 10 ∉ s) :
    ParsesTo (ident ++ bytes " := '" ++ s ++ bytes "';") (fun _ => [(ident, .str s)]) := by
  intro F fl
  have e1 : bytes " := '" = [32, 58, 61, 32, 39] := by decide
  have e2 : bytes "';" = [39, 59] := by decide
  have eline : ident ++ bytes " := '" ++ s ++ bytes "';" =
      ident ++ 32 :: (58 :: 61 :: 32 :: 39 :: (s ++ 39 :: [59])) := by
    simp [e1, e2]
  rw [eline]
  obtain ⟨hl, hc, hb, hne⟩ := identifier_line hid (58 :: 61 :: 32 :: 39 :: (s ++ 39 :: [59]))
  have h10 : 10 ∉ ident ++ 32 :: (58 :: 61 :: 32 :: 39 :: (s ++ 39 :: [59])) := by
    have := identifier_no_newline hid
    simp [this, hn]
  have ht : noTrailingSpace (ident ++ 32 :: (58 :: 61 :: 32 :: 39 :: (s ++ 39 :: [59]))) = true := by
    simp [noTrailingSpace]
  have hrun : lexRun 1 0 (ident ++ 32 :: (58 :: 61 :: 32 :: 39 :: (s ++ 39 :: [59]))) [] =
      .ok [⟨TOKEN_IDENT, ident, 1, 0⟩, ⟨TOKEN_ASSIGN, [58, 61], 1, 0 + ident.length + 1⟩,
        ⟨TOKEN_STRING, s, 1, 0 + ident.length + 1 + 2 + 1⟩,
        ⟨TOKEN_SEMICOLON, [59], 1, 0 + ident.length + 1 + 2 + 1 + (s.length + 2)⟩] := by
    rw [lexRun_ident _ _ _ _ _ hid (by simp [isIdentChar, isLetter, isDigit]),
      lexRun_space _ _ _ _ _ (by decide), lexRun_assign, lexRun_space _ _ _ _ _ (by decide),
      lexRun_string _ _ _ _ _ hq, lexRun_punct _ _ 59 _ _ TOKEN_SEMICOLON (by decide),
      lexRun_nil, identKind_of_not_keyword hkw]
    simp
  have hlex := lex_one_line _ _ h10 hl ht hne hc hb hrun
  simp only [lexParse, hlex]
  simp [parse, parseLoop, current, expect, parseValue, GoMap.set]

/-- The sample of the test suite: `name := 'test';` maps `name` to `test`. -/
theorem string_binding_witness :
    ParsesTo (bytes "name := 'test';") (fun _ => [(bytes "name", .str (bytes "test"))]) :=
  string_binding (bytes "name") (bytes "test") (by decide) (by decide) (by decide) (by decide)

/-- C1 (as stated) fails for identifiers with letters outside ASCII. The identifier `ê` is
the two bytes 195 and 170 in UTF-8; the lexer reads each byte as a letter and appends the
UTF-8 text of each to the token: the key of the Document is the four bytes 195, 131, 194,
170 and not the identifier. For `é` (195, 169) the second byte is no letter and `lex`
fails. A line that starts with the lone byte 233 gets the key 195, 169. -/
theorem string_binding_non_ascii_identifier :
    bytes "\u00ea" = [195, 170] ∧ isIdentifier [195, 170] = true ∧ [195, 170] ∉ keywords ∧
    ParsesTo ([195, 170] ++ bytes " := 'a';")
      (fun _ => [([195, 131, 194, 170], .str (bytes "a"))]) ∧
    bytes "\u00e9" = [195, 169] ∧
    lex ([195, 169] ++ bytes " := 'a';") = .error (.unexpectedCharacter 169 1 1) ∧
    ParsesTo ([233] ++ bytes " := 'a';") (fun _ => [([195, 169], .str (bytes "a"))]) :=
  ⟨by decide, by decide, by decide, fun _ _ => rfl, by decide, by decide, fun _ _ => rfl⟩

theorem literal_no_newline {w : GoString} (h : isIntLiteral w = true) : 10 ∉ w := by
  have key : ∀ ds : GoString, ds.all isDigit = true → 10 ∉ ds := by
    intro ds hds m
    simp only [List.all_eq_true] at hds
    have := hds _ m
    simp [isDigit] at this
  cases w with
  | nil => simp
  | cons c cs =>
    unfold isIntLiteral at h
    by_cases hs : (c == 43 || c == 45) = true
    · simp only [hs, if_true, Bool.and_eq_true] at h
      simp only [Bool.or_eq_true, beq_iff_eq] at hs
      have := key cs h.2
      rcases hs with rfl | rfl <;> simp [this]
    · simp only [hs, Bool.false_eq_true, if_false] at h
      exact key _ h

theorem isDigit_facts {d : Nat} (h : isDigit d = true) :
    d ≠ 46 ∧ d ≠ 101 ∧ d ≠ 69 ∧ d ≠ 43 ∧ d ≠ 45 := by
  simp only [isDigit, Bool.and_eq_true, decide_eq_true_eq] at h
  omega

theorem digits_not_float {ds : GoString} (h : ds.all isDigit = true) :
    46 ∉ ds ∧ 101 ∉ ds ∧ 69 ∉ ds := by
  simp only [List.all_eq_true] at h
  refine ⟨fun m => ?_, fun m => ?_, fun m => ?_⟩
  · exact (isDigit_facts (h _ m)).1 rfl
  · exact (isDigit_facts (h _ m)).2.1 rfl
  · exact (isDigit_facts (h _ m)).2.2.1 rfl

theorem isFloatText_literal {w : GoString} (h : isIntLiteral w = true) :
    isFloatText w = false := by
  cases w with
  | nil => simp [isIntLiteral] at h
  | cons c cs =>
    unfold isIntLiteral at h
    by_cases hs : (c == 43 || c == 45) = true
    · simp only [hs, if_true, Bool.and_eq_true] at h
      obtain ⟨i1, i2, i3⟩ := digits_not_float h.2
      simp only [Bool.or_eq_true, beq_iff_eq] at hs
      rcases hs with rfl | rfl <;> simp [isFloatText, i1, i2, i3]
    · simp only [hs, Bool.false_eq_true, if_false] at h
      obtain ⟨i1, i2, i3⟩ := digits_not_float h
      simp only [List.mem_cons, not_or] at i1 i2 i3
      simp [isFloatText, i1, i2, i3]

/-- On a bare integer literal `strconv.Atoi` returns the value of the literal
when it is in the range of `int`, and an error otherwise. -/
theorem Atoi_literal {w : GoString} (h : isIntLiteral w = true) :
    Atoi w = if inInt64 (literalValue w) then some (literalValue w) else none := by
  cases w with
  | nil => simp [isIntLiteral] at h
  | cons c cs =>
    unfold isIntLiteral at h
    by_cases hm : c = 45
    · subst hm
      simp only [beq_self_eq_true, Bool.or_true, if_true, Bool.and_eq_true, bne_iff_ne] at h
      have hne : (cs == []) = false := by simpa using h.1
      simp only [Atoi, literalValue, inInt64, beq_self_eq_true, Bool.or_true, if_true, h.2,
        Bool.not_true, Bool.or_false, hne]
      by_cases hv : digitsValue cs ≤ 9223372036854775808
      · have : -9223372036854775808 ≤ -(digitsValue cs : Int) ∧
            -(digitsValue cs : Int) ≤ 9223372036854775807 := by omega
        simp [hv, this, h.1]
      · have : ¬ (-9223372036854775808 ≤ -(digitsValue cs : Int) ∧
            -(digitsValue cs : Int) ≤ 9223372036854775807) := by omega
        simp [hv, this, h.1]
    · by_cases hp : c = 43
      · subst hp
        simp only [beq_self_eq_true, Bool.true_or, if_true, Bool.and_eq_true, bne_iff_ne] at h
        have hne : (cs == []) = false := by simpa using h.1
        simp only [Atoi, literalValue, inInt64, beq_self_eq_true, Bool.true_or, if_true, h.2,
          Bool.not_true, Bool.or_false, hne]
        by_cases hv : digitsValue cs ≤ 9223372036854775807
        · have : -9223372036854775808 ≤ (digitsValue cs : Int) ∧
              (digitsValue cs : Int) ≤ 9223372036854775807 := by omega
          simp [hv, this, h.1]
        · have : ¬ (-9223372036854775808 ≤ (digitsValue cs : Int) ∧
              (digitsValue cs : Int) ≤ 9223372036854775807) := by omega
          simp [hv, this, h.1]
      · have e1 : (c == 45) = false := by simpa using hm
        have e2 : (c == 43) = false := by simpa using hp
        simp only [e1, e2, Bool.or_false, Bool.false_eq_true, if_false] at h
        simp only [Atoi, literalValue, inInt64, e1, e2, Bool.or_false, Bool.false_eq_true,
          if_false, h, Bool.not_true]
        by_cases hv : digitsValue (c :: cs) ≤ 9223372036854775807
        · have : -9223372036854775808 ≤ (digitsValue (c :: cs) : Int) ∧
              (digitsValue (c :: cs) : Int) ≤ 9223372036854775807 := by omega
          simp [hv, this]
        · have : ¬ (-9223372036854775808 ≤ (digitsValue (c :: cs) : Int) ∧
              (digitsValue (c :: cs) : Int) ≤ 9223372036854775807) := by omega
          simp [hv, this]

theorem parseValue_number {F : Type} (fl : FloatOps F) (tokens : List Token)
    (defs : GoMap (Value F)) (fuel pos : Nat) (hk : (current tokens pos).Kind = TOKEN_NUMBER)
    (hl : isIntLiteral (current tokens pos).Value = true)
    (hr : inInt64 (literalValue (current tokens pos).Value)) :
    parseValue fl tokens defs (fuel + 1) pos =
      .ok (.int (literalValue (current tokens pos).Value), pos + 1) := by
  simp [parseValue, hk, isFloatText_literal hl, Atoi_literal hl, hr]

theorem parseValue_number_range {F : Type} (fl : FloatOps F) (tokens : List Token)
    (defs : GoMap (Value F)) (fuel pos : Nat) (hk : (current tokens pos).Kind = TOKEN_NUMBER)
    (hl : isIntLiteral (current tokens pos).Value = true)
    (hr : ¬ inInt64 (literalValue (current tokens pos).Value)) :
    parseValue fl tokens defs (fuel + 1) pos =
      .error (.invalidNumber (current tokens pos).Value (current tokens pos).Line) := by
  simp [parseValue, hk, isFloatText_literal hl, Atoi_literal hl, hr]

theorem parseValue_string {F : Type} (fl : FloatOps F) (tokens : List Token)
    (defs : GoMap (Value F)) (fuel pos : Nat) (hk : (current tokens pos).Kind = TOKEN_STRING) :
    parseValue fl tokens defs (fuel + 1) pos = .ok (.str (current tokens pos).Value, pos + 1) := by
  simp [parseValue, hk]

theorem parseValue_ident {F : Type} (fl : FloatOps F) (tokens : List Token)
    (defs : GoMap (Value F)) (fuel pos : Nat) (hk : (current tokens pos).Kind = TOKEN_IDENT) :
    parseValue fl tokens defs (fuel + 1) pos =
      .ok ((defs.get (current tokens pos).Value).getD (.str (current tokens pos).Value),
        pos + 1) := by
  simp only [parseValue, hk]
  cases defs.get (current tokens pos).Value <;> rfl

/-- A line `IDENT := N;` with a bare integer literal `N` lexes to four tokens
and the end-of-input token. -/
theorem lex_int_binding (ident n : GoString) (hid : isAsciiIdentifier ident = true)
    (hkw : ident ∉ keywords) (hn : isIntLiteral n = true) :
    lex (ident ++ bytes " := " ++ n ++ bytes ";") =
      .ok [⟨TOKEN_IDENT, ident, 1, 0⟩, ⟨TOKEN_ASSIGN, [58, 61], 1, 0 + ident.length + 1⟩,
        ⟨TOKEN_NUMBER, n, 1, 0 + ident.length + 1 + 2 + 1⟩,
        ⟨TOKEN_SEMICOLON, [59], 1, 0 + ident.length + 1 + 2 + 1 + n.length⟩,
        ⟨TOKEN_EOF, [], 2, 0⟩] := by
  have e1 : bytes " := " = [32, 58, 61, 32] := by decide
  have e2 : bytes ";" = [59] := by decide
  have eline : ident ++ bytes " := " ++ n ++ bytes ";" =
      ident ++ 32 :: (58 :: 61 :: 32 :: (n ++ [59])) := by
    simp [e1, e2]
  rw [eline]
  obtain ⟨hl, hc, hb, hne⟩ := identifier_line hid (58 :: 61 :: 32 :: (n ++ [59]))
  have h10 : 10 ∉ ident ++ 32 :: (58 :: 61 :: 32 :: (n ++ [59])) := by
    have := identifier_no_newline hid
    have := literal_no_newline hn
    simp [*]
  have ht : noTrailingSpace (ident ++ 32 :: (58 :: 61 :: 32 :: (n ++ [59]))) = true := by
    simp [noTrailingSpace]
  have hrun : lexRun 1 0 (ident ++ 32 :: (58 :: 61 :: 32 :: (n ++ [59]))) [] =
      .ok [⟨TOKEN_IDENT, ident, 1, 0⟩, ⟨TOKEN_ASSIGN, [58, 61], 1, 0 + ident.length + 1⟩,
        ⟨TOKEN_NUMBER, n, 1, 0 + ident.length + 1 + 2 + 1⟩,
        ⟨TOKEN_SEMICOLON, [59], 1, 0 + ident.length + 1 + 2 + 1 + n.length⟩] := by
    rw [lexRun_ident _ _ _ _ _ hid (by simp [isIdentChar, isLetter, isDigit]),
      lexRun_space _ _ _ _ _ (by decide), lexRun_assign, lexRun_space _ _ _ _ _ (by decide),
      lexRun_number _ _ _ _ _ hn (by decide), lexRun_punct _ _ 59 _ _ TOKEN_SEMICOLON (by decide),
      lexRun_nil, identKind_of_not_keyword hkw]
    simp
  have hlex := lex_one_line _ _ h10 hl ht hne hc hb hrun
  simpa using hlex

set_option maxRecDepth 4000 in
/-- C2 (as amended): for an identifier of ASCII letters, digits and underscores that is no
keyword and a bare integer literal `N`,
`IDENT := N;` lexes; when the value of `N` is in the range of a 64-bit `int` it parses to
the Document with the one entry that maps `IDENT` to the integer `N`, and when it is not
the parser returns the error "invalid number format" for `N` at line 1. -/
theorem int_binding (ident n : GoString) (hid : isAsciiIdentifier ident = true)
    (hkw : ident ∉ keywords) (hn : isIntLiteral n = true) :
    (inInt64 (literalValue n) →
      ParsesTo (ident ++ bytes " := " ++ n ++ bytes ";")
        (fun _ => [(ident, .int (literalValue n))])) ∧
    (¬ inInt64 (literalValue n) →
      ParseFailsWith (ident ++ bytes " := " ++ n ++ bytes ";") (.invalidNumber n 1)) := by
  constructor
  · intro hr F fl
    simp only [lexParse, lex_int_binding ident n hid hkw hn]
    simp [parse, parseLoop, current, expect, parseValue, GoMap.set, isFloatText_literal hn,
      Atoi_literal hn, hr]
  · intro hr F fl
    simp only [lexParse, lex_int_binding ident n hid hkw hn]
    simp [parse, parseLoop, current, expect, parseValue, isFloatText_literal hn,
      Atoi_literal hn, hr]

/-- The sample of the test suite, `value := 42;`, and a literal with a sign. -/
theorem int_binding_witness :
    ParsesTo (bytes "value := 42;") (fun _ => [(bytes "value", .int 42)]) ∧
    ParsesTo (bytes "n := -7;") (fun _ => [(bytes "n", .int (-7))]) :=
  ⟨(int_binding (bytes "value") (bytes "42") (by decide) (by decide) (by decide)).1
      (by decide),
   (int_binding (bytes "n") (bytes "-7") (by decide) (by decide) (by decide)).1 (by decide)⟩

/-- C2 (as stated) fails: `9223372036854775808` is a bare integer literal, and the
parser rejects `x := 9223372036854775808;` with "invalid number format". It also fails
for the identifier `ê` (the bytes 195, 170): the Document maps the four bytes 195, 131,
194, 170 to the integer, not the identifier. -/
theorem int_binding_out_of_range :
    isAsciiIdentifier (bytes "x") = true ∧ bytes "x" ∉ keywords ∧
    isIntLiteral (bytes "9223372036854775808") = true ∧
    ParseFailsWith (bytes "x := 9223372036854775808;")
      (.invalidNumber (bytes "9223372036854775808") 1) ∧
    isIdentifier [195, 170] = true ∧ [195, 170] ∉ keywords ∧
    ParsesTo ([195, 170] ++ bytes " := 1;") (fun _ => [([195, 131, 194, 170], .int 1)]) :=
  ⟨by decide, by decide, by decide, fun _ _ => rfl, by decide, by decide, fun _ _ => rfl⟩

/-! ## Constant expressions -/

/-- C3 (as stated) fails: in both samples the token after `!` is not `[`, and the parser
stops with "expected token 6" (`TOKEN_LBRACKET`). -/
theorem samples_without_bracket_fail :
    ParseFailsWith (bytes "(define PI 3); x := !PI + 1];")
      (.expected TOKEN_LBRACKET TOKEN_IDENT 1) ∧
    ParseFailsWith (bytes "x := !2 + 3 * 4];") (.expected TOKEN_LBRACKET TOKEN_NUMBER 1) :=
  ⟨fun _ _ => rfl, fun _ _ => rfl⟩

/-- C3 (as amended): with the opening bracket written, `(define PI 3); x := ![PI + 1];`
yields the Document in which `x` is the integer 4, and `x := ![2 + 3 * 4];` the Document
in which `x` is the integer 20. -/
theorem samples_with_bracket :
    ParsesTo (bytes "(define PI 3); x := ![PI + 1];") (fun _ => [(bytes "x", .int 4)]) ∧
    ParsesTo (bytes "x := ![2 + 3 * 4];") (fun _ => [(bytes "x", .int 20)]) :=
  ⟨fun _ _ => rfl, fun _ _ => rfl⟩

theorem isIntLiteral_first {l : GoString} (h : isIntLiteral l = true) :
    ∃ c cs, l = c :: cs ∧ (c = 43 ∨ c = 45 ∨ isDigit c = true) := by
  cases l with
  | nil => simp [isIntLiteral] at h
  | cons c cs =>
    refine ⟨c, cs, rfl, ?_⟩
    unfold isIntLiteral at h
    by_cases hs : (c == 43 || c == 45) = true
    · simp only [Bool.or_eq_true, beq_iff_eq] at hs
      rcases hs with e | e
      · exact Or.inl e
      · exact Or.inr (Or.inl e)
    · simp only [hs, Bool.false_eq_true, if_false, List.all_cons, Bool.and_eq_true] at h
      exact Or.inr (Or.inr h.1)

theorem lexRun_ops (ln : Nat) (ops : List (Nat × GoString)) (hops : validOps ops) :
    ∀ (pos : Nat) (r : GoString) (acc : List Token), endsNumber r = true →
    ∃ pos2, lexRun ln pos (opsText ops ++ r) acc =
      lexRun ln pos2 r (acc ++ opsTokens ln pos ops) := by
  induction ops with
  | nil =>
    intro pos r acc _
    exact ⟨pos, by simp [opsText, opsTokens]⟩
  | cons p rest ih =>
    intro pos r acc hr
    obtain ⟨op, l⟩ := p
    have hp := hops (op, l) (by simp)
    obtain ⟨hop, hl, _⟩ := hp
    have hrest : validOps rest := fun q hq => hops q (by simp [hq])
    have hend : endsNumber (opsText rest ++ r) = true := by
      cases rest with
      | nil => simpa [opsText] using hr
      | cons q rest2 => obtain ⟨o2, l2⟩ := q; simp [opsText, endsNumber, isDigit]
    obtain ⟨pos2, h2⟩ := ih hrest (pos + 1 + 1 + 1 + l.length) r
      (acc ++ [⟨if op = 43 then TOKEN_PLUS else TOKEN_STAR, [op], ln, pos + 1⟩,
        ⟨TOKEN_NUMBER, l, ln, pos + 1 + 1 + 1⟩]) hr
    refine ⟨pos2, ?_⟩
    simp only [opsText, opsTokens, List.cons_append, List.append_assoc]
    rw [lexRun_space _ _ _ _ _ (by decide)]
    rcases hop with rfl | rfl
    · rw [lexRun_plus _ _ _ _ (by simp [isDigit]), lexRun_space _ _ _ _ _ (by decide),
        lexRun_number _ _ _ _ _ hl hend]
      simpa using h2
    · rw [lexRun_punct _ _ 42 _ _ TOKEN_STAR (by decide), lexRun_space _ _ _ _ _ (by decide),
        lexRun_number _ _ _ _ _ hl hend]
      simpa using h2

/-! ## The parser: cursor lemmas -/

theorem current_of_drop {tokens : List Token} {pos : Nat} {t : Token} {rest : List Token}
    (h : tokens.drop pos = t :: rest) : current tokens pos = t := by
  have hlt : pos < tokens.length := by
    by_contra hge
    rw [List.drop_of_length_le (by omega)] at h
    cases h
  have := List.drop_eq_getElem_cons hlt
  rw [h] at this
  simp only [current, List.getD_eq_getElem?_getD, List.getElem?_eq_getElem hlt, Option.getD_some]
  exact (List.cons.inj this).1.symm

theorem drop_succ_of_drop {tokens : List Token} {pos : Nat} {t : Token} {rest : List Token}
    (h : tokens.drop pos = t :: rest) : tokens.drop (pos + 1) = rest := by
  have hlt : pos < tokens.length := by
    by_contra hge
    rw [List.drop_of_length_le (by omega)] at h
    cases h
  have := List.drop_eq_getElem_cons hlt
  rw [h] at this
  exact (List.cons.inj this).2.symm

theorem expect_of_drop {tokens : List Token} {pos : Nat} {t : Token} {rest : List Token}
    (h : tokens.drop pos = t :: rest) (k : TokenType) (hk : t.Kind = k) :
    expect tokens pos k = .ok (pos + 1) := by
  simp [expect, current_of_drop h, hk]

theorem length_drop_succ_of_drop {tokens : List Token} {pos : Nat} {t : Token}
    {rest : List Token} (h : tokens.drop pos = t :: rest) :
    (tokens.drop (pos + 1)).length + 1 = (tokens.drop pos).length := by
  rw [drop_succ_of_drop h, h]; rfl

/-- The loop of a constant expression over operator-operand pairs of integer
literals is a left fold. -/
theorem parseConstantExpressionLoop_ops {F : Type} (fl : FloatOps F) (tokens : List Token)
    (defs : GoMap (Value F)) (f ln : Nat) (rb : Token) (R : List Token)
    (hrb : rb.Kind = TOKEN_RBRACKET) :
    ∀ (ops : List (Nat × GoString)), validOps ops → ∀ (p pos fuel : Nat) (acc : Int),
    tokens.drop pos = opsTokens ln p ops ++ rb :: R → (tokens.drop pos).length < fuel →
    ∃ pos2, tokens.drop pos2 = rb :: R ∧
      parseConstantExpressionLoop fl (parseValue fl tokens defs (f + 1)) tokens fuel pos
        (.int acc) = .ok (.int (ops.foldl foldStep acc), pos2) := by
  intro ops
  induction ops with
  | nil =>
    intro _ p pos fuel acc hd hf
    cases fuel with
    | zero => omega
    | succ k =>
      simp only [opsTokens, List.nil_append] at hd
      refine ⟨pos, hd, ?_⟩
      simp [parseConstantExpressionLoop, current_of_drop hd, hrb]
  | cons q rest ih =>
    intro hops p pos fuel acc hd hf
    obtain ⟨op, l⟩ := q
    obtain ⟨hop, hl, hr⟩ := hops (op, l) (by simp)
    have hrest : validOps rest := fun q hq => hops q (by simp [hq])
    cases fuel with
    | zero => omega
    | succ k =>
      simp only [opsTokens, List.cons_append] at hd
      have hd1 := drop_succ_of_drop hd
      have hd2 := drop_succ_of_drop hd1
      have hc0 := current_of_drop hd
      have hc1 := current_of_drop hd1
      have hlen : (tokens.drop (pos + 1 + 1)).length < k := by
        have e1 := length_drop_succ_of_drop hd
        have e2 := length_drop_succ_of_drop hd1
        omega
      obtain ⟨pos2, hp2, hloop⟩ := ih hrest _ (pos + 1 + 1) k
        (foldStep acc (op, l)) hd2 hlen
      refine ⟨pos2, hp2, ?_⟩
      have hpv : parseValue fl tokens defs (f + 1) (pos + 1) =
          .ok (.int (literalValue l), pos + 1 + 1) := by
        have := parseValue_number fl tokens defs f (pos + 1) (by rw [hc1])
          (by rw [hc1]; exact hl) (by rw [hc1]; exact hr)
        rw [this, hc1]
      rw [List.foldl_cons, ← hloop]
      rcases hop with rfl | rfl
      · simp [parseConstantExpressionLoop, hc0, parseOperator, hpv, applyOperator, asInts,
          foldStep]
      · simp [parseConstantExpressionLoop, hc0, parseOperator, hpv, applyOperator, asInts,
          foldStep]

theorem parseLoop_eof {F : Type} (fl : FloatOps F) (tokens : List Token) (fuel pos : Nat)
    (defs result : GoMap (Value F)) (hf : 0 < fuel)
    (hk : (current tokens pos).Kind = TOKEN_EOF) :
    parseLoop fl tokens fuel pos defs result = .ok result := by
  obtain ⟨k, rfl⟩ := Nat.exists_eq_succ_of_ne_zero (Nat.pos_iff_ne_zero.mp hf)
  simp [parseLoop, hk]

/-- One top-level binding `IDENT := value ;` of the loop of `parse`. -/
theorem parseLoop_binding {F : Type} (fl : FloatOps F) (tokens : List Token) (fuel pos : Nat)
    (defs result : GoMap (Value F)) (tk ta ts : Token) (rest rest2 : List Token)
    (v : Value F) (pos3 : Nat) (hf : 0 < fuel)
    (hd : tokens.drop pos = tk :: ta :: rest) (hk : tk.Kind = TOKEN_IDENT)
    (ha : ta.Kind = TOKEN_ASSIGN)
    (hv : parseValue fl tokens defs (tokens.length + 1) (pos + 1 + 1) = .ok (v, pos3))
    (hd3 : tokens.drop pos3 = ts :: rest2) (hs : ts.Kind = TOKEN_SEMICOLON) :
    parseLoop fl tokens fuel pos defs result =
      parseLoop fl tokens (fuel - 1) (pos3 + 1) defs (result.set tk.Value v) := by
  obtain ⟨k, rfl⟩ := Nat.exists_eq_succ_of_ne_zero (Nat.pos_iff_ne_zero.mp hf)
  have hc0 := current_of_drop hd
  have hd1 := drop_succ_of_drop hd
  simp [parseLoop, hc0, hk, expect_of_drop hd1 _ ha, hv, expect_of_drop hd3 _ hs]

theorem wrapInt_of_inInt64 {x : Int} (h : inInt64 x) : wrapInt x = x := by
  unfold inInt64 at h
  unfold wrapInt
  omega

theorem foldl_foldStep_exact (ops : List (Nat × GoString)) :
    ∀ acc : Int, intermediatesFit acc ops = true →
      ops.foldl foldStep acc = ops.foldl exactStep acc := by
  induction ops with
  | nil => intro acc _; rfl
  | cons p rest ih =>
    intro acc h
    simp only [intermediatesFit, Bool.and_eq_true, decide_eq_true_eq] at h
    obtain ⟨h1, h2⟩ := h
    have e : foldStep acc p = exactStep acc p := by
      unfold foldStep exactStep at *
      split
      · rename_i hp; rw [if_pos hp] at h1; exact wrapInt_of_inInt64 h1
      · rename_i hp; rw [if_neg hp] at h1; exact wrapInt_of_inInt64 h1
    simp only [List.foldl_cons, e]
    exact ih _ h2

theorem opsText_no_newline (ops : List (Nat × GoString)) (h : validOps ops) :
    10 ∉ opsText ops := by
  induction ops with
  | nil => simp [opsText]
  | cons p rest ih =>
    obtain ⟨op, l⟩ := p
    obtain ⟨hop, hl, _⟩ := h (op, l) (by simp)
    have hrest : validOps rest := fun q hq => h q (by simp [hq])
    have h1 := literal_no_newline hl
    have h2 := ih hrest
    rcases hop with rfl | rfl <;> simp [opsText, h1, h2]

theorem endsNumber_opsText (ops : List (Nat × GoString)) (r : GoString)
    (hr : endsNumber r = true) : endsNumber (opsText ops ++ r) = true := by
  cases ops with
  | nil => simpa [opsText] using hr
  | cons q rest => obtain ⟨o, l⟩ := q; simp [opsText, endsNumber, isDigit]

/-- The tokens of a binding of a constant expression over integer literals. -/
theorem lex_constant_expression (ident a : GoString) (ops : List (Nat × GoString))
    (hid : isAsciiIdentifier ident = true) (hkw : ident ∉ keywords) (ha : isIntLiteral a = true)
    (hops : validOps ops) :
    ∃ p1 p2 p3 p4 p5 p6 p7 : Nat,
    lex (ident ++ bytes " := ![" ++ a ++ opsText ops ++ bytes "];") =
      .ok (⟨TOKEN_IDENT, ident, 1, p1⟩ :: ⟨TOKEN_ASSIGN, [58, 61], 1, p2⟩ ::
        ⟨TOKEN_BANG, [33], 1, p3⟩ :: ⟨TOKEN_LBRACKET, [91], 1, p4⟩ ::
        ⟨TOKEN_NUMBER, a, 1, p5⟩ :: (opsTokens 1 p6 ops ++
        [⟨TOKEN_RBRACKET, [93], 1, p7⟩, ⟨TOKEN_SEMICOLON, [59], 1, p7 + 1⟩,
         ⟨TOKEN_EOF, [], 2, 0⟩])) := by
  have e1 : bytes " := ![" = [32, 58, 61, 32, 33, 91] := by decide
  have e2 : bytes "];" = [93, 59] := by decide
  have eline : ident ++ bytes " := ![" ++ a ++ opsText ops ++ bytes "];" =
      ident ++ 32 :: (58 :: 61 :: 32 :: 33 :: 91 :: (a ++ (opsText ops ++ [93, 59]))) := by
    simp [e1, e2]
  rw [eline]
  obtain ⟨hl, hc, hb, hne⟩ :=
    identifier_line hid (58 :: 61 :: 32 :: 33 :: 91 :: (a ++ (opsText ops ++ [93, 59])))
  have h10 : 10 ∉ ident ++ 32 :: (58 :: 61 :: 32 :: 33 :: 91 :: (a ++ (opsText ops ++ [93, 59]))) := by
    have := identifier_no_newline hid
    have := literal_no_newline ha
    have := opsText_no_newline ops hops
    simp [*]
  have ht : noTrailingSpace
      (ident ++ 32 :: (58 :: 61 :: 32 :: 33 :: 91 :: (a ++ (opsText ops ++ [93, 59])))) = true := by
    simp [noTrailingSpace]
  obtain ⟨pos2, hops2⟩ := lexRun_ops 1 ops hops (0 + ident.length + 1 + 2 + 1 + 1 + 1 + a.length)
    [93, 59] ([] ++ [⟨identKind ident, ident, 1, 0⟩] ++ [⟨TOKEN_ASSIGN, [58, 61], 1, 0 + ident.length + 1⟩]
      ++ [⟨TOKEN_BANG, [33], 1, 0 + ident.length + 1 + 2 + 1⟩]
      ++ [⟨TOKEN_LBRACKET, [91], 1, 0 + ident.length + 1 + 2 + 1 + 1⟩]
      ++ [⟨TOKEN_NUMBER, a, 1, 0 + ident.length + 1 + 2 + 1 + 1 + 1⟩]) (by decide)
  refine ⟨0, 0 + ident.length + 1, 0 + ident.length + 1 + 2 + 1,
    0 + ident.length + 1 + 2 + 1 + 1, 0 + ident.length + 1 + 2 + 1 + 1 + 1,
    0 + ident.length + 1 + 2 + 1 + 1 + 1 + a.length, pos2, ?_⟩
  have hrun := lex_one_line _ (⟨TOKEN_IDENT, ident, 1, 0⟩ ::
      ⟨TOKEN_ASSIGN, [58, 61], 1, 0 + ident.length + 1⟩ ::
      ⟨TOKEN_BANG, [33], 1, 0 + ident.length + 1 + 2 + 1⟩ ::
      ⟨TOKEN_LBRACKET, [91], 1, 0 + ident.length + 1 + 2 + 1 + 1⟩ ::
      ⟨TOKEN_NUMBER, a, 1, 0 + ident.length + 1 + 2 + 1 + 1 + 1⟩ ::
      (opsTokens 1 (0 + ident.length + 1 + 2 + 1 + 1 + 1 + a.length) ops ++
        [⟨TOKEN_RBRACKET, [93], 1, pos2⟩, ⟨TOKEN_SEMICOLON, [59], 1, pos2 + 1⟩]))
    h10 hl ht hne hc hb ?_
  · simpa using hrun
  · rw [lexRun_ident _ _ _ _ _ hid (by simp [isIdentChar, isLetter, isDigit]),
      lexRun_space _ _ _ _ _ (by decide), lexRun_assign, lexRun_space _ _ _ _ _ (by decide),
      lexRun_punct _ _ 33 _ _ TOKEN_BANG (by decide),
      lexRun_punct _ _ 91 _ _ TOKEN_LBRACKET (by decide),
      lexRun_number _ _ _ _ _ ha (endsNumber_opsText ops _ (by decide)), hops2,
      lexRun_punct _ _ 93 _ _ TOKEN_RBRACKET (by decide),
      lexRun_punct _ _ 59 _ _ TOKEN_SEMICOLON (by decide),
      lexRun_nil, identKind_of_not_keyword hkw]
    simp

theorem parseValue_bang {F : Type} (fl : FloatOps F) (tokens : List Token)
    (defs : GoMap (Value F)) (fuel pos : Nat) (hk : (current tokens pos).Kind = TOKEN_BANG) :
    parseValue fl tokens defs (fuel + 1) pos =
      parseConstantExpression fl (parseValue fl tokens defs fuel) tokens pos := by
  simp [parseValue, hk]

/-- A binding of a constant expression over integer literals is a left fold
with the arithmetic of `int`. -/
theorem constant_expression_wraps (ident a : GoString) (ops : List (Nat × GoString))
    (hid : isAsciiIdentifier ident = true) (hkw : ident ∉ keywords) (ha : isIntLiteral a = true)
    (har : inInt64 (literalValue a)) (hops : validOps ops) :
    ParsesTo (ident ++ bytes " := ![" ++ a ++ opsText ops ++ bytes "];")
      (fun _ => [(ident, .int (ops.foldl foldStep (literalValue a)))]) := by
  intro F fl
  obtain ⟨p1, p2, p3, p4, p5, p6, p7, hlex⟩ := lex_constant_expression ident a ops hid hkw ha hops
  simp only [lexParse, hlex]
  generalize htok : (⟨TOKEN_IDENT, ident, 1, p1⟩ :: ⟨TOKEN_ASSIGN, [58, 61], 1, p2⟩ ::
        ⟨TOKEN_BANG, [33], 1, p3⟩ :: ⟨TOKEN_LBRACKET, [91], 1, p4⟩ ::
        ⟨TOKEN_NUMBER, a, 1, p5⟩ :: (opsTokens 1 p6 ops ++
        [⟨TOKEN_RBRACKET, [93], 1, p7⟩, ⟨TOKEN_SEMICOLON, [59], 1, p7 + 1⟩,
         ⟨TOKEN_EOF, [], 2, 0⟩]) : List Token) = tokens
  have hd0 : tokens.drop 0 = _ := htok.symm
  have hd1 := drop_succ_of_drop hd0
  have hd2 := drop_succ_of_drop hd1
  have hd3 := drop_succ_of_drop hd2
  have hd4 := drop_succ_of_drop hd3
  have hd5 := drop_succ_of_drop hd4
  have hlenpos : 0 < tokens.length := by rw [← htok]; simp
  obtain ⟨f, hf⟩ := Nat.exists_eq_succ_of_ne_zero (Nat.pos_iff_ne_zero.mp hlenpos)
  have hlen5 : (tokens.drop (0 + 1 + 1 + 1 + 1 + 1)).length < tokens.length + 1 := by
    rw [List.length_drop]; omega
  obtain ⟨pos2, hp2, hloop⟩ := parseConstantExpressionLoop_ops fl tokens [] f 1
    ⟨TOKEN_RBRACKET, [93], 1, p7⟩ _ rfl ops hops p6 _ (tokens.length + 1) (literalValue a)
    hd5 hlen5
  have hp3 := drop_succ_of_drop hp2
  have hp4 := drop_succ_of_drop hp3
  have hpv : parseValue fl tokens [] (f + 1) (0 + 1 + 1 + 1 + 1) =
      .ok (.int (literalValue a), 0 + 1 + 1 + 1 + 1 + 1) := by
    have hc := current_of_drop hd4
    have := parseValue_number fl tokens [] f (0 + 1 + 1 + 1 + 1) (by rw [hc])
      (by rw [hc]; exact ha) (by rw [hc]; exact har)
    rw [this, hc]
  have hval : parseValue fl tokens [] (tokens.length + 1) (0 + 1 + 1) =
      .ok (.int (ops.foldl foldStep (literalValue a)), pos2 + 1) := by
    rw [parseValue_bang fl tokens [] _ _ (by rw [current_of_drop hd2])]
    simp only [parseConstantExpression, expect_of_drop hd2 TOKEN_BANG rfl,
      expect_of_drop hd3 TOKEN_LBRACKET rfl]
    have hpvfun : parseValue fl tokens [] tokens.length = parseValue fl tokens [] (f + 1) := by
      rw [hf]
    rw [hpvfun, hpv]
    simp only []
    rw [hloop]
    simp only [expect_of_drop hp2 TOKEN_RBRACKET rfl]
  unfold parse
  rw [parseLoop_binding fl tokens _ 0 [] [] _ _ _ _ _ _ _ (Nat.succ_pos _) hd0 rfl rfl hval
    hp3 rfl]
  rw [parseLoop_eof fl tokens _ _ _ _ (by simpa using hlenpos)
    (by rw [current_of_drop hp4])]
  rfl

/-- C4: a constant expression over integer literals, with the operators
surrounded by spaces, is a flat left fold without precedence: when the literals and
every intermediate result are in the range of a 64-bit `int`, `IDENT := ![v1 op1 v2
... vn];` yields the integer `(..((v1 op1 v2) op2 v3)..) op(n-1) vn`, for `x` and every
other identifier `IDENT` of ASCII letters, digits and underscores that is no keyword. -/
theorem constant_expression_left_fold (ident a : GoString) (ops : List (Nat × GoString))
    (hid : isAsciiIdentifier ident = true) (hkw : ident ∉ keywords) (ha : isIntLiteral a = true)
    (har : inInt64 (literalValue a)) (hops : validOps ops)
    (hfit : intermediatesFit (literalValue a) ops = true) :
    ParsesTo (ident ++ bytes " := ![" ++ a ++ opsText ops ++ bytes "];")
      (fun _ => [(ident, .int (ops.foldl exactStep (literalValue a)))]) := by
  rw [← foldl_foldStep_exact ops _ hfit]
  exact constant_expression_wraps ident a ops hid hkw ha har hops

/-- The sample `x := ![2 + 3 * 4];` gives `(2 + 3) * 4 = 20`, not 14, and `x := ![2 * 3 + 4];`
gives `2 * 3 + 4 = 10`. -/
theorem constant_expression_left_fold_witness :
    ParsesTo (bytes "x := ![2 + 3 * 4];") (fun _ => [(bytes "x", .int ((2 + 3) * 4))]) ∧
    ParsesTo (bytes "x := ![2 * 3 + 4];") (fun _ => [(bytes "x", .int (2 * 3 + 4))]) :=
  ⟨constant_expression_left_fold (bytes "x") (bytes "2") [(43, bytes "3"), (42, bytes "4")]
      (by decide) (by decide) (by decide) (by decide) (by decide) (by decide),
   constant_expression_left_fold (bytes "x") (bytes "2") [(42, bytes "3"), (43, bytes "4")]
      (by decide) (by decide) (by decide) (by decide) (by decide) (by decide)⟩

/-! ## Constant definitions -/

theorem GoMap.get_set_self {V : Type} (m : GoMap V) (k : GoString) (v : V) :
    (m.set k v).get k = some v := by
  induction m with
  | nil => simp [GoMap.set, GoMap.get]
  | cons e m ih =>
    obtain ⟨k2, v2⟩ := e
    by_cases h : k2 = k
    · simp [GoMap.set, GoMap.get, h]
    · simp [GoMap.set, GoMap.get, h, ih]

theorem GoMap.get_set_other {V : Type} (m : GoMap V) (k other : GoString) (v : V)
    (h : other ≠ k) : (m.set k v).get other = m.get other := by
  induction m with
  | nil => simp [GoMap.set, GoMap.get, Ne.symm h]
  | cons e m ih =>
    obtain ⟨k2, v2⟩ := e
    by_cases h2 : k2 = k
    · subst h2
      simp [GoMap.set, GoMap.get, Ne.symm h]
    · simp only [GoMap.set, h2, if_false, GoMap.get, ih]

/-- One statement `( define NAME value ) ;` of the loop of `parse`: the constant
table gets the value under `NAME`, the Document stays as it is. -/
theorem parseLoop_define {F : Type} (fl : FloatOps F) (tokens : List Token) (fuel pos : Nat)
    (defs result : GoMap (Value F)) (tl td tn tr ts : Token) (rest rest2 : List Token)
    (v : Value F) (pos3 : Nat) (hf : 0 < fuel)
    (hd : tokens.drop pos = tl :: td :: tn :: rest) (hl : tl.Kind = TOKEN_LPAREN)
    (hdef : td.Kind = TOKEN_DEFINE) (hn : tn.Kind = TOKEN_IDENT)
    (hv : parseValue fl tokens defs (tokens.length + 1) (pos + 1 + 1 + 1) = .ok (v, pos3))
    (hd3 : tokens.drop pos3 = tr :: ts :: rest2) (hr : tr.Kind = TOKEN_RPAREN)
    (hs : ts.Kind = TOKEN_SEMICOLON) :
    parseLoop fl tokens fuel pos defs result =
      parseLoop fl tokens (fuel - 1) (pos3 + 1 + 1) (defs.set tn.Value v) result := by
  obtain ⟨k, rfl⟩ := Nat.exists_eq_succ_of_ne_zero (Nat.pos_iff_ne_zero.mp hf)
  have hc0 := current_of_drop hd
  have hd1 := drop_succ_of_drop hd
  have hd2 := drop_succ_of_drop hd1
  have hc2 := current_of_drop hd2
  have hd4 := drop_succ_of_drop hd3
  simp [parseLoop, hc0, hl, parseDefine, expect_of_drop hd _ hl, expect_of_drop hd1 _ hdef,
    hc2, hn, hv, expect_of_drop hd3 _ hr, expect_of_drop hd4 _ hs]

theorem lexRun_define (ln pos : Nat) (name n r : GoString) (acc : List Token)
    (hname : isAsciiIdentifier name = true) (hkw : name ∉ keywords) (hn : isIntLiteral n = true) :
    lexRun ln pos (40 :: (bytes "define" ++ 32 :: (name ++ 32 :: (n ++ 41 :: 59 :: r)))) acc =
      lexRun ln (pos + 1 + 6 + 1 + name.length + 1 + n.length + 1 + 1) r
        (acc ++ [⟨TOKEN_LPAREN, [40], ln, pos⟩, ⟨TOKEN_DEFINE, bytes "define", ln, pos + 1⟩,
          ⟨TOKEN_IDENT, name, ln, pos + 1 + 6 + 1⟩,
          ⟨TOKEN_NUMBER, n, ln, pos + 1 + 6 + 1 + name.length + 1⟩,
          ⟨TOKEN_RPAREN, [41], ln, pos + 1 + 6 + 1 + name.length + 1 + n.length⟩,
          ⟨TOKEN_SEMICOLON, [59], ln, pos + 1 + 6 + 1 + name.length + 1 + n.length + 1⟩]) := by
  have hdef : isAsciiIdentifier (bytes "define") = true := by decide
  have hk : identKind (bytes "define") = TOKEN_DEFINE := by decide
  have hlen : (bytes "define").length = 6 := by decide
  rw [lexRun_punct _ _ 40 _ _ TOKEN_LPAREN (by decide),
    lexRun_ident _ _ _ _ _ hdef (by simp [isIdentChar, isLetter, isDigit]),
    lexRun_space _ _ _ _ _ (by decide),
    lexRun_ident _ _ _ _ _ hname (by simp [isIdentChar, isLetter, isDigit]),
    lexRun_space _ _ _ _ _ (by decide), lexRun_number _ _ _ _ _ hn (by simp [endsNumber, isDigit]),
    lexRun_punct _ _ 41 _ _ TOKEN_RPAREN (by decide),
    lexRun_punct _ _ 59 _ _ TOKEN_SEMICOLON (by decide), hk, identKind_of_not_keyword hkw, hlen]
  simp

theorem lexRun_reference (ln pos : Nat) (key name r : GoString) (acc : List Token)
    (hkey : isAsciiIdentifier key = true) (hkk : key ∉ keywords)
    (hname : isAsciiIdentifier name = true) (hkw : name ∉ keywords) :
    lexRun ln pos (key ++ 32 :: 58 :: 61 :: 32 :: (name ++ 59 :: r)) acc =
      lexRun ln (pos + key.length + 1 + 2 + 1 + name.length + 1) r
        (acc ++ [⟨TOKEN_IDENT, key, ln, pos⟩, ⟨TOKEN_ASSIGN, [58, 61], ln, pos + key.length + 1⟩,
          ⟨TOKEN_IDENT, name, ln, pos + key.length + 1 + 2 + 1⟩,
          ⟨TOKEN_SEMICOLON, [59], ln, pos + key.length + 1 + 2 + 1 + name.length⟩]) := by
  rw [lexRun_ident _ _ _ _ _ hkey (by simp [isIdentChar, isLetter, isDigit]),
    lexRun_space _ _ _ _ _ (by decide), lexRun_assign, lexRun_space _ _ _ _ _ (by decide),
    lexRun_ident _ _ _ _ _ hname (by simp [isIdentChar, isLetter, isDigit]),
    lexRun_punct _ _ 59 _ _ TOKEN_SEMICOLON (by decide),
    identKind_of_not_keyword hkk, identKind_of_not_keyword hkw]
  simp

set_option maxRecDepth 8000 in
/-- A reference before the define of its name evaluates to the text of the
name. -/
theorem reference_before_define (key name n : GoString)
    (hkey : isAsciiIdentifier key = true) (hkk : key ∉ keywords)
    (hname : isAsciiIdentifier name = true) (hkw : name ∉ keywords) (hn : isIntLiteral n = true)
    (hr : inInt64 (literalValue n)) :
    ParsesTo (key ++ bytes " := " ++ name ++ bytes "; (define " ++ name ++ bytes " " ++ n ++
      bytes ");") (fun _ => [(key, .str name)]) := by
  intro F fl
  have e1 : bytes " := " = [32, 58, 61, 32] := by decide
  have e2 : bytes "; (define " = 59 :: 32 :: 40 :: (bytes "define" ++ [32]) := by decide
  have e3 : bytes " " = [32] := by decide
  have e4 : bytes ");" = [41, 59] := by decide
  have eline : key ++ bytes " := " ++ name ++ bytes "; (define " ++ name ++ bytes " " ++ n ++
      bytes ");" = key ++ 32 :: (58 :: 61 :: 32 :: (name ++ 59 :: (32 ::
        (40 :: (bytes "define" ++ 32 :: (name ++ 32 :: (n ++ 41 :: 59 :: []))))))) := by
    simp [e1, e2, e3, e4]
  rw [eline]
  obtain ⟨hl, hc, hb, hne⟩ := identifier_line hkey (58 :: 61 :: 32 :: (name ++ 59 :: (32 ::
        (40 :: (bytes "define" ++ 32 :: (name ++ 32 :: (n ++ 41 :: 59 :: [])))))))
  have h10 : 10 ∉ key ++ 32 :: (58 :: 61 :: 32 :: (name ++ 59 :: (32 ::
        (40 :: (bytes "define" ++ 32 :: (name ++ 32 :: (n ++ 41 :: 59 :: []))))))) := by
    have := identifier_no_newline hkey
    have := identifier_no_newline hname
    have := literal_no_newline hn
    have : 10 ∉ bytes "define" := by decide
    simp [*]
  have ht : noTrailingSpace (key ++ 32 :: (58 :: 61 :: 32 :: (name ++ 59 :: (32 ::
        (40 :: (bytes "define" ++ 32 :: (name ++ 32 :: (n ++ 41 :: 59 :: [])))))))) = true := by
    simp [noTrailingSpace]
  have hrun := lex_one_line _ _ h10 hl ht hne hc hb (by
    rw [lexRun_reference _ _ _ _ _ _ hkey hkk hname hkw, lexRun_space _ _ _ _ _ (by decide),
      lexRun_define _ _ _ _ _ _ hname hkw hn, lexRun_nil])
  simp only [lexParse, hrun]
  simp [parse, parseLoop, current, expect, parseValue, parseDefine, GoMap.set, GoMap.get,
    isFloatText_literal hn, Atoi_literal hn, hr]

set_option maxRecDepth 8000 in
/-- A reference after two defines of its name evaluates to the value of the
second one. -/
theorem reference_after_defines (key name n m : GoString)
    (hkey : isAsciiIdentifier key = true) (hkk : key ∉ keywords)
    (hname : isAsciiIdentifier name = true) (hkw : name ∉ keywords) (hn : isIntLiteral n = true)
    (hr : inInt64 (literalValue n)) (hm : isIntLiteral m = true)
    (hmr : inInt64 (literalValue m)) :
    ParsesTo (bytes "(define " ++ name ++ bytes " " ++ n ++ bytes "); (define " ++ name ++
      bytes " " ++ m ++ bytes "); " ++ key ++ bytes " := " ++ name ++ bytes ";")
      (fun _ => [(key, .int (literalValue m))]) := by
  intro F fl
  have e0 : bytes "(define " = 40 :: (bytes "define" ++ [32]) := by decide
  have e1 : bytes " := " = [32, 58, 61, 32] := by decide
  have e2 : bytes "); (define " = 41 :: 59 :: 32 :: 40 :: (bytes "define" ++ [32]) := by decide
  have e3 : bytes " " = [32] := by decide
  have e4 : bytes "); " = [41, 59, 32] := by decide
  have e5 : bytes ";" = [59] := by decide
  have eline : bytes "(define " ++ name ++ bytes " " ++ n ++ bytes "); (define " ++ name ++
      bytes " " ++ m ++ bytes "); " ++ key ++ bytes " := " ++ name ++ bytes ";" =
      40 :: (bytes "define" ++ 32 :: (name ++ 32 :: (n ++ 41 :: 59 :: (32 ::
        (40 :: (bytes "define" ++ 32 :: (name ++ 32 :: (m ++ 41 :: 59 :: (32 ::
          (key ++ 32 :: 58 :: 61 :: 32 :: (name ++ 59 :: []))))))))))) := by
    simp [e0, e1, e2, e3, e4, e5]
  rw [eline]
  have hdf : bytes "define" = [100, 101, 102, 105, 110, 101] := by decide
  have h10 : 10 ∉ 40 :: (bytes "define" ++ 32 :: (name ++ 32 :: (n ++ 41 :: 59 :: (32 ::
        (40 :: (bytes "define" ++ 32 :: (name ++ 32 :: (m ++ 41 :: 59 :: (32 ::
          (key ++ 32 :: 58 :: 61 :: 32 :: (name ++ 59 :: []))))))))))) := by
    have := identifier_no_newline hkey
    have := identifier_no_newline hname
    have := literal_no_newline hn
    have := literal_no_newline hm
    simp [hdf, *]
  have hrun := lex_one_line _ _ h10 (by simp [hdf, noLeadingSpace])
    (by simp [noTrailingSpace]) (by simp) (by simp [hdf, startsWith, bytes, encodeRune])
    (by simp [hdf, startsWith, bytes, encodeRune]) (by
    rw [lexRun_define _ _ _ _ _ _ hname hkw hn, lexRun_space _ _ _ _ _ (by decide),
      lexRun_define _ _ _ _ _ _ hname hkw hm, lexRun_space _ _ _ _ _ (by decide),
      lexRun_reference _ _ _ _ _ _ hkey hkk hname hkw, lexRun_nil])
  simp only [lexParse, hrun]
  simp [parse, parseLoop, current, expect, parseValue, parseDefine, GoMap.set, GoMap.get,
    isFloatText_literal hn, Atoi_literal hn, hr, isFloatText_literal hm, Atoi_literal hm, hmr]

/-- C5: identifier resolution is single-pass. (1) An identifier token in value position
evaluates to the entry of the constant table under its text at that moment, and to the
string of its own text when there is none; the cursor advances by one. (2) After a
completed `(define NAME value);` the table holds `value` under `NAME` (the most recent
definition wins) and every other name keeps its entry; (3) the value of a define is parsed
under the table from before the statement, and the statement leaves the Document
unchanged. (4) A top-level binding reads the table and leaves it unchanged. (5) For all
identifiers `x`, `A` of ASCII letters, digits and underscores and integer literals `n`,
`m`: `(define A n); (define A m); x := A;` gives `x = m`, and (6) `x := A; (define A n);`
gives `x` = the string `A`. (7) The two samples: `(define A 1); (define A 2); x := A;`
gives `x = 2` and `x := A; (define A 1);` gives `x = "A"`; in both the Document has the
entry of `x` only. (8) The elements of an array, the values of a dictionary and the operands
of a constant expression are parsed against the same table as the value they are part of,
so (1) holds for identifiers at any depth; (9) samples: after `(define A 1);` the value
`#( A 2 )` is `[1, 2]`, `begin k := A; end` maps `k` to 1, `![A + 1]` is 2 and
`#( begin k := ![A + 1]; end )` holds 2 under `k`, while in `x := #( A ); (define A 1);`
the element is the string `A`. -/
theorem identifier_resolution_single_pass :
    (∀ (F : Type) (fl : FloatOps F) (tokens : List Token) (defs : GoMap (Value F))
      (fuel pos : Nat), (current tokens pos).Kind = TOKEN_IDENT →
      parseValue fl tokens defs (fuel + 1) pos =
        .ok ((defs.get (current tokens pos).Value).getD (.str (current tokens pos).Value),
          pos + 1)) ∧
    (∀ (F : Type) (defs : GoMap (Value F)) (name : GoString) (v : Value F),
      (defs.set name v).get name = some v ∧
      ∀ other, other ≠ name → (defs.set name v).get other = defs.get other) ∧
    (∀ (F : Type) (fl : FloatOps F) (tokens : List Token) (fuel pos : Nat)
      (defs result : GoMap (Value F)) (tl td tn tr ts : Token) (rest rest2 : List Token)
      (v : Value F) (pos3 : Nat), 0 < fuel →
      tokens.drop pos = tl :: td :: tn :: rest → tl.Kind = TOKEN_LPAREN →
      td.Kind = TOKEN_DEFINE → tn.Kind = TOKEN_IDENT →
      parseValue fl tokens defs (tokens.length + 1) (pos + 1 + 1 + 1) = .ok (v, pos3) →
      tokens.drop pos3 = tr :: ts :: rest2 → tr.Kind = TOKEN_RPAREN →
      ts.Kind = TOKEN_SEMICOLON →
      parseLoop fl tokens fuel pos defs result =
        parseLoop fl tokens (fuel - 1) (pos3 + 1 + 1) (defs.set tn.Value v) result) ∧
    (∀ (F : Type) (fl : FloatOps F) (tokens : List Token) (fuel pos : Nat)
      (defs result : GoMap (Value F)) (tk ta ts : Token) (rest rest2 : List Token)
      (v : Value F) (pos3 : Nat), 0 < fuel →
      tokens.drop pos = tk :: ta :: rest → tk.Kind = TOKEN_IDENT → ta.Kind = TOKEN_ASSIGN →
      parseValue fl tokens defs (tokens.length + 1) (pos + 1 + 1) = .ok (v, pos3) →
      tokens.drop pos3 = ts :: rest2 → ts.Kind = TOKEN_SEMICOLON →
      parseLoop fl tokens fuel pos defs result =
        parseLoop fl tokens (fuel - 1) (pos3 + 1) defs (result.set tk.Value v)) ∧
    (∀ (key name n m : GoString), isAsciiIdentifier key = true → key ∉ keywords →
      isAsciiIdentifier name = true → name ∉ keywords →
      isIntLiteral n = true → inInt64 (literalValue n) →
      isIntLiteral m = true → inInt64 (literalValue m) →
      ParsesTo (bytes "(define " ++ name ++ bytes " " ++ n ++ bytes "); (define " ++ name ++
        bytes " " ++ m ++ bytes "); " ++ key ++ bytes " := " ++ name ++ bytes ";")
        (fun _ => [(key, .int (literalValue m))])) ∧
    (∀ (key name n : GoString), isAsciiIdentifier key = true → key ∉ keywords →
      isAsciiIdentifier name = true → name ∉ keywords →
      isIntLiteral n = true → inInt64 (literalValue n) →
      ParsesTo (key ++ bytes " := " ++ name ++ bytes "; (define " ++ name ++ bytes " " ++ n ++
        bytes ");") (fun _ => [(key, .str name)])) ∧
    ParsesTo (bytes "(define A 1); (define A 2); x := A;") (fun _ => [(bytes "x", .int 2)]) ∧
    ParsesTo (bytes "x := A; (define A 1);") (fun _ => [(bytes "x", .str (bytes "A"))]) ∧
    (∀ (F : Type) (fl : FloatOps F) (tokens : List Token) (defs : GoMap (Value F))
      (fuel pos : Nat),
      ((current tokens pos).Kind = TOKEN_HASH →
        parseValue fl tokens defs (fuel + 1) pos =
          parseArray (parseValue fl tokens defs fuel) tokens pos) ∧
      ((current tokens pos).Kind = TOKEN_BEGIN →
        parseValue fl tokens defs (fuel + 1) pos =
          parseDictionary (parseValue fl tokens defs fuel) tokens pos) ∧
      ((current tokens pos).Kind = TOKEN_BANG →
        parseValue fl tokens defs (fuel + 1) pos =
          parseConstantExpression fl (parseValue fl tokens defs fuel) tokens pos)) ∧
    ParsesTo (bytes "(define A 1); x := #( A 2 );")
      (fun _ => [(bytes "x", .array [.int 1, .int 2])]) ∧
    ParsesTo (bytes "(define A 1); x := begin k := A; end;")
      (fun _ => [(bytes "x", .dict [(bytes "k", .int 1)])]) ∧
    ParsesTo (bytes "(define A 1); x := ![A + 1];") (fun _ => [(bytes "x", .int 2)]) ∧
    ParsesTo (bytes "(define A 1); x := #( begin k := ![A + 1]; end );")
      (fun _ => [(bytes "x", .array [.dict [(bytes "k", .int 2)]])]) ∧
    ParsesTo (bytes "x := #( A ); (define A 1);")
      (fun _ => [(bytes "x", .array [.str (bytes "A")])]) := by
  refine ⟨?_, ?_, ?_, ?_, ?_, ?_, fun _ _ => rfl, fun _ _ => rfl, ?_, fun _ _ => rfl,
    fun _ _ => rfl, fun _ _ => rfl, fun _ _ => rfl, fun _ _ => rfl⟩
  · intro F fl tokens defs fuel pos hk
    exact parseValue_ident fl tokens defs fuel pos hk
  · intro F defs name v
    exact ⟨GoMap.get_set_self defs name v, fun other h => GoMap.get_set_other defs name other v h⟩
  · intro F fl tokens fuel pos defs result tl td tn tr ts rest rest2 v pos3 hf hd hl hdef hn hv
      hd3 hr hs
    exact parseLoop_define fl tokens fuel pos defs result tl td tn tr ts rest rest2 v pos3 hf hd
      hl hdef hn hv hd3 hr hs
  · intro F fl tokens fuel pos defs result tk ta ts rest rest2 v pos3 hf hd hk ha hv hd3 hs
    exact parseLoop_binding fl tokens fuel pos defs result tk ta ts rest rest2 v pos3 hf hd hk
      ha hv hd3 hs
  · intro key name n m hkey hkk hname hkw hn hr hm hmr
    exact reference_after_defines key name n m hkey hkk hname hkw hn hr hm hmr
  · intro key name n hkey hkk hname hkw hn hr
    exact reference_before_define key name n hkey hkk hname hkw hn hr
  · intro F fl tokens defs fuel pos
    exact ⟨fun hk => by simp [parseValue, hk], fun hk => by simp [parseValue, hk],
      fun hk => by simp [parseValue, hk]⟩

/-- The parts (5) and (6) at `PI` and `y`. -/
theorem identifier_resolution_single_pass_witness :
    ParsesTo (bytes "(define PI 3); (define PI 4); y := PI;") (fun _ => [(bytes "y", .int 4)]) ∧
    ParsesTo (bytes "y := PI; (define PI 3);") (fun _ => [(bytes "y", .str (bytes "PI"))]) :=
  ⟨identifier_resolution_single_pass.2.2.2.2.1 (bytes "y") (bytes "PI") (bytes "3") (bytes "4")
      (by decide) (by decide) (by decide) (by decide) (by decide) (by decide) (by decide)
      (by decide),
   identifier_resolution_single_pass.2.2.2.2.2.1 (bytes "y") (bytes "PI") (bytes "3")
      (by decide) (by decide) (by decide) (by decide) (by decide) (by decide)⟩

/-! ## Arrays -/

theorem numsText_no_newline (lits : List GoString) (h : validInts lits) :
    10 ∉ numsText lits := by
  induction lits with
  | nil => simp [numsText]
  | cons l rest ih =>
    have h1 := literal_no_newline (h l (by simp)).1
    have h2 := ih (fun q hq => h q (by simp [hq]))
    simp [numsText, h1, h2]

theorem lexRun_nums (ln : Nat) (lits : List GoString) (hl : validInts lits) :
    ∀ (pos : Nat) (r : GoString) (acc : List Token),
    ∃ pos2, lexRun ln pos (numsText lits ++ 32 :: r) acc =
      lexRun ln pos2 (32 :: r) (acc ++ numsTokens ln pos lits) := by
  induction lits with
  | nil =>
    intro pos r acc
    exact ⟨pos, by simp [numsText, numsTokens]⟩
  | cons l rest ih =>
    intro pos r acc
    have hlit := (hl l (by simp)).1
    have hrest : validInts rest := fun q hq => hl q (by simp [hq])
    have hend : endsNumber (numsText rest ++ 32 :: r) = true := by
      cases rest with
      | nil => simp [numsText, endsNumber, isDigit]
      | cons q rest2 => simp [numsText, endsNumber, isDigit]
    obtain ⟨pos2, h2⟩ := ih hrest (pos + 1 + l.length) r
      (acc ++ [⟨TOKEN_NUMBER, l, ln, pos + 1⟩])
    refine ⟨pos2, ?_⟩
    simp only [numsText, numsTokens, List.cons_append, List.append_assoc]
    rw [lexRun_space _ _ _ _ _ (by decide), lexRun_number _ _ _ _ _ hlit hend]
    simpa using h2

/-- The loop of `parseArray` over number tokens of integer literals appends
their values in order. -/
theorem parseArrayLoop_nums {F : Type} (fl : FloatOps F) (tokens : List Token)
    (defs : GoMap (Value F)) (f ln : Nat) (rp : Token) (R : List Token)
    (hrp : rp.Kind = TOKEN_RPAREN) :
    ∀ (lits : List GoString), validInts lits → ∀ (p pos fuel : Nat) (array : List (Value F)),
    tokens.drop pos = numsTokens ln p lits ++ rp :: R → (tokens.drop pos).length < fuel →
    ∃ pos2, tokens.drop pos2 = rp :: R ∧
      parseArrayLoop (parseValue fl tokens defs (f + 1)) tokens fuel pos array =
        .ok (array ++ lits.map (fun l => .int (literalValue l)), pos2) := by
  intro lits
  induction lits with
  | nil =>
    intro _ p pos fuel array hd hf
    cases fuel with
    | zero => omega
    | succ k =>
      simp only [numsTokens, List.nil_append] at hd
      refine ⟨pos, hd, ?_⟩
      simp [parseArrayLoop, current_of_drop hd, hrp]
  | cons l rest ih =>
    intro hl p pos fuel array hd hf
    obtain ⟨hlit, hr⟩ := hl l (by simp)
    have hrest : validInts rest := fun q hq => hl q (by simp [hq])
    cases fuel with
    | zero => omega
    | succ k =>
      simp only [numsTokens, List.cons_append] at hd
      have hd1 := drop_succ_of_drop hd
      have hc0 := current_of_drop hd
      have hlen : (tokens.drop (pos + 1)).length < k := by
        have e1 := length_drop_succ_of_drop hd
        omega
      obtain ⟨pos2, hp2, hloop⟩ := ih hrest _ (pos + 1) k
        (array ++ [.int (literalValue l)]) hd1 hlen
      refine ⟨pos2, hp2, ?_⟩
      have hpv : parseValue fl tokens defs (f + 1) pos = .ok (.int (literalValue l), pos + 1) := by
        have := parseValue_number fl tokens defs f pos (by rw [hc0])
          (by rw [hc0]; exact hlit) (by rw [hc0]; exact hr)
        rw [this, hc0]
      simp only [parseArrayLoop, hc0, hpv, hloop]
      simp

theorem parseValue_hash {F : Type} (fl : FloatOps F) (tokens : List Token)
    (defs : GoMap (Value F)) (fuel pos : Nat) (hk : (current tokens pos).Kind = TOKEN_HASH) :
    parseValue fl tokens defs (fuel + 1) pos =
      parseArray (parseValue fl tokens defs fuel) tokens pos := by
  simp [parseValue, hk]

/-- The tokens of a binding of an array of integer literals. -/
theorem lex_int_array (ident : GoString) (lits : List GoString)
    (hid : isAsciiIdentifier ident = true) (hkw : ident ∉ keywords) (hl : validInts lits) :
    ∃ p1 p2 p3 p4 p5 p6 : Nat,
    lex (ident ++ bytes " := #(" ++ numsText lits ++ bytes " );") =
      .ok (⟨TOKEN_IDENT, ident, 1, p1⟩ :: ⟨TOKEN_ASSIGN, [58, 61], 1, p2⟩ ::
        ⟨TOKEN_HASH, [35], 1, p3⟩ :: ⟨TOKEN_LPAREN, [40], 1, p4⟩ ::
        (numsTokens 1 p5 lits ++
        [⟨TOKEN_RPAREN, [41], 1, p6⟩, ⟨TOKEN_SEMICOLON, [59], 1, p6 + 1⟩,
         ⟨TOKEN_EOF, [], 2, 0⟩])) := by
  have e1 : bytes " := #(" = [32, 58, 61, 32, 35, 40] := by decide
  have e2 : bytes " );" = [32, 41, 59] := by decide
  have eline : ident ++ bytes " := #(" ++ numsText lits ++ bytes " );" =
      ident ++ 32 :: (58 :: 61 :: 32 :: 35 :: 40 :: (numsText lits ++ 32 :: [41, 59])) := by
    simp [e1, e2]
  rw [eline]
  obtain ⟨hls, hc, hb, hne⟩ :=
    identifier_line hid (58 :: 61 :: 32 :: 35 :: 40 :: (numsText lits ++ 32 :: [41, 59]))
  have h10 : 10 ∉ ident ++ 32 :: (58 :: 61 :: 32 :: 35 :: 40 :: (numsText lits ++ 32 :: [41, 59])) := by
    have := identifier_no_newline hid
    have := numsText_no_newline lits hl
    simp [*]
  have ht : noTrailingSpace
      (ident ++ 32 :: (58 :: 61 :: 32 :: 35 :: 40 :: (numsText lits ++ 32 :: [41, 59]))) = true := by
    simp [noTrailingSpace]
  obtain ⟨pos2, hn2⟩ := lexRun_nums 1 lits hl (0 + ident.length + 1 + 2 + 1 + 1 + 1)
    [41, 59] ([] ++ [⟨identKind ident, ident, 1, 0⟩]
      ++ [⟨TOKEN_ASSIGN, [58, 61], 1, 0 + ident.length + 1⟩]
      ++ [⟨TOKEN_HASH, [35], 1, 0 + ident.length + 1 + 2 + 1⟩]
      ++ [⟨TOKEN_LPAREN, [40], 1, 0 + ident.length + 1 + 2 + 1 + 1⟩])
  refine ⟨0, 0 + ident.length + 1, 0 + ident.length + 1 + 2 + 1,
    0 + ident.length + 1 + 2 + 1 + 1, 0 + ident.length + 1 + 2 + 1 + 1 + 1, pos2 + 1, ?_⟩
  have hrun := lex_one_line _ (⟨TOKEN_IDENT, ident, 1, 0⟩ ::
      ⟨TOKEN_ASSIGN, [58, 61], 1, 0 + ident.length + 1⟩ ::
      ⟨TOKEN_HASH, [35], 1, 0 + ident.length + 1 + 2 + 1⟩ ::
      ⟨TOKEN_LPAREN, [40], 1, 0 + ident.length + 1 + 2 + 1 + 1⟩ ::
      (numsTokens 1 (0 + ident.length + 1 + 2 + 1 + 1 + 1) lits ++
        [⟨TOKEN_RPAREN, [41], 1, pos2 + 1⟩, ⟨TOKEN_SEMICOLON, [59], 1, pos2 + 1 + 1⟩]))
    h10 hls ht hne hc hb ?_
  · simpa using hrun
  · rw [lexRun_ident _ _ _ _ _ hid (by simp [isIdentChar, isLetter, isDigit]),
      lexRun_space _ _ _ _ _ (by decide), lexRun_assign, lexRun_space _ _ _ _ _ (by decide),
      lexRun_punct _ _ 35 _ _ TOKEN_HASH (by decide),
      lexRun_punct _ _ 40 _ _ TOKEN_LPAREN (by decide), hn2,
      lexRun_space _ _ _ _ _ (by decide),
      lexRun_punct _ _ 41 _ _ TOKEN_RPAREN (by decide),
      lexRun_punct _ _ 59 _ _ TOKEN_SEMICOLON (by decide),
      lexRun_nil, identKind_of_not_keyword hkw]
    simp

/-- C6: for every list of integer literals in the range of a 64-bit `int`, written after
one space each as `IDENT := #( n1 n2 ... nm );`, lexing and parsing succeed and the
Document maps `IDENT` to the array of the `m` integers in the order written; the empty
list gives the empty array. `IDENT` is any identifier of ASCII letters, digits and
underscores that is no keyword. -/
theorem int_array (ident : GoString) (lits : List GoString)
    (hid : isAsciiIdentifier ident = true) (hkw : ident ∉ keywords) (hl : validInts lits) :
    ParsesTo (ident ++ bytes " := #(" ++ numsText lits ++ bytes " );")
      (fun _ => [(ident, .array (lits.map (fun l => .int (literalValue l))))]) := by
  intro F fl
  obtain ⟨p1, p2, p3, p4, p5, p6, hlex⟩ := lex_int_array ident lits hid hkw hl
  simp only [lexParse, hlex]
  generalize htok : (⟨TOKEN_IDENT, ident, 1, p1⟩ :: ⟨TOKEN_ASSIGN, [58, 61], 1, p2⟩ ::
        ⟨TOKEN_HASH, [35], 1, p3⟩ :: ⟨TOKEN_LPAREN, [40], 1, p4⟩ ::
        (numsTokens 1 p5 lits ++
        [⟨TOKEN_RPAREN, [41], 1, p6⟩, ⟨TOKEN_SEMICOLON, [59], 1, p6 + 1⟩,
         ⟨TOKEN_EOF, [], 2, 0⟩]) : List Token) = tokens
  have hd0 : tokens.drop 0 = _ := htok.symm
  have hd1 := drop_succ_of_drop hd0
  have hd2 := drop_succ_of_drop hd1
  have hd3 := drop_succ_of_drop hd2
  have hd4 := drop_succ_of_drop hd3
  have hlenpos : 0 < tokens.length := by rw [← htok]; simp
  obtain ⟨f, hf⟩ := Nat.exists_eq_succ_of_ne_zero (Nat.pos_iff_ne_zero.mp hlenpos)
  have hlen4 : (tokens.drop (0 + 1 + 1 + 1 + 1)).length < tokens.length + 1 := by
    rw [List.length_drop]; omega
  obtain ⟨pos2, hp2, hloop⟩ := parseArrayLoop_nums fl tokens [] f 1
    ⟨TOKEN_RPAREN, [41], 1, p6⟩ _ rfl lits hl p5 _ (tokens.length + 1) [] hd4 hlen4
  have hp3 := drop_succ_of_drop hp2
  have hp4 := drop_succ_of_drop hp3
  have hval : parseValue fl tokens [] (tokens.length + 1) (0 + 1 + 1) =
      .ok (.array (lits.map (fun l => .int (literalValue l))), pos2 + 1) := by
    rw [parseValue_hash fl tokens [] _ _ (by rw [current_of_drop hd2])]
    simp only [parseArray, expect_of_drop hd2 TOKEN_HASH rfl,
      expect_of_drop hd3 TOKEN_LPAREN rfl]
    have hpvfun : parseValue fl tokens [] tokens.length = parseValue fl tokens [] (f + 1) := by
      rw [hf]
    rw [hpvfun, hloop]
    simp only [expect_of_drop hp2 TOKEN_RPAREN rfl, List.nil_append]
  unfold parse
  rw [parseLoop_binding fl tokens _ 0 [] [] _ _ _ _ _ _ _ (Nat.succ_pos _) hd0 rfl rfl hval
    hp3 rfl]
  rw [parseLoop_eof fl tokens _ _ _ _ (by simpa using hlenpos)
    (by rw [current_of_drop hp4])]
  rfl

/-- The sample of the test suite, `items := #( 1 2 3 );`, and the empty array. -/
theorem int_array_witness :
    ParsesTo (bytes "items := #( 1 2 3 );")
      (fun _ => [(bytes "items", .array [.int 1, .int 2, .int 3])]) ∧
    ParsesTo (bytes "items := #( );") (fun _ => [(bytes "items", .array [])]) :=
  ⟨int_array (bytes "items") [bytes "1", bytes "2", bytes "3"] (by decide) (by decide)
      (by decide),
   int_array (bytes "items") [] (by decide) (by decide) (by decide)⟩

/-! ## Dictionaries -/

theorem Literal.text_no_newline {v : Literal} (h : v.valid) : 10 ∉ v.text := by
  cases v with
  | str s => simp [Literal.valid] at h; simp [Literal.text, h.2]
  | int l =>
    have := literal_no_newline h.1
    simpa [Literal.text] using this

theorem entriesText_no_newline (es : List (GoString × Literal)) (h : validEntries es) :
    10 ∉ entriesText es := by
  induction es with
  | nil => simp [entriesText]
  | cons e rest ih =>
    obtain ⟨k, v⟩ := e
    obtain ⟨hk, _, hv⟩ := h (k, v) (by simp)
    have h1 := identifier_no_newline hk
    have h2 := Literal.text_no_newline hv
    have h3 := ih (fun q hq => h q (by simp [hq]))
    simp [entriesText, h1, h2, h3]

theorem lexRun_literal (ln pos : Nat) (v : Literal) (r : GoString) (acc : List Token)
    (hv : v.valid) :
    lexRun ln pos (v.text ++ 59 :: r) acc =
      lexRun ln (pos + v.text.length) (59 :: r) (acc ++ [v.token ln pos]) := by
  cases v with
  | str s =>
    simp only [Literal.valid] at hv
    simp only [Literal.text, Literal.token, List.cons_append, List.append_assoc,
      List.singleton_append]
    rw [lexRun_string _ _ _ _ _ hv.1]
    simp
  | int l =>
    simp only [Literal.text, Literal.token]
    rw [lexRun_number _ _ _ _ _ hv.1 (by simp [endsNumber, isDigit])]

theorem lexRun_entries (ln : Nat) (es : List (GoString × Literal)) (hes : validEntries es) :
    ∀ (pos : Nat) (r : GoString) (acc : List Token),
    ∃ pos2, lexRun ln pos (entriesText es ++ r) acc =
      lexRun ln pos2 r (acc ++ entriesTokens ln pos es) := by
  induction es with
  | nil =>
    intro pos r acc
    exact ⟨pos, by simp [entriesText, entriesTokens]⟩
  | cons e rest ih =>
    intro pos r acc
    obtain ⟨k, v⟩ := e
    obtain ⟨hk, hkw, hv⟩ := hes (k, v) (by simp)
    have hrest : validEntries rest := fun q hq => hes q (by simp [hq])
    obtain ⟨pos2, h2⟩ := ih hrest (pos + 1 + k.length + 1 + 2 + 1 + v.text.length + 1) r
      (acc ++ [⟨TOKEN_IDENT, k, ln, pos + 1⟩, ⟨TOKEN_ASSIGN, [58, 61], ln, pos + 1 + k.length + 1⟩,
        v.token ln (pos + 1 + k.length + 1 + 2 + 1),
        ⟨TOKEN_SEMICOLON, [59], ln, pos + 1 + k.length + 1 + 2 + 1 + v.text.length⟩])
    refine ⟨pos2, ?_⟩
    simp only [entriesText, entriesTokens, List.cons_append, List.append_assoc]
    rw [lexRun_space _ _ _ _ _ (by decide),
      lexRun_ident _ _ _ _ _ hk (by simp [isIdentChar, isLetter, isDigit]),
      lexRun_space _ _ _ _ _ (by decide), lexRun_assign, lexRun_space _ _ _ _ _ (by decide),
      lexRun_literal _ _ _ _ _ hv, lexRun_punct _ _ 59 _ _ TOKEN_SEMICOLON (by decide),
      identKind_of_not_keyword hkw]
    simpa using h2

theorem Literal.parseValue_token {F : Type} (fl : FloatOps F) (tokens : List Token)
    (defs : GoMap (Value F)) (fuel pos ln p : Nat) (v : Literal) (hv : v.valid)
    (hc : current tokens pos = v.token ln p) :
    parseValue fl tokens defs (fuel + 1) pos = .ok (v.value F, pos + 1) := by
  cases v with
  | str s =>
    have := parseValue_string fl tokens defs fuel pos (by rw [hc]; rfl)
    rw [this, hc]; rfl
  | int l =>
    have := parseValue_number fl tokens defs fuel pos (by rw [hc]; rfl)
      (by rw [hc]; exact hv.1) (by rw [hc]; exact hv.2)
    rw [this, hc]; rfl

/-- The loop of `parseDictionary` over entries with literal values assigns them
in turn. -/
theorem parseDictionaryLoop_entries {F : Type} (fl : FloatOps F) (tokens : List Token)
    (defs : GoMap (Value F)) (f ln : Nat) (te : Token) (R : List Token)
    (hte : te.Kind = TOKEN_END) :
    ∀ (es : List (GoString × Literal)), validEntries es →
    ∀ (p pos fuel : Nat) (dict : GoMap (Value F)),
    tokens.drop pos = entriesTokens ln p es ++ te :: R → (tokens.drop pos).length < fuel →
    ∃ pos2, tokens.drop pos2 = te :: R ∧
      parseDictionaryLoop (parseValue fl tokens defs (f + 1)) tokens fuel pos dict =
        .ok (es.foldl (fun d e => d.set e.1 (e.2.value F)) dict, pos2) := by
  intro es
  induction es with
  | nil =>
    intro _ p pos fuel dict hd hf
    cases fuel with
    | zero => omega
    | succ k =>
      simp only [entriesTokens, List.nil_append] at hd
      refine ⟨pos, hd, ?_⟩
      simp [parseDictionaryLoop, current_of_drop hd, hte]
  | cons e rest ih =>
    intro hes p pos fuel dict hd hf
    obtain ⟨key, v⟩ := e
    obtain ⟨hk, hkw, hv⟩ := hes (key, v) (by simp)
    have hrest : validEntries rest := fun q hq => hes q (by simp [hq])
    cases fuel with
    | zero => omega
    | succ k =>
      simp only [entriesTokens, List.cons_append] at hd
      have hd1 := drop_succ_of_drop hd
      have hd2 := drop_succ_of_drop hd1
      have hd3 := drop_succ_of_drop hd2
      have hd4 := drop_succ_of_drop hd3
      have hc0 := current_of_drop hd
      have hlen : (tokens.drop (pos + 1 + 1 + 1 + 1)).length < k := by
        have e1 := length_drop_succ_of_drop hd
        have e2 := length_drop_succ_of_drop hd1
        have e3 := length_drop_succ_of_drop hd2
        have e4 := length_drop_succ_of_drop hd3
        omega
      obtain ⟨pos2, hp2, hloop⟩ := ih hrest _ (pos + 1 + 1 + 1 + 1) k
        (dict.set key (v.value F)) hd4 hlen
      refine ⟨pos2, hp2, ?_⟩
      have hpv := Literal.parseValue_token fl tokens defs f (pos + 1 + 1) ln _ v hv
        (current_of_drop hd2)
      simp only [parseDictionaryLoop, hc0, expect_of_drop hd1 TOKEN_ASSIGN rfl, hpv,
        expect_of_drop hd3 TOKEN_SEMICOLON rfl, List.foldl_cons, hloop]
      simp

theorem foldl_set_get (F : Type) (es : List (GoString × Literal)) :
    ∀ (d0 : GoMap (Value F)) (k : GoString),
    (es.foldl (fun d e => d.set e.1 (e.2.value F)) d0).get k =
      ((lastEntry F es k).or (d0.get k)) := by
  induction es with
  | nil => intro d0 k; simp [lastEntry]
  | cons e rest ih =>
    intro d0 k
    rw [List.foldl_cons, ih]
    unfold lastEntry
    rw [List.reverse_cons, List.find?_append]
    cases hr : rest.reverse.find? (fun e => e.1 == k) with
    | some e2 => simp
    | none =>
      by_cases hk : e.1 = k
      · subst hk
        simp [GoMap.get_set_self]
      · have hk2 : (e.1 == k) = false := by simpa using hk
        simp [hk2, GoMap.get_set_other d0 e.1 k _ (Ne.symm hk)]

theorem GoMap.keys_set {V : Type} (m : GoMap V) (k : GoString) (v : V) (k2 : GoString) :
    k2 ∈ (m.set k v).map Prod.fst ↔ k2 = k ∨ k2 ∈ m.map Prod.fst := by
  induction m with
  | nil => simp [GoMap.set]
  | cons e m ih =>
    obtain ⟨k3, v3⟩ := e
    by_cases h : k3 = k
    · subst h
      simp [GoMap.set]
    · simp only [GoMap.set, h, if_false, List.map_cons, List.mem_cons, ih]
      constructor
      · rintro (h1 | h1 | h1)
        · exact Or.inr (Or.inl h1)
        · exact Or.inl h1
        · exact Or.inr (Or.inr h1)
      · rintro (h1 | h1 | h1)
        · exact Or.inr (Or.inl h1)
        · exact Or.inl h1
        · exact Or.inr (Or.inr h1)

theorem GoMap.nodup_set {V : Type} (m : GoMap V) (k : GoString) (v : V)
    (h : (m.map Prod.fst).Nodup) : ((m.set k v).map Prod.fst).Nodup := by
  induction m with
  | nil => simp [GoMap.set]
  | cons e m ih =>
    obtain ⟨k3, v3⟩ := e
    simp only [List.map_cons, List.nodup_cons] at h
    by_cases hk : k3 = k
    · subst hk
      simpa [GoMap.set] using h
    · simp only [GoMap.set, hk, if_false, List.map_cons, List.nodup_cons]
      refine ⟨?_, ih h.2⟩
      intro hm
      rcases (GoMap.keys_set m k v k3).mp hm with h1 | h1
      · exact hk h1
      · exact h.1 h1

theorem foldl_set_keys (F : Type) (es : List (GoString × Literal)) :
    ∀ (d0 : GoMap (Value F)), (d0.map Prod.fst).Nodup →
    ((es.foldl (fun d e => d.set e.1 (e.2.value F)) d0).map Prod.fst).Nodup ∧
    ∀ k, k ∈ (es.foldl (fun d e => d.set e.1 (e.2.value F)) d0).map Prod.fst ↔
      k ∈ es.map Prod.fst ∨ k ∈ d0.map Prod.fst := by
  induction es with
  | nil => intro d0 h; simp [h]
  | cons e rest ih =>
    intro d0 h
    obtain ⟨h1, h2⟩ := ih (d0.set e.1 (e.2.value F)) (GoMap.nodup_set d0 _ _ h)
    refine ⟨h1, fun k => ?_⟩
    rw [List.foldl_cons, h2, GoMap.keys_set]
    simp only [List.map_cons, List.mem_cons]
    constructor
    · rintro (h3 | h3 | h3)
      · exact Or.inl (Or.inr h3)
      · exact Or.inl (Or.inl h3)
      · exact Or.inr h3
    · rintro ((h3 | h3) | h3)
      · exact Or.inr (Or.inl h3)
      · exact Or.inl h3
      · exact Or.inr (Or.inr h3)

theorem parseValue_begin {F : Type} (fl : FloatOps F) (tokens : List Token)
    (defs : GoMap (Value F)) (fuel pos : Nat) (hk : (current tokens pos).Kind = TOKEN_BEGIN) :
    parseValue fl tokens defs (fuel + 1) pos =
      parseDictionary (parseValue fl tokens defs fuel) tokens pos := by
  simp [parseValue, hk]

/-- The tokens of a binding of a dictionary with literal values. -/
theorem lex_dictionary (ident : GoString) (es : List (GoString × Literal))
    (hid : isAsciiIdentifier ident = true) (hkw : ident ∉ keywords) (hes : validEntries es) :
    ∃ p1 p2 p3 p4 p5 : Nat,
    lex (ident ++ bytes " := begin" ++ entriesText es ++ bytes " end;") =
      .ok (⟨TOKEN_IDENT, ident, 1, p1⟩ :: ⟨TOKEN_ASSIGN, [58, 61], 1, p2⟩ ::
        ⟨TOKEN_BEGIN, bytes "begin", 1, p3⟩ ::
        (entriesTokens 1 p4 es ++
        [⟨TOKEN_END, bytes "end", 1, p5⟩, ⟨TOKEN_SEMICOLON, [59], 1, p5 + 3⟩,
         ⟨TOKEN_EOF, [], 2, 0⟩])) := by
  have e1 : bytes " := begin" = 32 :: 58 :: 61 :: 32 :: bytes "begin" := by decide
  have e2 : bytes " end;" = 32 :: (bytes "end" ++ [59]) := by decide
  have eline : ident ++ bytes " := begin" ++ entriesText es ++ bytes " end;" =
      ident ++ 32 :: (58 :: 61 :: 32 :: (bytes "begin" ++
        (entriesText es ++ 32 :: (bytes "end" ++ [59])))) := by
    simp [e1, e2]
  rw [eline]
  obtain ⟨hls, hc, hb, hne⟩ := identifier_line hid (58 :: 61 :: 32 :: (bytes "begin" ++
        (entriesText es ++ 32 :: (bytes "end" ++ [59]))))
  have h10 : 10 ∉ ident ++ 32 :: (58 :: 61 :: 32 :: (bytes "begin" ++
        (entriesText es ++ 32 :: (bytes "end" ++ [59])))) := by
    have := identifier_no_newline hid
    have := entriesText_no_newline es hes
    have : 10 ∉ bytes "begin" := by decide
    have : 10 ∉ bytes "end" := by decide
    simp [*]
  have ht : noTrailingSpace (ident ++ 32 :: (58 :: 61 :: 32 :: (bytes "begin" ++
        (entriesText es ++ 32 :: (bytes "end" ++ [59]))))) = true := by
    simp [noTrailingSpace]
  have hbegin : isAsciiIdentifier (bytes "begin") = true := by decide
  have hend : isAsciiIdentifier (bytes "end") = true := by decide
  have hkb : identKind (bytes "begin") = TOKEN_BEGIN := by decide
  have hke : identKind (bytes "end") = TOKEN_END := by decide
  have hlb : (bytes "begin").length = 5 := by decide
  have hle : (bytes "end").length = 3 := by decide
  have hnext : (((entriesText es ++ 32 :: (bytes "end" ++ [59])).head?).map isIdentChar).getD
      false = false := by
    cases es with
    | nil => simp [entriesText, isIdentChar, isLetter, isDigit]
    | cons e rest => obtain ⟨k, v⟩ := e; simp [entriesText, isIdentChar, isLetter, isDigit]
  obtain ⟨pos2, hn2⟩ := lexRun_entries 1 es hes (0 + ident.length + 1 + 2 + 1 + 5)
    (32 :: (bytes "end" ++ [59])) ([] ++ [⟨TOKEN_IDENT, ident, 1, 0⟩]
      ++ [⟨TOKEN_ASSIGN, [58, 61], 1, 0 + ident.length + 1⟩]
      ++ [⟨TOKEN_BEGIN, bytes "begin", 1, 0 + ident.length + 1 + 2 + 1⟩])
  refine ⟨0, 0 + ident.length + 1, 0 + ident.length + 1 + 2 + 1,
    0 + ident.length + 1 + 2 + 1 + 5, pos2 + 1, ?_⟩
  have hrun := lex_one_line _ (⟨TOKEN_IDENT, ident, 1, 0⟩ ::
      ⟨TOKEN_ASSIGN, [58, 61], 1, 0 + ident.length + 1⟩ ::
      ⟨TOKEN_BEGIN, bytes "begin", 1, 0 + ident.length + 1 + 2 + 1⟩ ::
      (entriesTokens 1 (0 + ident.length + 1 + 2 + 1 + 5) es ++
        [⟨TOKEN_END, bytes "end", 1, pos2 + 1⟩, ⟨TOKEN_SEMICOLON, [59], 1, pos2 + 1 + 3⟩]))
    h10 hls ht hne hc hb ?_
  · simpa using hrun
  · rw [lexRun_ident _ _ _ _ _ hid (by simp [isIdentChar, isLetter, isDigit]),
      lexRun_space _ _ _ _ _ (by decide), lexRun_assign, lexRun_space _ _ _ _ _ (by decide),
      lexRun_ident _ _ _ _ _ hbegin hnext, identKind_of_not_keyword hkw, hkb, hlb, hn2,
      lexRun_space _ _ _ _ _ (by decide),
      lexRun_ident _ _ _ _ _ hend (by simp [isIdentChar, isLetter, isDigit]), hke, hle,
      lexRun_punct _ _ 59 _ _ TOKEN_SEMICOLON (by decide), lexRun_nil]
    simp

/-- A binding of a dictionary with literal values parses to the dictionary its
entries build. -/
theorem dictionary_parses (ident : GoString) (es : List (GoString × Literal))
    (hid : isAsciiIdentifier ident = true) (hkw : ident ∉ keywords) (hes : validEntries es) :
    ParsesTo (ident ++ bytes " := begin" ++ entriesText es ++ bytes " end;")
      (fun F => [(ident, .dict (dictOf F es))]) := by
  intro F fl
  obtain ⟨p1, p2, p3, p4, p5, hlex⟩ := lex_dictionary ident es hid hkw hes
  simp only [lexParse, hlex]
  generalize htok : (⟨TOKEN_IDENT, ident, 1, p1⟩ :: ⟨TOKEN_ASSIGN, [58, 61], 1, p2⟩ ::
        ⟨TOKEN_BEGIN, bytes "begin", 1, p3⟩ ::
        (entriesTokens 1 p4 es ++
        [⟨TOKEN_END, bytes "end", 1, p5⟩, ⟨TOKEN_SEMICOLON, [59], 1, p5 + 3⟩,
         ⟨TOKEN_EOF, [], 2, 0⟩]) : List Token) = tokens
  have hd0 : tokens.drop 0 = _ := htok.symm
  have hd1 := drop_succ_of_drop hd0
  have hd2 := drop_succ_of_drop hd1
  have hd3 := drop_succ_of_drop hd2
  have hlenpos : 0 < tokens.length := by rw [← htok]; simp
  obtain ⟨f, hf⟩ := Nat.exists_eq_succ_of_ne_zero (Nat.pos_iff_ne_zero.mp hlenpos)
  have hlen3 : (tokens.drop (0 + 1 + 1 + 1)).length < tokens.length + 1 := by
    rw [List.length_drop]; omega
  obtain ⟨pos2, hp2, hloop⟩ := parseDictionaryLoop_entries fl tokens [] f 1
    ⟨TOKEN_END, bytes "end", 1, p5⟩ _ rfl es hes p4 _ (tokens.length + 1) [] hd3 hlen3
  have hp3 := drop_succ_of_drop hp2
  have hp4 := drop_succ_of_drop hp3
  have hval : parseValue fl tokens [] (tokens.length + 1) (0 + 1 + 1) =
      .ok (.dict (dictOf F es), pos2 + 1) := by
    rw [parseValue_begin fl tokens [] _ _ (by rw [current_of_drop hd2])]
    simp only [parseDictionary, expect_of_drop hd2 TOKEN_BEGIN rfl]
    have hpvfun : parseValue fl tokens [] tokens.length = parseValue fl tokens [] (f + 1) := by
      rw [hf]
    rw [hpvfun, hloop]
    simp only [expect_of_drop hp2 TOKEN_END rfl, dictOf]
  unfold parse
  rw [parseLoop_binding fl tokens _ 0 [] [] _ _ _ _ _ _ _ (Nat.succ_pos _) hd0 rfl rfl hval
    hp3 rfl]
  rw [parseLoop_eof fl tokens _ _ _ _ (by simpa using hlenpos)
    (by rw [current_of_drop hp4])]
  rfl

/-- C7 (as amended): for every sequence of entries `k := v;` written between `begin` and
`end` as the value of a top-level binding, with keys that are identifiers of ASCII letters,
digits and underscores and no keywords and values
that are string literals or integer literals in the range of `int`, lexing and parsing
succeed and the bound value is a dictionary in which every key occurs once, whose keys
are exactly the keys written, and which maps each key to the value of the last entry
written with that key. -/
theorem dictionary_last_write_wins (ident : GoString) (es : List (GoString × Literal))
    (hid : isAsciiIdentifier ident = true) (hkw : ident ∉ keywords) (hes : validEntries es) :
    ParsesTo (ident ++ bytes " := begin" ++ entriesText es ++ bytes " end;")
      (fun F => [(ident, .dict (dictOf F es))]) ∧
    ∀ F : Type, ((dictOf F es).map Prod.fst).Nodup ∧
      (∀ k, k ∈ (dictOf F es).map Prod.fst ↔ k ∈ es.map Prod.fst) ∧
      (∀ k, (dictOf F es).get k = lastEntry F es k) := by
  refine ⟨dictionary_parses ident es hid hkw hes, fun F => ?_⟩
  obtain ⟨h1, h2⟩ := foldl_set_keys F es [] (by simp)
  refine ⟨h1, fun k => ?_, fun k => ?_⟩
  · simpa using h2 k
  · have := foldl_set_get F es [] k
    simpa [dictOf, GoMap.get] using this

/-- The sample of the test suite, and a dictionary that writes the key `k` twice. -/
theorem dictionary_last_write_wins_witness :
    ParsesTo (bytes "config := begin key := 'value'; num := 42; end;")
      (fun _ => [(bytes "config",
        .dict [(bytes "key", .str (bytes "value")), (bytes "num", .int 42)])]) ∧
    ParsesTo (bytes "c := begin k := 1; k := 'two'; end;")
      (fun _ => [(bytes "c", .dict [(bytes "k", .str (bytes "two"))])]) :=
  ⟨(dictionary_last_write_wins (bytes "config")
      [(bytes "key", .str (bytes "value")), (bytes "num", .int (bytes "42"))]
      (by decide) (by decide) (by decide)).1,
   (dictionary_last_write_wins (bytes "c")
      [(bytes "k", .int (bytes "1")), (bytes "k", .str (bytes "two"))]
      (by decide) (by decide) (by decide)).1⟩

/-- C7 (as stated) fails for a key with a letter outside ASCII: the key `ê` is the bytes
195 and 170, the lexer reads each as a letter and the dictionary holds the key 195, 131,
194, 170, so its key set is not the set of the keys written. -/
theorem dictionary_non_ascii_key :
    isIdentifier [195, 170] = true ∧ [195, 170] ∉ keywords ∧
    ParsesTo (bytes "config := begin " ++ [195, 170] ++ bytes " := 1; end;")
      (fun _ => [(bytes "config", .dict [([195, 131, 194, 170], .int 1)])]) :=
  ⟨by decide, by decide, fun _ _ => rfl⟩

/-! ## The end-of-input token -/

theorem lexLoop_noEOF (ln : Nat) : ∀ (f pos : Nat) (rest : GoString) (acc toks : List Token),
    noEOF acc → lexLoop ln f pos rest acc = .ok toks → noEOF toks := by
  intro f
  induction f with
  | zero =>
    intro pos rest acc toks hacc h
    cases rest with
    | nil => rw [lexLoop_nil] at h; cases h; exact hacc
    | cons c cs => simp [lexLoop] at h
  | succ n ih =>
    intro pos rest acc toks hacc h
    cases rest with
    | nil => rw [lexLoop_nil] at h; cases h; exact hacc
    | cons c cs =>
      rw [lexLoop_cons] at h
      rcases lexStep_shape ln pos c cs acc with ⟨res, hres, hk⟩ | ⟨p, r, a, _, ha, hk⟩
      · rw [hk] at h
        rcases hres with rfl | ⟨e, rfl, _⟩
        · cases h; exact hacc
        · cases h
      · rw [hk] at h
        refine ih p r a toks ?_ h
        rcases ha with rfl | ⟨t, rfl, ht⟩
        · exact hacc
        · intro t2 ht2
          rcases List.mem_append.mp ht2 with h1 | h1
          · exact hacc t2 h1
          · simp only [List.mem_singleton] at h1; subst h1; exact ht

theorem lexLines_noEOF (lines : List GoString) : ∀ (rest : List GoString) (lineNum : Nat)
    (acc toks : List Token), noEOF acc → lexLines lines lineNum rest acc = .ok toks →
    noEOF toks := by
  intro rest
  induction rest with
  | nil =>
    intro lineNum acc toks hacc h
    simp only [lexLines] at h
    cases h; exact hacc
  | cons raw rest ih =>
    intro lineNum acc toks hacc h
    simp only [lexLines] at h
    split at h
    · exact ih _ _ _ hacc h
    · split at h
      · exact ih _ _ _ hacc h
      · split at h
        · cases h
        · rename_i tokens2 hloop
          exact ih _ _ _ (lexLoop_noEOF _ _ _ _ _ _ hacc hloop) h

/-- C8: whenever `lex` succeeds, the token sequence is not empty, its last token is the
end-of-input token (with empty text, the line after the last line and position 0) and no
earlier token is an end-of-input token; so the cursor of the parser meets its first
end-of-input token at the last index. -/
theorem lex_ends_with_eof (input : GoString) (tokens : List Token)
    (h : lex input = .ok tokens) :
    ∃ body : List Token,
      tokens = body ++ [⟨TOKEN_EOF, [], (splitLines input).length + 1, 0⟩] ∧
      noEOF body ∧ tokens ≠ [] ∧
      (current tokens (tokens.length - 1)).Kind = TOKEN_EOF ∧
      ∀ i, i < tokens.length - 1 → (current tokens i).Kind ≠ TOKEN_EOF := by
  unfold lex at h
  simp only [] at h
  split at h
  · cases h
  · rename_i body hbody
    cases h
    have hno := lexLines_noEOF _ _ _ _ _ (fun _ hm => by cases hm) hbody
    refine ⟨body, rfl, hno, by simp, ?_, ?_⟩
    · simp [current]
    · intro i hi
      simp only [List.length_append, List.length_singleton, Nat.add_sub_cancel] at hi
      have : current (body ++ [⟨TOKEN_EOF, [], (splitLines input).length + 1, 0⟩]) i =
          body[i] := by
        simp [current, List.getElem?_append_left hi, List.getElem?_eq_getElem hi]
      rw [this]
      exact hno _ (List.getElem_mem _)

/-- The sample of the test suite lexes to at least 7 tokens, the last of which is the only
end-of-input token. -/
theorem lex_ends_with_eof_witness :
    ∃ tokens, lex (bytes "server_name := 'test'; port := 8080;") = .ok tokens ∧
      7 ≤ tokens.length ∧ (current tokens (tokens.length - 1)).Kind = TOKEN_EOF ∧
      ∀ i, i < tokens.length - 1 → (current tokens i).Kind ≠ TOKEN_EOF :=
  ⟨_, rfl, by decide, by
    obtain ⟨_, _, _, _, h4, h5⟩ :=
      lex_ends_with_eof (bytes "server_name := 'test'; port := 8080;") _ rfl
    exact ⟨h4, h5⟩⟩

/-! ## Block comments -/

/-- C9, the code at the failing input: the lines between `=begin` and `=cut` are lexed
like any other line and the `=cut` line itself is a lexer error (`=` is 61); only the
`=begin` line is skipped. -/
theorem block_comment_lines_are_lexed :
    lex (bytes "=begin\nx := 1;\n=cut\ny := 2;") = .error (.unexpectedCharacter 61 3 0) ∧
    lex (bytes "=begin\nx := 1;") =
      .ok [⟨TOKEN_IDENT, bytes "x", 2, 0⟩, ⟨TOKEN_ASSIGN, bytes ":=", 2, 2⟩,
        ⟨TOKEN_NUMBER, bytes "1", 2, 5⟩, ⟨TOKEN_SEMICOLON, bytes ";", 2, 6⟩,
        ⟨TOKEN_EOF, [], 3, 0⟩] := by
  constructor <;> decide

/-! ## Unclosed strings -/

theorem splitLoop_joinLines (lines : List GoString) (hne : lines ≠ [])
    (h : ∀ l ∈ lines, 10 ∉ l) : ∀ cur : GoString,
    splitLoop (joinLines lines) cur =
      (cur.reverse ++ lines.head hne) :: lines.tail := by
  induction lines with
  | nil => exact absurd rfl hne
  | cons l rest ih =>
    intro cur
    cases rest with
    | nil =>
      simp only [joinLines, List.head_cons, List.tail_cons]
      exact splitLoop_no_newline l cur (h l (by simp))
    | cons l2 rest2 =>
      simp only [joinLines, List.head_cons, List.tail_cons]
      rw [splitLoop_newline l _ cur (h l (by simp))]
      have := ih (by simp) (fun q hq => h q (by simp [hq])) []
      simp only [joinLines] at this
      rw [this]
      simp

theorem splitLines_joinLines (lines : List GoString) (hne : lines ≠ [])
    (h : ∀ l ∈ lines, 10 ∉ l) : splitLines (joinLines lines) = lines := by
  unfold splitLines
  rw [splitLoop_joinLines lines hne h []]
  cases lines with
  | nil => exact absurd rfl hne
  | cons l rest => simp

theorem startsWith_length {x y p : GoString} {c : Nat} (h : startsWith (x ++ c :: y) p = true)
    (hc : c ∉ p) : p.length ≤ x.length := by
  induction x generalizing p with
  | nil =>
    cases p with
    | nil => simp
    | cons d p =>
      simp only [List.nil_append, startsWith, Bool.and_eq_true, beq_iff_eq] at h
      simp only [List.mem_cons, not_or] at hc
      exact absurd h.1 hc.1
  | cons a x ih =>
    cases p with
    | nil => simp
    | cons d p =>
      simp only [List.cons_append, startsWith, Bool.and_eq_true] at h
      simp only [List.mem_cons, not_or] at hc
      have := ih h.2 hc.2
      simp only [List.length_cons]; omega

theorem trailingSpaceLen_le (a s : GoString) (c : Nat)
    (hc : ∀ e ∈ spaceEncodings, c ∉ e) : trailingSpaceLen (a ++ c :: s) ≤ s.length := by
  unfold trailingSpaceLen
  cases hf : spaceEncodings.find? (fun e => startsWith (a ++ c :: s).reverse e.reverse) with
  | none => simp
  | some e =>
    have hmem := List.mem_of_find?_eq_some hf
    have hp := List.find?_some hf
    simp only [List.reverse_append, List.reverse_cons, List.append_assoc,
      List.singleton_append] at hp
    have := startsWith_length hp (by simpa using hc e hmem)
    simpa using this

/-- Trimming on the right keeps everything up to a byte that is part of no
white-space rune. -/
theorem trimRightLoop_keep (a : GoString) (c : Nat) (hc : ∀ e ∈ spaceEncodings, c ∉ e) :
    ∀ (n : Nat) (s : GoString), ∃ s2, s2 <+: s ∧ trimRightLoop n (a ++ c :: s) = a ++ c :: s2 := by
  intro n
  induction n with
  | zero => intro s; exact ⟨s, List.prefix_refl s, rfl⟩
  | succ n ih =>
    intro s
    simp only [trimRightLoop]
    split
    · exact ⟨s, List.prefix_refl s, rfl⟩
    · have hle := trailingSpaceLen_le a s c hc
      have htake : (a ++ c :: s).take ((a ++ c :: s).length - trailingSpaceLen (a ++ c :: s)) =
          a ++ c :: s.take (s.length - trailingSpaceLen (a ++ c :: s)) := by
        have e1 : (a ++ c :: s).length - trailingSpaceLen (a ++ c :: s) =
            a.length + ((s.length - trailingSpaceLen (a ++ c :: s)) + 1) := by
          simp only [List.length_append, List.length_cons]; omega
        rw [e1, List.take_append, List.take_succ_cons]
      rw [htake]
      obtain ⟨s2, hs2, h2⟩ := ih (s.take (s.length - trailingSpaceLen (a ++ c :: s)))
      exact ⟨s2, hs2.trans (List.take_prefix _ _), h2⟩

theorem TrimSpace_unclosed (s : GoString) :
    ∃ s2, s2 <+: s ∧ TrimSpace (bytes "x := '" ++ s) = bytes "x := '" ++ s2 := by
  have e : bytes "x := '" = [120, 32, 58, 61, 32] ++ [39] := by decide
  have hl : noLeadingSpace (bytes "x := '" ++ s) = true := by
    rw [e]; rfl
  have e1 : ∀ n, trimLeftLoop n (bytes "x := '" ++ s) = bytes "x := '" ++ s := by
    intro n; cases n with
    | zero => rfl
    | succ n => simp [trimLeftLoop, leadingSpaceLen_eq_zero hl]
  obtain ⟨s2, hs2, h2⟩ := trimRightLoop_keep [120, 32, 58, 61, 32] 39 (by decide)
    (bytes "x := '" ++ s).length s
  refine ⟨s2, hs2, ?_⟩
  simp only [TrimSpace, e1]
  rw [e, List.append_assoc, List.singleton_append] at h2 ⊢
  rw [List.append_assoc, List.singleton_append]
  exact h2

theorem lexLines_cons_blank (lines : List GoString) (raw : GoString) (lineNum : Nat)
    (rest : List GoString) (acc : List Token) (h : TrimSpace raw = []) :
    lexLines lines lineNum (raw :: rest) acc = lexLines lines (lineNum + 1) rest acc := by
  simp [lexLines, h]

theorem lexLines_blank (lines : List GoString) (blanks : List GoString)
    (hb : ∀ l ∈ blanks, TrimSpace l = []) : ∀ (lineNum : Nat) (rest : List GoString)
    (acc : List Token),
    lexLines lines lineNum (blanks ++ rest) acc =
      lexLines lines (lineNum + blanks.length) rest acc := by
  induction blanks with
  | nil => intro lineNum rest acc; rfl
  | cons l more ih =>
    intro lineNum rest acc
    have h1 := hb l (by simp)
    rw [List.cons_append, lexLines_cons_blank _ _ _ _ _ h1,
      ih (fun q hq => hb q (by simp [hq]))]
    simp only [List.length_cons]
    have : lineNum + 1 + more.length = lineNum + (more.length + 1) := by omega
    rw [this]

/-- C10: an unclosed string literal is a lexer error that names its line. When the first
`k - 1` lines are blank (empty after trimming) and line `k` is `x := 'S` with `S` free of
single quotes and newlines, `lex` returns the error "unclosed string at line k", whatever
lines follow. -/
theorem unclosed_string_line (blanks more : List GoString) (s : GoString)
    (hb : ∀ l ∈ blanks, 10 ∉ l ∧ TrimSpace l = []) (hq : 39 ∉ s) (hn : 10 ∉ s)
    (hm : ∀ l ∈ more, 10 ∉ l) :
    lex (joinLines (blanks ++ (bytes "x := '" ++ s) :: more)) =
      .error (.unclosedString (blanks.length + 1)) ∧
    (LexError.unclosedString (blanks.length + 1)).message =
      bytes "unclosed string at line " ++ decimal (blanks.length + 1) := by
  refine ⟨?_, rfl⟩
  have hlines : ∀ l ∈ blanks ++ (bytes "x := '" ++ s) :: more, 10 ∉ l := by
    intro l hl
    rcases List.mem_append.mp hl with h1 | h1
    · exact (hb l h1).1
    · rcases List.mem_cons.mp h1 with h2 | h2
      · subst h2
        have : 10 ∉ bytes "x := '" := by decide
        simp [this, hn]
      · exact hm l h2
  unfold lex
  simp only [splitLines_joinLines _ (by simp) hlines]
  rw [lexLines_blank _ blanks (fun l hl => (hb l hl).2)]
  obtain ⟨s2, hs2, htrim⟩ := TrimSpace_unclosed s
  have hq2 : 39 ∉ s2 := fun h => hq (hs2.subset h)
  have e : bytes "x := '" = [120, 32, 58, 61, 32, 39] := by decide
  have hrun : lexLoop (1 + blanks.length) (bytes "x := '" ++ s2).length 0
      (bytes "x := '" ++ s2) [] = .error (.unclosedString (1 + blanks.length)) := by
    show lexRun (1 + blanks.length) 0 (bytes "x := '" ++ s2) [] = _
    rw [e]
    show lexRun _ 0 ([120] ++ 32 :: 58 :: 61 :: 32 :: 39 :: s2) [] = _
    rw [lexRun_ident _ _ _ _ _ (by decide) (by simp [isIdentChar, isLetter, isDigit]),
      lexRun_space _ _ _ _ _ (by decide),
      lexRun_assign, lexRun_space _ _ _ _ _ (by decide), lexRun_unclosed _ _ _ _ hq2]
  simp only [lexLines, htrim, hrun]
  have hne : (bytes "x := '" ++ s2 = []) = False := by rw [e]; simp
  have hc : startsWith (bytes "x := '" ++ s2) (bytes "--") = false := by rw [e]; rfl
  have hbg : startsWith (bytes "x := '" ++ s2) (bytes "=begin") = false := by rw [e]; rfl
  simp [hne, hc, hbg, Nat.add_comm]

/-- The sample `x := 'abc;` fails at line 1; after an empty line and a line of two spaces
it fails at line 3. -/
theorem unclosed_string_line_witness :
    lex (bytes "x := 'abc;") = .error (.unclosedString 1) ∧
    lex (bytes "\n  \nx := 'abc;\ny := 1;") = .error (.unclosedString 3) ∧
    (LexError.unclosedString 3).message = bytes "unclosed string at line 3" :=
  ⟨(unclosed_string_line [] [] (bytes "abc;") (by decide) (by decide) (by decide)
      (by decide)).1,
   (unclosed_string_line [[], bytes "  "] [bytes "y := 1;"] (bytes "abc;") (by decide)
      (by decide) (by decide) (by decide)).1,
   (unclosed_string_line [[], bytes "  "] [bytes "y := 1;"] (bytes "abc;") (by decide)
      (by decide) (by decide) (by decide)).2⟩

/-! ## Values that are missing or of the wrong kind -/

theorem parseValue_ill_kinded {F : Type} (fl : FloatOps F) (tokens : List Token)
    (defs : GoMap (Value F)) (fuel pos : Nat) (h : (current tokens pos).Kind ∉ valueKinds) :
    parseValue fl tokens defs (fuel + 1) pos =
      .error (.unexpectedValueToken (current tokens pos)) := by
  simp only [valueKinds, List.mem_cons, List.mem_singleton, not_or, List.not_mem_nil,
    or_false] at h
  obtain ⟨h1, h2, h3, h4, h5, h6⟩ := h
  simp only [parseValue]

/-- C11: a binding whose value is missing or of the wrong kind aborts the parse. When the
cursor of the top-level loop is at `IDENT :=` and the next token (the end-of-input token
that `current` returns past the last token included) has a kind other than number, string,
`#`, `begin`, `!` and identifier, the loop returns the error "unexpected token in value"
for that token and no Document, whatever Document the earlier bindings have built; for a
cursor at 0 this is the result of `parse`. -/
theorem ill_kinded_value_aborts {F : Type} (fl : FloatOps F) (tokens : List Token)
    (tk ta : Token) (rest : List Token) (pos : Nat)
    (hd : tokens.drop pos = tk :: ta :: rest) (hk : tk.Kind = TOKEN_IDENT)
    (ha : ta.Kind = TOKEN_ASSIGN) (hv : (current tokens (pos + 1 + 1)).Kind ∉ valueKinds) :
    (∀ (fuel : Nat) (defs result : GoMap (Value F)), 0 < fuel →
      parseLoop fl tokens fuel pos defs result =
        .error (.unexpectedValueToken (current tokens (pos + 1 + 1)))) ∧
    (pos = 0 → parse fl tokens = .error (.unexpectedValueToken (current tokens 2))) := by
  have key : ∀ (fuel : Nat) (defs result : GoMap (Value F)), 0 < fuel →
      parseLoop fl tokens fuel pos defs result =
        .error (.unexpectedValueToken (current tokens (pos + 1 + 1))) := by
    intro fuel defs result hf
    obtain ⟨k, rfl⟩ := Nat.exists_eq_succ_of_ne_zero (Nat.pos_iff_ne_zero.mp hf)
    have hc0 := current_of_drop hd
    have hd1 := drop_succ_of_drop hd
    simp [parseLoop, hc0, hk, expect_of_drop hd1 _ ha,
      parseValue_ill_kinded fl tokens defs tokens.length (pos + 1 + 1) hv]
  refine ⟨key, ?_⟩
  intro hp
  subst hp
  exact key _ _ _ (Nat.succ_pos _)

/-- The sample `x := ;`, alone and after a binding that parsed, and a binding cut off
after `:=`. -/
theorem ill_kinded_value_aborts_witness :
    ParseFailsWith (bytes "x := ;") (.unexpectedValueToken ⟨TOKEN_SEMICOLON, bytes ";", 1, 5⟩) ∧
    ParseFailsWith (bytes "a := 1; x := ;")
      (.unexpectedValueToken ⟨TOKEN_SEMICOLON, bytes ";", 1, 13⟩) ∧
    ParseFailsWith (bytes "x :=") (.unexpectedValueToken ⟨TOKEN_EOF, [], 2, 0⟩) :=
  ⟨fun F fl => by
      have h := (ill_kinded_value_aborts fl
        [⟨TOKEN_IDENT, bytes "x", 1, 0⟩, ⟨TOKEN_ASSIGN, bytes ":=", 1, 2⟩,
          ⟨TOKEN_SEMICOLON, bytes ";", 1, 5⟩, ⟨TOKEN_EOF, [], 2, 0⟩]
        _ _ _ 0 rfl rfl rfl (by decide)).2 rfl
      exact congrArg some h,
   fun _ _ => rfl, fun _ _ => rfl⟩

/-! ## Progress and totality of the parser -/

theorem parseOperator_ok {tokens : List Token} {pos pos2 : Nat} {op : GoString}
    (h : parseOperator tokens pos = .ok (op, pos2)) : (op = [43] ∨ op = [42]) ∧ pos2 = pos + 1 := by
  unfold parseOperator at h
  split at h
  · cases h; exact ⟨Or.inl rfl, rfl⟩
  · cases h; exact ⟨Or.inr rfl, rfl⟩
  · split at h
    · cases h; exact ⟨Or.inl rfl, rfl⟩
    · split at h
      · cases h; exact ⟨Or.inr rfl, rfl⟩
      · cases h
  · cases h

theorem current_lt_length {tokens : List Token} {pos : Nat}
    (h : (current tokens pos).Kind ≠ TOKEN_EOF) : pos < tokens.length := by
  by_contra hge
  apply h
  simp [current, List.getElem?_eq_none (Nat.le_of_not_lt hge)]

theorem expect_ok {tokens : List Token} {pos p : Nat} {k : TokenType}
    (h : expect tokens pos k = .ok p) : p = pos + 1 ∧ (current tokens pos).Kind = k := by
  unfold expect at h
  split at h
  · cases h
  · rename_i hk
    cases h
    exact ⟨rfl, by simpa using hk⟩

theorem expect_lt {tokens : List Token} {pos p : Nat} {k : TokenType}
    (h : expect tokens pos k = .ok p) (hk : k ≠ TOKEN_EOF) : p = pos + 1 ∧ pos < tokens.length := by
  obtain ⟨h1, h2⟩ := expect_ok h
  exact ⟨h1, current_lt_length (by rw [h2]; exact hk)⟩

theorem expect_ne_fuel (tokens : List Token) (pos : Nat) (k : TokenType) :
    expect tokens pos k ≠ .error .fuelExhausted := by
  unfold expect
  split <;> simp

/-! ### Arrays -/

theorem parseArrayLoop_progress {F : Type} (pv : Nat → Except ParseError (Value F × Nat))
    (tokens : List Token) (hpv : Progresses pv tokens) :
    ∀ (fuel pos : Nat) (arr arr2 : List (Value F)) (pos2 : Nat),
    parseArrayLoop pv tokens fuel pos arr = .ok (arr2, pos2) →
    pos ≤ pos2 ∧ (pos ≤ tokens.length → pos2 ≤ tokens.length) := by
  intro fuel
  induction fuel with
  | zero => intro pos arr arr2 pos2 h; simp [parseArrayLoop] at h
  | succ k ih =>
    intro pos arr arr2 pos2 h
    simp only [parseArrayLoop] at h
    split at h
    · split at h
      · cases h
      · rename_i val p3 hv
        obtain ⟨h1, h2⟩ := hpv _ _ _ hv
        obtain ⟨h3, h4⟩ := ih _ _ _ _ h
        exact ⟨by omega, fun _ => h4 h2⟩
    · cases h
      exact ⟨Nat.le_refl _, fun hle => hle⟩

theorem parseArray_progress {F : Type} (pv : Nat → Except ParseError (Value F × Nat))
    (tokens : List Token) (hpv : Progresses pv tokens) (pos : Nat) (v : Value F) (pos2 : Nat)
    (h : parseArray pv tokens pos = .ok (v, pos2)) : pos < pos2 ∧ pos2 ≤ tokens.length := by
  unfold parseArray at h
  split at h
  · cases h
  · rename_i p1 h1
    split at h
    · cases h
    · rename_i p2 h2
      split at h
      · cases h
      · rename_i arr p3 h3
        split at h
        · cases h
        · rename_i p4 h4
          cases h
          obtain ⟨e1, _⟩ := expect_lt h1 (by decide)
          obtain ⟨e2, _⟩ := expect_lt h2 (by decide)
          obtain ⟨e4, l4⟩ := expect_lt h4 (by decide)
          obtain ⟨g1, _⟩ := parseArrayLoop_progress pv tokens hpv _ _ _ _ _ h3
          omega

theorem parseArrayLoop_safe {F : Type} (pv : Nat → Except ParseError (Value F × Nat))
    (tokens : List Token) (hpv : Progresses pv tokens) (p0 : Nat)
    (hs : FuelSafeFrom pv tokens p0) :
    ∀ (fuel pos : Nat) (arr : List (Value F)), p0 ≤ pos → pos ≤ tokens.length →
    tokens.length < fuel + pos →
    parseArrayLoop pv tokens fuel pos arr ≠ .error .fuelExhausted := by
  intro fuel
  induction fuel with
  | zero => intro pos arr _ h1 h2; omega
  | succ k ih =>
    intro pos arr h0 h1 h2
    simp only [parseArrayLoop]
    split
    · split
      · rename_i e he
        intro h; cases h
        exact hs pos h0 h1 he
      · rename_i val p3 hv
        obtain ⟨g1, g2⟩ := hpv _ _ _ hv
        exact ih _ _ (by omega) g2 (by omega)
    · simp

theorem parseArray_safe {F : Type} (pv : Nat → Except ParseError (Value F × Nat))
    (tokens : List Token) (hpv : Progresses pv tokens) (pos : Nat)
    (hs : FuelSafeFrom pv tokens (pos + 1)) :
    parseArray pv tokens pos ≠ .error .fuelExhausted := by
  unfold parseArray
  split
  · rename_i e he; intro h; cases h; exact expect_ne_fuel _ _ _ he
  · rename_i p1 h1
    split
    · rename_i e he; intro h; cases h; exact expect_ne_fuel _ _ _ he
    · rename_i p2 h2
      obtain ⟨e1, l1⟩ := expect_lt h1 (by decide)
      obtain ⟨e2, l2⟩ := expect_lt h2 (by decide)
      split
      · rename_i e he
        intro h; cases h
        exact parseArrayLoop_safe pv tokens hpv (pos + 1) hs _ _ _ (by omega) (by omega)
          (by omega) he
      · split
        · rename_i e he; intro h; cases h; exact expect_ne_fuel _ _ _ he
        · simp

/-! ### Dictionaries -/

theorem parseDictionaryLoop_progress {F : Type} (pv : Nat → Except ParseError (Value F × Nat))
    (tokens : List Token) (hpv : Progresses pv tokens) :
    ∀ (fuel pos : Nat) (dict dict2 : GoMap (Value F)) (pos2 : Nat),
    parseDictionaryLoop pv tokens fuel pos dict = .ok (dict2, pos2) →
    pos ≤ pos2 ∧ (pos ≤ tokens.length → pos2 ≤ tokens.length) := by
  intro fuel
  induction fuel with
  | zero => intro pos dict dict2 pos2 h; simp [parseDictionaryLoop] at h
  | succ k ih =>
    intro pos dict dict2 pos2 h
    simp only [parseDictionaryLoop] at h
    split at h
    · split at h
      · cases h
      · split at h
        · cases h
        · rename_i p2 h2
          split at h
          · cases h
          · rename_i val p3 hv
            split at h
            · cases h
            · rename_i p4 h4
              obtain ⟨e2, _⟩ := expect_lt h2 (by decide)
              obtain ⟨e4, l4⟩ := expect_lt h4 (by decide)
              obtain ⟨g1, g2⟩ := hpv _ _ _ hv
              obtain ⟨h3, h5⟩ := ih _ _ _ _ h
              exact ⟨by omega, fun _ => h5 (by omega)⟩
    · cases h
      exact ⟨Nat.le_refl _, fun hle => hle⟩

theorem parseDictionary_progress {F : Type} (pv : Nat → Except ParseError (Value F × Nat))
    (tokens : List Token) (hpv : Progresses pv tokens) (pos : Nat) (v : Value F) (pos2 : Nat)
    (h : parseDictionary pv tokens pos = .ok (v, pos2)) : pos < pos2 ∧ pos2 ≤ tokens.length := by
  unfold parseDictionary at h
  split at h
  · cases h
  · rename_i p1 h1
    split at h
    · cases h
    · rename_i dict p2 h2
      split at h
      · cases h
      · rename_i p3 h3
        cases h
        obtain ⟨e1, _⟩ := expect_lt h1 (by decide)
        obtain ⟨e3, l3⟩ := expect_lt h3 (by decide)
        obtain ⟨g1, _⟩ := parseDictionaryLoop_progress pv tokens hpv _ _ _ _ _ h2
        omega

theorem parseDictionaryLoop_safe {F : Type} (pv : Nat → Except ParseError (Value F × Nat))
    (tokens : List Token) (hpv : Progresses pv tokens) (p0 : Nat)
    (hs : FuelSafeFrom pv tokens p0) :
    ∀ (fuel pos : Nat) (dict : GoMap (Value F)), p0 ≤ pos → pos ≤ tokens.length →
    tokens.length < fuel + pos →
    parseDictionaryLoop pv tokens fuel pos dict ≠ .error .fuelExhausted := by
  intro fuel
  induction fuel with
  | zero => intro pos dict _ h1 h2; omega
  | succ k ih =>
    intro pos dict h0 h1 h2
    simp only [parseDictionaryLoop]
    split
    · split
      · simp
      · split
        · rename_i e he; intro h; cases h; exact expect_ne_fuel _ _ _ he
        · rename_i p2 h2e
          obtain ⟨e2, l2⟩ := expect_lt h2e (by decide)
          split
          · rename_i e he
            intro h; cases h
            exact hs p2 (by omega) (by omega) he
          · rename_i val p3 hv
            obtain ⟨g1, g2⟩ := hpv _ _ _ hv
            split
            · rename_i e he; intro h; cases h; exact expect_ne_fuel _ _ _ he
            · rename_i p4 h4
              obtain ⟨e4, l4⟩ := expect_lt h4 (by decide)
              exact ih _ _ (by omega) (by omega) (by omega)
    · simp

theorem parseDictionary_safe {F : Type} (pv : Nat → Except ParseError (Value F × Nat))
    (tokens : List Token) (hpv : Progresses pv tokens) (pos : Nat)
    (hs : FuelSafeFrom pv tokens (pos + 1)) :
    parseDictionary pv tokens pos ≠ .error .fuelExhausted := by
  unfold parseDictionary
  split
  · rename_i e he; intro h; cases h; exact expect_ne_fuel _ _ _ he
  · rename_i p1 h1
    obtain ⟨e1, l1⟩ := expect_lt h1 (by decide)
    split
    · rename_i e he
      intro h; cases h
      exact parseDictionaryLoop_safe pv tokens hpv (pos + 1) hs _ _ _ (by omega) (by omega)
        (by omega) he
    · split
      · rename_i e he; intro h; cases h; exact expect_ne_fuel _ _ _ he
      · simp

/-! ### Constant expressions -/

theorem parseOperator_lt {tokens : List Token} {pos pos2 : Nat} {op : GoString}
    (h : parseOperator tokens pos = .ok (op, pos2)) : pos2 = pos + 1 ∧ pos < tokens.length := by
  refine ⟨(parseOperator_ok h).2, ?_⟩
  apply current_lt_length
  intro hk
  simp [parseOperator, hk] at h

theorem parseOperator_ne_fuel (tokens : List Token) (pos : Nat) :
    parseOperator tokens pos ≠ .error .fuelExhausted := by
  unfold parseOperator
  split
  · simp
  · simp
  · split
    · simp
    · split <;> simp
  · simp

theorem applyOperator_ne_fuel {F : Type} (fl : FloatOps F) (op : GoString)
    (left right : Value F) (line : Nat) :
    applyOperator fl op left right line ≠ .error .fuelExhausted := by
  unfold applyOperator
  split
  · split
    · simp
    · split <;> simp
  · split
    · split
      · simp
      · split <;> simp
    · simp

theorem parseConstantExpressionLoop_progress {F : Type} (fl : FloatOps F)
    (pv : Nat → Except ParseError (Value F × Nat))
    (tokens : List Token) (hpv : Progresses pv tokens) :
    ∀ (fuel pos : Nat) (left left2 : Value F) (pos2 : Nat),
    parseConstantExpressionLoop fl pv tokens fuel pos left = .ok (left2, pos2) →
    pos ≤ pos2 ∧ (pos ≤ tokens.length → pos2 ≤ tokens.length) := by
  intro fuel
  induction fuel with
  | zero => intro pos left left2 pos2 h; simp [parseConstantExpressionLoop] at h
  | succ k ih =>
    intro pos left left2 pos2 h
    simp only [parseConstantExpressionLoop] at h
    split at h
    · split at h
      · cases h
      · rename_i op p2 hop
        split at h
        · cases h
        · rename_i right p3 hv
          split at h
          · cases h
          · obtain ⟨e2, _⟩ := parseOperator_lt hop
            obtain ⟨g1, g2⟩ := hpv _ _ _ hv
            obtain ⟨h3, h5⟩ := ih _ _ _ _ h
            exact ⟨by omega, fun _ => h5 g2⟩
    · cases h
      exact ⟨Nat.le_refl _, fun hle => hle⟩

theorem parseConstantExpression_progress {F : Type} (fl : FloatOps F)
    (pv : Nat → Except ParseError (Value F × Nat))
    (tokens : List Token) (hpv : Progresses pv tokens) (pos : Nat) (v : Value F) (pos2 : Nat)
    (h : parseConstantExpression fl pv tokens pos = .ok (v, pos2)) :
    pos < pos2 ∧ pos2 ≤ tokens.length := by
  unfold parseConstantExpression at h
  split at h
  · cases h
  · rename_i p1 h1
    split at h
    · cases h
    · rename_i p2 h2
      split at h
      · cases h
      · rename_i left p3 h3
        split at h
        · cases h
        · rename_i left2 p4 h4
          split at h
          · cases h
          · rename_i p5 h5
            cases h
            obtain ⟨e1, _⟩ := expect_lt h1 (by decide)
            obtain ⟨e2, _⟩ := expect_lt h2 (by decide)
            obtain ⟨e5, l5⟩ := expect_lt h5 (by decide)
            obtain ⟨g1, _⟩ := hpv _ _ _ h3
            obtain ⟨g3, _⟩ := parseConstantExpressionLoop_progress fl pv tokens hpv _ _ _ _ _ h4
            omega

theorem parseConstantExpressionLoop_safe {F : Type} (fl : FloatOps F)
    (pv : Nat → Except ParseError (Value F × Nat))
    (tokens : List Token) (hpv : Progresses pv tokens) (p0 : Nat)
    (hs : FuelSafeFrom pv tokens p0) :
    ∀ (fuel pos : Nat) (left : Value F), p0 ≤ pos → pos ≤ tokens.length →
    tokens.length < fuel + pos →
    parseConstantExpressionLoop fl pv tokens fuel pos left ≠ .error .fuelExhausted := by
  intro fuel
  induction fuel with
  | zero => intro pos left _ h1 h2; omega
  | succ k ih =>
    intro pos left h0 h1 h2
    simp only [parseConstantExpressionLoop]
    split
    · split
      · rename_i e he; intro h; cases h; exact parseOperator_ne_fuel _ _ he
      · rename_i op p2 hop
        obtain ⟨e2, l2⟩ := parseOperator_lt hop
        split
        · rename_i e he
          intro h; cases h
          exact hs p2 (by omega) (by omega) he
        · rename_i right p3 hv
          obtain ⟨g1, g2⟩ := hpv _ _ _ hv
          split
          · rename_i e he; intro h; cases h; exact applyOperator_ne_fuel _ _ _ _ _ he
          · exact ih _ _ (by omega) (by omega) (by omega)
    · simp

theorem parseConstantExpression_safe {F : Type} (fl : FloatOps F)
    (pv : Nat → Except ParseError (Value F × Nat))
    (tokens : List Token) (hpv : Progresses pv tokens) (pos : Nat)
    (hs : FuelSafeFrom pv tokens (pos + 1)) :
    parseConstantExpression fl pv tokens pos ≠ .error .fuelExhausted := by
  unfold parseConstantExpression
  split
  · rename_i e he; intro h; cases h; exact expect_ne_fuel _ _ _ he
  · rename_i p1 h1
    obtain ⟨e1, l1⟩ := expect_lt h1 (by decide)
    split
    · rename_i e he; intro h; cases h; exact expect_ne_fuel _ _ _ he
    · rename_i p2 h2
      obtain ⟨e2, l2⟩ := expect_lt h2 (by decide)
      split
      · rename_i e he
        intro h; cases h
        exact hs p2 (by omega) (by omega) he
      · rename_i left p3 h3
        obtain ⟨g1, g2⟩ := hpv _ _ _ h3
        split
        · rename_i e he
          intro h; cases h
          exact parseConstantExpressionLoop_safe fl pv tokens hpv (pos + 1) hs _ _ _ (by omega)
            g2 (by omega) he
        · split
          · rename_i e he; intro h; cases h; exact expect_ne_fuel _ _ _ he
          · simp

/-! ### Values, defines and the top-level loop -/

/-- Every successful call of `parseValue` leaves the cursor strictly greater
than it found it, and at most at the number of tokens. -/
theorem parseValue_progress {F : Type} (fl : FloatOps F) (tokens : List Token)
    (defs : GoMap (Value F)) :
    ∀ fuel, Progresses (parseValue fl tokens defs fuel) tokens := by
  intro fuel
  induction fuel with
  | zero => intro p v p2 h; simp [parseValue] at h
  | succ k ih =>
    intro p v p2 h
    simp only [parseValue] at h
    split at h
    · rename_i hk
      have hlt : p < tokens.length := current_lt_length (by rw [hk]; decide)
      split at h
      · split at h
        · cases h
        · cases h; exact ⟨by omega, by omega⟩
      · split at h
        · cases h
        · cases h; exact ⟨by omega, by omega⟩
    · rename_i hk
      have hlt : p < tokens.length := current_lt_length (by rw [hk]; decide)
      cases h; exact ⟨by omega, by omega⟩
    · exact parseArray_progress _ tokens ih _ _ _ h
    · exact parseDictionary_progress _ tokens ih _ _ _ h
    · exact parseConstantExpression_progress fl _ tokens ih _ _ _ h
    · rename_i hk
      have hlt : p < tokens.length := current_lt_length (by rw [hk]; decide)
      split at h
      · cases h; exact ⟨by omega, by omega⟩
      · cases h; exact ⟨by omega, by omega⟩
    · cases h

/-- With fuel that covers the tokens from the cursor on, `parseValue` does not
run out of fuel. -/
theorem parseValue_safe {F : Type} (fl : FloatOps F) (tokens : List Token)
    (defs : GoMap (Value F)) :
    ∀ (fuel pos : Nat), pos ≤ tokens.length → tokens.length < fuel + pos →
    parseValue fl tokens defs fuel pos ≠ .error .fuelExhausted := by
  intro fuel
  induction fuel with
  | zero => intro pos h1 h2; omega
  | succ k ih =>
    intro pos h1 h2
    have hs : FuelSafeFrom (parseValue fl tokens defs k) tokens (pos + 1) :=
      fun p hp hle => ih p hle (by omega)
    have hpv := parseValue_progress fl tokens defs k
    simp only [parseValue]
    split
    · split
      · split <;> simp
      · split <;> simp
    · simp
    · exact parseArray_safe _ tokens hpv pos hs
    · exact parseDictionary_safe _ tokens hpv pos hs
    · exact parseConstantExpression_safe fl _ tokens hpv pos hs
    · split <;> simp
    · simp

theorem parseDefine_progress {F : Type} (fl : FloatOps F) (tokens : List Token)
    (defs defs2 : GoMap (Value F)) (pos pos2 : Nat)
    (h : parseDefine fl tokens defs pos = .ok (defs2, pos2)) :
    pos < pos2 ∧ pos2 ≤ tokens.length := by
  unfold parseDefine at h
  split at h
  · cases h
  · rename_i p1 h1
    split at h
    · cases h
    · rename_i p2 h2
      split at h
      · cases h
      · split at h
        · cases h
        · rename_i val p3 h3
          split at h
          · cases h
          · rename_i p4 h4
            split at h
            · cases h
            · rename_i p5 h5
              cases h
              obtain ⟨e1, _⟩ := expect_lt h1 (by decide)
              obtain ⟨e2, _⟩ := expect_lt h2 (by decide)
              obtain ⟨e4, _⟩ := expect_lt h4 (by decide)
              obtain ⟨e5, l5⟩ := expect_lt h5 (by decide)
              obtain ⟨g1, _⟩ := parseValue_progress fl tokens defs _ _ _ _ h3
              omega

theorem parseDefine_safe {F : Type} (fl : FloatOps F) (tokens : List Token)
    (defs : GoMap (Value F)) (pos : Nat) :
    parseDefine fl tokens defs pos ≠ .error .fuelExhausted := by
  unfold parseDefine
  split
  · rename_i e he; intro h; cases h; exact expect_ne_fuel _ _ _ he
  · rename_i p1 h1
    split
    · rename_i e he; intro h; cases h; exact expect_ne_fuel _ _ _ he
    · rename_i p2 h2
      split
      · simp
      · rename_i hk
        have hlt : p2 < tokens.length := current_lt_length (by
          simp only [ne_eq, Decidable.not_not] at hk; rw [hk]; decide)
        split
        · rename_i e he
          intro h; cases h
          exact parseValue_safe fl tokens defs _ _ (by omega) (by omega) he
        · split
          · rename_i e he; intro h; cases h; exact expect_ne_fuel _ _ _ he
          · split
            · rename_i e he; intro h; cases h; exact expect_ne_fuel _ _ _ he
            · simp

/-- With fuel that covers the tokens from the cursor on, the top-level loop
does not run out of fuel. -/
theorem parseLoop_safe {F : Type} (fl : FloatOps F) (tokens : List Token) :
    ∀ (fuel pos : Nat) (defs result : GoMap (Value F)), pos ≤ tokens.length →
    tokens.length < fuel + pos →
    parseLoop fl tokens fuel pos defs result ≠ .error .fuelExhausted := by
  intro fuel
  induction fuel with
  | zero => intro pos defs result h1 h2; omega
  | succ k ih =>
    intro pos defs result h1 h2
    simp only [parseLoop]
    split
    · split
      · split
        · rename_i e he; intro h; cases h; exact parseDefine_safe fl tokens defs pos he
        · rename_i defs2 p2 hd
          obtain ⟨g1, g2⟩ := parseDefine_progress fl tokens _ _ _ _ hd
          exact ih _ _ _ g2 (by omega)
      · rename_i hk
        have hlt : pos < tokens.length := current_lt_length (by rw [hk]; decide)
        split
        · rename_i e he; intro h; cases h; exact expect_ne_fuel _ _ _ he
        · rename_i p2 h2e
          obtain ⟨e2, l2⟩ := expect_lt h2e (by decide)
          split
          · rename_i e he
            intro h; cases h
            exact parseValue_safe fl tokens defs _ _ (by omega) (by omega) he
          · rename_i val p3 hv
            obtain ⟨g1, g2⟩ := parseValue_progress fl tokens defs _ _ _ _ hv
            split
            · rename_i e he; intro h; cases h; exact expect_ne_fuel _ _ _ he
            · rename_i p4 h4
              obtain ⟨e4, l4⟩ := expect_lt h4 (by decide)
              exact ih _ _ _ (by omega) (by omega)
      · simp
    · simp

/-- C17: the parser is total and makes progress. For every token sequence (from `lex` or
not, with or without an end-of-input token): (1) `parse` returns a Document or one of the
errors of the source, the fuel of the embedding never runs out; (2) to (6) every successful
call of `parseValue`, `parseArray`, `parseDictionary`, `parseConstantExpression` and
`parseDefine` returns a cursor strictly greater than the one it started from and at most the
number of tokens; (7) `parseValue` does not run out of fuel when its fuel covers the tokens
from the cursor on; (8) a successful `expect` advances the cursor by one and (9) to (11) the
loops never return a smaller cursor; (12), (13) the token slice is read only through
`current`, which returns the token at the cursor when the cursor is in bounds and an
end-of-input token otherwise. -/
theorem parser_total_and_progresses {F : Type} (fl : FloatOps F) (tokens : List Token) :
    parse fl tokens ≠ .error .fuelExhausted ∧
    (∀ (defs : GoMap (Value F)) (fuel pos : Nat) (v : Value F) (pos2 : Nat),
      parseValue fl tokens defs fuel pos = .ok (v, pos2) → pos < pos2 ∧ pos2 ≤ tokens.length) ∧
    (∀ (defs : GoMap (Value F)) (fuel pos : Nat) (v : Value F) (pos2 : Nat),
      parseArray (parseValue fl tokens defs fuel) tokens pos = .ok (v, pos2) →
        pos < pos2 ∧ pos2 ≤ tokens.length) ∧
    (∀ (defs : GoMap (Value F)) (fuel pos : Nat) (v : Value F) (pos2 : Nat),
      parseDictionary (parseValue fl tokens defs fuel) tokens pos = .ok (v, pos2) →
        pos < pos2 ∧ pos2 ≤ tokens.length) ∧
    (∀ (defs : GoMap (Value F)) (fuel pos : Nat) (v : Value F) (pos2 : Nat),
      parseConstantExpression fl (parseValue fl tokens defs fuel) tokens pos = .ok (v, pos2) →
        pos < pos2 ∧ pos2 ≤ tokens.length) ∧
    (∀ (defs defs2 : GoMap (Value F)) (pos pos2 : Nat),
      parseDefine fl tokens defs pos = .ok (defs2, pos2) → pos < pos2 ∧ pos2 ≤ tokens.length) ∧
    (∀ (defs : GoMap (Value F)) (fuel pos : Nat), pos ≤ tokens.length →
      tokens.length < fuel + pos →
      parseValue fl tokens defs fuel pos ≠ .error .fuelExhausted) ∧
    (∀ (pos p : Nat) (k : TokenType), expect tokens pos k = .ok p → p = pos + 1) ∧
    (∀ (defs : GoMap (Value F)) (f fuel pos : Nat) (arr arr2 : List (Value F)) (pos2 : Nat),
      parseArrayLoop (parseValue fl tokens defs f) tokens fuel pos arr = .ok (arr2, pos2) →
        pos ≤ pos2) ∧
    (∀ (defs : GoMap (Value F)) (f fuel pos : Nat) (dict dict2 : GoMap (Value F)) (pos2 : Nat),
      parseDictionaryLoop (parseValue fl tokens defs f) tokens fuel pos dict = .ok (dict2, pos2) →
        pos ≤ pos2) ∧
    (∀ (defs : GoMap (Value F)) (f fuel pos : Nat) (left left2 : Value F) (pos2 : Nat),
      parseConstantExpressionLoop fl (parseValue fl tokens defs f) tokens fuel pos left =
        .ok (left2, pos2) → pos ≤ pos2) ∧
    (∀ (pos : Nat), tokens.length ≤ pos → current tokens pos = ⟨TOKEN_EOF, [], 0, 0⟩) ∧
    (∀ (pos : Nat) (h : pos < tokens.length), current tokens pos = tokens[pos]) := by
  refine ⟨?_, ?_, ?_, ?_, ?_, ?_, ?_, ?_, ?_, ?_, ?_, ?_, ?_⟩
  · exact parseLoop_safe fl tokens _ 0 [] [] (Nat.zero_le _) (by omega)
  · intro defs fuel pos v pos2 h
    exact parseValue_progress fl tokens defs fuel pos v pos2 h
  · intro defs fuel pos v pos2 h
    exact parseArray_progress _ tokens (parseValue_progress fl tokens defs fuel) pos v pos2 h
  · intro defs fuel pos v pos2 h
    exact parseDictionary_progress _ tokens (parseValue_progress fl tokens defs fuel) pos v pos2 h
  · intro defs fuel pos v pos2 h
    exact parseConstantExpression_progress fl _ tokens (parseValue_progress fl tokens defs fuel)
      pos v pos2 h
  · intro defs defs2 pos pos2 h
    exact parseDefine_progress fl tokens defs defs2 pos pos2 h
  · intro defs fuel pos h1 h2
    exact parseValue_safe fl tokens defs fuel pos h1 h2
  · intro pos p k h
    exact (expect_ok h).1
  · intro defs f fuel pos arr arr2 pos2 h
    exact (parseArrayLoop_progress _ tokens (parseValue_progress fl tokens defs f) _ _ _ _ _ h).1
  · intro defs f fuel pos dict dict2 pos2 h
    exact (parseDictionaryLoop_progress _ tokens (parseValue_progress fl tokens defs f)
      _ _ _ _ _ h).1
  · intro defs f fuel pos left left2 pos2 h
    exact (parseConstantExpressionLoop_progress fl _ tokens
      (parseValue_progress fl tokens defs f) _ _ _ _ _ h).1
  · intro pos h
    simp [current, List.getElem?_eq_none h]
  · intro pos h
    simp [current, List.getElem?_eq_getElem h]

/-! ## Operands that are no numbers -/

/-- At a scientific-notation match the loop emits one number token with all the
bytes of `[0-9.eE+-]` that follow the cursor, not only the bytes of the match. -/
theorem lexRun_sci (ln pos : Nat) (s : GoString) (acc : List Token)
    (h : sciMatch s = true) :
    lexRun ln pos s acc =
      lexRun ln (pos + (s.takeWhile isSciChar).length) (s.dropWhile isSciChar)
        (acc ++ [⟨TOKEN_NUMBER, s.takeWhile isSciChar, ln, pos⟩]) := by
  cases s with
  | nil => simp [sciMatch] at h
  | cons c cs =>
    rw [lexRun_cons]
    have hc : isDigit c = true ∨ c = 43 ∨ c = 45 := by
      unfold sciMatch at h
      by_cases hs : (c == 43 || c == 45) = true
      · simp only [Bool.or_eq_true, beq_iff_eq] at hs
        exact Or.inr hs
      · simp only [hs, Bool.false_eq_true, if_false, digitsThen, Bool.and_eq_true] at h
        exact Or.inl h.1
    have hsp : isSpace c = false := by
      rcases hc with hd | rfl | rfl
      · simp only [isDigit, Bool.and_eq_true, decide_eq_true_eq] at hd
        simp only [isSpace, Bool.or_eq_false_iff, beq_eq_false_iff_ne, ne_eq]
        omega
      · decide
      · decide
    have h39 : (c == 39) = false := by
      rcases hc with hd | rfl | rfl
      · simp only [isDigit, Bool.and_eq_true, decide_eq_true_eq] at hd
        simp only [beq_eq_false_iff_ne, ne_eq]
        omega
      · decide
      · decide
    have hcm : startsWith (c :: cs) [45, 45] = false := by
      rcases hc with hd | rfl | rfl
      · obtain ⟨h1, h2⟩ := isDigit_facts hd
        have : c ≠ 45 := by omega
        simp [startsWith, this]
      · simp [startsWith]
      · cases cs with
        | nil => simp [startsWith]
        | cons d r =>
          have hd : isDigit d = true := by
            simp [sciMatch, digitsThen] at h
            exact h.1
          obtain ⟨h1, h2⟩ := isDigit_facts hd
          have : d ≠ 45 := by omega
          simp [startsWith, this]
    unfold lexStep
    rw [if_neg (Bool.eq_false_iff.mp hsp), if_neg (Bool.eq_false_iff.mp hcm),
      if_neg (Bool.eq_false_iff.mp h39), if_pos h]

/-- C15, the code at the failing input: in `x := ![1e2+3];` the text at the number
matches the scientific-notation pattern, and the number token the lexer emits has the
text `1e2+3`, the `+3` after the match included; no `+` token follows it. -/
theorem sci_literal_consumes_past_match :
    sciMatch (bytes "1e2+3];") = true ∧
    lex (bytes "x := ![1e2+3];") =
      .ok [⟨TOKEN_IDENT, bytes "x", 1, 0⟩, ⟨TOKEN_ASSIGN, bytes ":=", 1, 2⟩,
        ⟨TOKEN_BANG, bytes "!", 1, 5⟩, ⟨TOKEN_LBRACKET, bytes "[", 1, 6⟩,
        ⟨TOKEN_NUMBER, bytes "1e2+3", 1, 7⟩, ⟨TOKEN_RBRACKET, bytes "]", 1, 12⟩,
        ⟨TOKEN_SEMICOLON, bytes ";", 1, 13⟩, ⟨TOKEN_EOF, [], 2, 0⟩] ∧
    lex (bytes "x := ![1e2 + 3];") =
      .ok [⟨TOKEN_IDENT, bytes "x", 1, 0⟩, ⟨TOKEN_ASSIGN, bytes ":=", 1, 2⟩,
        ⟨TOKEN_BANG, bytes "!", 1, 5⟩, ⟨TOKEN_LBRACKET, bytes "[", 1, 6⟩,
        ⟨TOKEN_NUMBER, bytes "1e2", 1, 7⟩, ⟨TOKEN_PLUS, bytes "+", 1, 11⟩,
        ⟨TOKEN_NUMBER, bytes "3", 1, 13⟩, ⟨TOKEN_RBRACKET, bytes "]", 1, 14⟩,
        ⟨TOKEN_SEMICOLON, bytes ";", 1, 15⟩, ⟨TOKEN_EOF, [], 2, 0⟩] := by
  refine ⟨by decide, by decide, by decide⟩

/-! ## White space around `+` -/

theorem lex_x_binding (body : GoString) (toks : List Token) (h10 : 10 ∉ body)
    (hrun : ∀ acc, lexRun 1 5 (body ++ [59]) acc = .ok (acc ++ toks)) :
    lex (bytes "x := " ++ body ++ bytes ";") =
      .ok (⟨TOKEN_IDENT, [120], 1, 0⟩ :: ⟨TOKEN_ASSIGN, [58, 61], 1, 2⟩ ::
        (toks ++ [⟨TOKEN_EOF, [], 2, 0⟩])) := by
  have e1 : bytes "x := " = [120] ++ [32, 58, 61, 32] := by decide
  have e2 : bytes ";" = [59] := by decide
  have eline : bytes "x := " ++ body ++ bytes ";" =
      [120] ++ 32 :: (58 :: 61 :: 32 :: (body ++ [59])) := by
    simp [e1, e2]
  rw [eline]
  obtain ⟨hl, hc, hb, hne⟩ := identifier_line (w := [120]) (by decide)
    (58 :: 61 :: 32 :: (body ++ [59]))
  have h10l : 10 ∉ [120] ++ 32 :: (58 :: 61 :: 32 :: (body ++ [59])) := by
    simp [h10]
  have ht : noTrailingSpace ([120] ++ 32 :: (58 :: 61 :: 32 :: (body ++ [59]))) = true := by
    simp [noTrailingSpace]
  have hr := lex_one_line _ (⟨TOKEN_IDENT, [120], 1, 0⟩ :: ⟨TOKEN_ASSIGN, [58, 61], 1, 2⟩ :: toks)
    h10l hl ht hne hc hb (by
      rw [lexRun_ident _ _ _ _ _ (by decide) (by simp [isIdentChar, isLetter, isDigit]),
        lexRun_space _ _ _ _ _ (by decide), lexRun_assign, lexRun_space _ _ _ _ _ (by decide)]
      have := hrun ([] ++ [⟨identKind [120], [120], 1, 0⟩] ++
        [⟨TOKEN_ASSIGN, [58, 61], 1, 0 + [120].length + 1⟩])
      simpa using this)
  simpa using hr

theorem isDigits_literal {a : GoString} (h : isDigits a = true) :
    isIntLiteral a = true ∧ literalValue a = (digitsValue a : Int) ∧ 10 ∉ a := by
  cases a with
  | nil => simp [isDigits] at h
  | cons c cs =>
    simp only [isDigits, Bool.and_eq_true, bne_iff_ne, ne_eq, List.all_cons] at h
    obtain ⟨_, hc, hcs⟩ := h
    obtain ⟨_, _, _, h43, h45⟩ := isDigit_facts hc
    have hl : isIntLiteral (c :: cs) = true := by
      simp [isIntLiteral, h43, h45, hc, hcs]
    refine ⟨hl, ?_, literal_no_newline hl⟩
    simp [literalValue, h43, h45]

theorem isDigits_signed {b : GoString} (h : isDigits b = true) :
    isIntLiteral (43 :: b) = true ∧ 10 ∉ b := by
  have h2 := h
  simp only [isDigits, Bool.and_eq_true, bne_iff_ne, ne_eq] at h
  refine ⟨?_, (isDigits_literal h2).2.2⟩
  simp [isIntLiteral, h.1, h.2]

/-- Without a space after `+`, the `+` and the digits after it are one number
token. -/
theorem lex_plus_unspaced (a b : GoString) (ha : isDigits a = true) (hb : isDigits b = true) :
    lex (bytes "x := ![" ++ a ++ bytes "+" ++ b ++ bytes "];") =
      .ok [⟨TOKEN_IDENT, bytes "x", 1, 0⟩, ⟨TOKEN_ASSIGN, bytes ":=", 1, 2⟩,
        ⟨TOKEN_BANG, bytes "!", 1, 5⟩, ⟨TOKEN_LBRACKET, bytes "[", 1, 6⟩,
        ⟨TOKEN_NUMBER, a, 1, 7⟩, ⟨TOKEN_NUMBER, bytes "+" ++ b, 1, 7 + a.length⟩,
        ⟨TOKEN_RBRACKET, bytes "]", 1, 7 + a.length + (b.length + 1)⟩,
        ⟨TOKEN_SEMICOLON, bytes ";", 1, 7 + a.length + (b.length + 1) + 1⟩,
        ⟨TOKEN_EOF, [], 2, 0⟩] := by
  obtain ⟨hal, _, ha10⟩ := isDigits_literal ha
  obtain ⟨hbl, hb10⟩ := isDigits_signed hb
  have e1 : bytes "x := ![" = bytes "x := " ++ [33, 91] := by decide
  have e2 : bytes "];" = [93] ++ bytes ";" := by decide
  have e3 : bytes "+" = [43] := by decide
  have eline : bytes "x := ![" ++ a ++ bytes "+" ++ b ++ bytes "];" =
      bytes "x := " ++ (33 :: 91 :: (a ++ ((43 :: b) ++ [93]))) ++ bytes ";" := by
    simp [e1, e2, e3]
  rw [eline]
  have hlex := lex_x_binding (33 :: 91 :: (a ++ ((43 :: b) ++ [93])))
    [⟨TOKEN_BANG, [33], 1, 5⟩, ⟨TOKEN_LBRACKET, [91], 1, 5 + 1⟩,
      ⟨TOKEN_NUMBER, a, 1, 5 + 1 + 1⟩, ⟨TOKEN_NUMBER, 43 :: b, 1, 5 + 1 + 1 + a.length⟩,
      ⟨TOKEN_RBRACKET, [93], 1, 5 + 1 + 1 + a.length + (43 :: b).length⟩,
      ⟨TOKEN_SEMICOLON, [59], 1, 5 + 1 + 1 + a.length + (43 :: b).length + 1⟩]
    (by simp [ha10, hb10]) (by
      intro acc
      have es : (33 :: 91 :: (a ++ ((43 :: b) ++ [93]))) ++ [59] =
          33 :: 91 :: (a ++ ((43 :: b) ++ [93, 59])) := by simp
      rw [es, lexRun_punct _ _ 33 _ _ TOKEN_BANG (by decide),
        lexRun_punct _ _ 91 _ _ TOKEN_LBRACKET (by decide),
        lexRun_number _ _ a _ _ hal (by simp [endsNumber, isDigit]),
        lexRun_number _ _ (43 :: b) _ _ hbl (by simp [endsNumber, isDigit]),
        lexRun_punct _ _ 93 _ _ TOKEN_RBRACKET (by decide),
        lexRun_punct _ _ 59 _ _ TOKEN_SEMICOLON (by decide), lexRun_nil]
      simp)
  rw [hlex]
  have i1 : bytes "x" = [120] := by decide
  have i2 : bytes ":=" = [58, 61] := by decide
  have i3 : bytes "!" = [33] := by decide
  have i4 : bytes "[" = [91] := by decide
  have i5 : bytes "]" = [93] := by decide
  have i6 : bytes ";" = [59] := by decide
  simp [e3, i1, i2, i3, i4, i5, i6]

theorem parse_plus_unspaced {F : Type} (fl : FloatOps F) (a b : GoString) (p5 p6 p7 p8 : Nat)
    (ha : isDigits a = true) :
    parse fl [⟨TOKEN_IDENT, bytes "x", 1, 0⟩, ⟨TOKEN_ASSIGN, bytes ":=", 1, 2⟩,
        ⟨TOKEN_BANG, bytes "!", 1, 5⟩, ⟨TOKEN_LBRACKET, bytes "[", 1, 6⟩,
        ⟨TOKEN_NUMBER, a, 1, p5⟩, ⟨TOKEN_NUMBER, bytes "+" ++ b, 1, p6⟩,
        ⟨TOKEN_RBRACKET, bytes "]", 1, p7⟩, ⟨TOKEN_SEMICOLON, bytes ";", 1, p8⟩,
        ⟨TOKEN_EOF, [], 2, 0⟩] =
      .error (if inInt64 (digitsValue a : Int)
        then .unexpectedExprToken ⟨TOKEN_NUMBER, bytes "+" ++ b, 1, p6⟩
        else .invalidNumber a 1) := by
  obtain ⟨hal, hv, _⟩ := isDigits_literal ha
  by_cases hr : inInt64 (digitsValue a : Int)
  · simp [parse, parseLoop, current, expect, parseValue, parseConstantExpression,
      parseConstantExpressionLoop, parseOperator, isFloatText_literal hal, Atoi_literal hal,
      hv, hr]
  · simp [parse, parseLoop, current, expect, parseValue, parseConstantExpression,
      parseConstantExpressionLoop, parseOperator, isFloatText_literal hal, Atoi_literal hal,
      hv, hr]

/-- C19: for non-negative integer literals `a` and `b` (runs of digits), the input
`x := ![a+b];` lexes with `+b` as one number token right after the number token `a`, and
the parse fails: with "unexpected token in expression" at the token `+b` when `a` is in the
range of a 64-bit `int`, with "invalid number" for `a` otherwise. With spaces around `+`,
`x := ![a + b];` parses to the 64-bit sum of `a` and `b` when both are in range, which is
the integer `a + b` when the sum is in range. -/
theorem plus_needs_space (a b : GoString) (ha : isDigits a = true) (hb : isDigits b = true) :
    lex (bytes "x := ![" ++ a ++ bytes "+" ++ b ++ bytes "];") =
      .ok [⟨TOKEN_IDENT, bytes "x", 1, 0⟩, ⟨TOKEN_ASSIGN, bytes ":=", 1, 2⟩,
        ⟨TOKEN_BANG, bytes "!", 1, 5⟩, ⟨TOKEN_LBRACKET, bytes "[", 1, 6⟩,
        ⟨TOKEN_NUMBER, a, 1, 7⟩, ⟨TOKEN_NUMBER, bytes "+" ++ b, 1, 7 + a.length⟩,
        ⟨TOKEN_RBRACKET, bytes "]", 1, 7 + a.length + (b.length + 1)⟩,
        ⟨TOKEN_SEMICOLON, bytes ";", 1, 7 + a.length + (b.length + 1) + 1⟩,
        ⟨TOKEN_EOF, [], 2, 0⟩] ∧
    ParseFailsWith (bytes "x := ![" ++ a ++ bytes "+" ++ b ++ bytes "];")
      (if inInt64 (digitsValue a : Int)
        then .unexpectedExprToken ⟨TOKEN_NUMBER, bytes "+" ++ b, 1, 7 + a.length⟩
        else .invalidNumber a 1) ∧
    (inInt64 (digitsValue a : Int) → inInt64 (digitsValue b : Int) →
      ParsesTo (bytes "x := ![" ++ a ++ bytes " + " ++ b ++ bytes "];")
        (fun _ => [(bytes "x", .int (wrapInt ((digitsValue a : Int) + (digitsValue b : Int))))])) ∧
    (inInt64 ((digitsValue a : Int) + (digitsValue b : Int)) →
      ParsesTo (bytes "x := ![" ++ a ++ bytes " + " ++ b ++ bytes "];")
        (fun _ => [(bytes "x", .int ((digitsValue a : Int) + (digitsValue b : Int)))])) := by
  obtain ⟨hal, hva, _⟩ := isDigits_literal ha
  obtain ⟨hbl, hvb, _⟩ := isDigits_literal hb
  have hlex := lex_plus_unspaced a b ha hb
  have hsp : ∀ (_ : inInt64 (digitsValue a : Int)) (_ : inInt64 (digitsValue b : Int)),
      ParsesTo (bytes "x := ![" ++ a ++ bytes " + " ++ b ++ bytes "];")
        (fun _ => [(bytes "x", .int (wrapInt ((digitsValue a : Int) + (digitsValue b : Int))))]) := by
    intro har hbr
    have h := constant_expression_wraps (bytes "x") a [(43, b)] (by decide) (by decide) hal
      (by rw [hva]; exact har)
      (by
        intro p hp
        rw [List.mem_singleton] at hp
        subst hp
        exact ⟨Or.inl rfl, hbl, by rw [hvb]; exact hbr⟩)
    have et : bytes "x" ++ bytes " := ![" ++ a ++ opsText [(43, b)] ++ bytes "];" =
        bytes "x := ![" ++ a ++ bytes " + " ++ b ++ bytes "];" := by
      have e1 : bytes "x := ![" = bytes "x" ++ bytes " := ![" := by decide
      have e2 : bytes " + " = [32, 43, 32] := by decide
      simp [e1, e2, opsText]
    have ev : [((43 : Nat), b)].foldl foldStep (literalValue a) =
        wrapInt ((digitsValue a : Int) + (digitsValue b : Int)) := by
      show foldStep (literalValue a) (43, b) = _
      unfold foldStep
      rw [if_pos rfl, hva]
      show wrapInt (_ + literalValue b) = _
      rw [hvb]
    rw [et, ev] at h
    exact h
  refine ⟨hlex, ?_, hsp, ?_⟩
  · intro F fl
    simp only [lexParse, hlex]
    exact congrArg some (parse_plus_unspaced fl a b _ _ _ _ ha)
  · intro hsum
    have hna : (0 : Int) ≤ (digitsValue a : Int) := Int.ofNat_nonneg _
    have hnb : (0 : Int) ≤ (digitsValue b : Int) := Int.ofNat_nonneg _
    have har : inInt64 (digitsValue a : Int) := by unfold inInt64 at *; omega
    have hbr : inInt64 (digitsValue b : Int) := by unfold inInt64 at *; omega
    have h := hsp har hbr
    rw [wrapInt_of_inInt64 hsum] at h
    exact h

/-- The samples: `x := ![1+2];` fails at the token `+2`, and `x := ![1 + 2];` gives 3. -/
theorem plus_needs_space_witness :
    isDigits (bytes "1") = true ∧ isDigits (bytes "2") = true ∧
    ParseFailsWith (bytes "x := ![1+2];")
      (.unexpectedExprToken ⟨TOKEN_NUMBER, bytes "+2", 1, 8⟩) ∧
    ParsesTo (bytes "x := ![1 + 2];") (fun _ => [(bytes "x", .int 3)]) :=
  ⟨by decide, by decide,
   (plus_needs_space (bytes "1") (bytes "2") (by decide) (by decide)).2.1,
   (plus_needs_space (bytes "1") (bytes "2") (by decide) (by decide)).2.2.2 (by decide)⟩

/-! ## Well-formed tokens -/

theorem wellFormed_fixedText (t : Token) (h : t.wellFormed) (s : GoString)
    (hs : fixedText t.Kind = some s) : t.Value = s := by
  obtain ⟨k, v, l, p⟩ := t
  simp only at hs
  cases k <;> simp only [fixedText] at hs <;> cases hs <;>
    exact (Option.some.inj h).symm

/-- The text of an identifier token starts with the first byte of the identifier
when that byte is below 128, and with a byte from 192 on otherwise. -/
theorem identText_head (c : Nat) (cs : GoString) :
    ∃ b rest, identText (c :: cs) = b :: rest ∧ (b = c ∨ 192 ≤ b) := by
  have e : identText (c :: cs) = encodeRune c ++ identText cs := by
    simp [identText]
  rw [e]
  unfold encodeRune
  by_cases h1 : c < 128
  · rw [if_pos h1]; exact ⟨c, _, rfl, Or.inl rfl⟩
  rw [if_neg h1]
  by_cases h2 : c < 2048
  · rw [if_pos h2]; exact ⟨_, _, rfl, Or.inr (by omega)⟩
  rw [if_neg h2]
  by_cases h3 : c < 65536
  · rw [if_pos h3]; exact ⟨_, _, rfl, Or.inr (by omega)⟩
  rw [if_neg h3]
  exact ⟨_, _, rfl, Or.inr (by omega)⟩

theorem identToken_wellFormed (c : Nat) (cs : GoString) (ln pos : Nat)
    (h : (isLetter c || c == 95) = true) :
    Token.wellFormed ⟨identKind (identText ((c :: cs).takeWhile isIdentChar)),
      identText ((c :: cs).takeWhile isIdentChar), ln, pos⟩ := by
  have hc : isIdentChar c = true := (identStart_facts h).2.2.2.2.2
  have hid : isIdentifier ((c :: cs).takeWhile isIdentChar) = true := by
    simp only [List.takeWhile_cons, hc, if_true, isIdentifier, h, Bool.true_and,
      List.all_eq_true]
    intro x hx
    exact (List.mem_takeWhile_imp hx)
  generalize (c :: cs).takeWhile isIdentChar = raw at hid
  unfold identKind
  by_cases h1 : identText raw = bytes "define"
  · rw [if_pos h1]; simp [Token.wellFormed, fixedText, h1]
  rw [if_neg h1]
  by_cases h2 : identText raw = bytes "begin"
  · rw [if_pos h2]; simp [Token.wellFormed, fixedText, h2]
  rw [if_neg h2]
  by_cases h3 : identText raw = bytes "end"
  · rw [if_pos h3]; simp [Token.wellFormed, fixedText, h3]
  rw [if_neg h3]
  refine ⟨⟨raw, hid, rfl⟩, ?_⟩
  simp [keywords, h1, h2, h3]

/-- Every iteration of the inner loop either ends the loop or goes on with at
most one more token, which is well formed. -/
theorem lexStep_wellFormed (ln pos c : Nat) (cs : GoString) (acc : List Token) :
    (∃ res, (res = .ok acc ∨ ∃ e, res = .error e) ∧
      ∀ k, lexStep ln k pos c cs acc = res) ∨
    (∃ p r a, (a = acc ∨ ∃ t, a = acc ++ [t] ∧ t.wellFormed) ∧
      ∀ k, lexStep ln k pos c cs acc = k p r a) := by
  unfold lexStep
  by_cases h1 : isSpace c = true
  · exact Or.inr ⟨_, _, _, Or.inl rfl, fun k => by rw [if_pos h1]⟩
  simp only [if_neg h1]
  by_cases h2 : startsWith (c :: cs) [45, 45] = true
  · exact Or.inl ⟨_, Or.inl rfl, fun k => by rw [if_pos h2]⟩
  simp only [if_neg h2]
  by_cases h3 : (c == 39) = true
  · cases hi : indexByte cs 39 with
    | none => exact Or.inl ⟨_, Or.inr ⟨_, rfl⟩, fun k => by rw [if_pos h3]⟩
    | some e =>
      refine Or.inr ⟨_, _, _, Or.inr ⟨_, rfl, ?_⟩, fun k => by rw [if_pos h3]⟩
      trivial
  simp only [if_neg h3]
  by_cases h4 : sciMatch (c :: cs) = true
  · refine Or.inr ⟨_, _, _, Or.inr ⟨_, rfl, ?_⟩, fun k => by rw [if_pos h4]⟩
    trivial
  simp only [if_neg h4]
  by_cases h5 : (isDigit c || ((c == 45 || c == 43) && (cs.head?.map isDigit).getD false)) = true
  · refine Or.inr ⟨_, _, _, Or.inr ⟨_, rfl, ?_⟩, fun k => by rw [if_pos h5]⟩
    trivial
  simp only [if_neg h5]
  by_cases h6 : (isLetter c || c == 95) = true
  · exact Or.inr ⟨_, _, _, Or.inr ⟨_, rfl, identToken_wellFormed c cs ln pos h6⟩,
      fun k => by rw [if_pos h6]⟩
  simp only [if_neg h6]
  by_cases h7 : (c == 40) = true
  · refine Or.inr ⟨_, _, _, Or.inr ⟨_, rfl, ?_⟩, fun k => by rw [if_pos h7]⟩
    rfl
  simp only [if_neg h7]
  by_cases h8 : (c == 41) = true
  · refine Or.inr ⟨_, _, _, Or.inr ⟨_, rfl, ?_⟩, fun k => by rw [if_pos h8]⟩
    rfl
  simp only [if_neg h8]
  by_cases h9 : (c == 91) = true
  · refine Or.inr ⟨_, _, _, Or.inr ⟨_, rfl, ?_⟩, fun k => by rw [if_pos h9]⟩
    rfl
  simp only [if_neg h9]
  by_cases h10 : (c == 93) = true
  · refine Or.inr ⟨_, _, _, Or.inr ⟨_, rfl, ?_⟩, fun k => by rw [if_pos h10]⟩
    rfl
  simp only [if_neg h10]
  by_cases h11 : (c == 59) = true
  · refine Or.inr ⟨_, _, _, Or.inr ⟨_, rfl, ?_⟩, fun k => by rw [if_pos h11]⟩
    rfl
  simp only [if_neg h11]
  by_cases h12 : (c == 58) = true
  · by_cases h13 : cs.head? = some 61
    · refine Or.inr ⟨_, _, _, Or.inr ⟨_, rfl, ?_⟩,
        fun k => by rw [if_pos h12, if_pos h13]⟩
      rfl
    · exact Or.inl ⟨_, Or.inr ⟨_, rfl⟩, fun k => by rw [if_pos h12, if_neg h13]⟩
  simp only [if_neg h12]
  by_cases h14 : (c == 35) = true
  · refine Or.inr ⟨_, _, _, Or.inr ⟨_, rfl, ?_⟩, fun k => by rw [if_pos h14]⟩
    rfl
  simp only [if_neg h14]
  by_cases h15 : (c == 33) = true
  · refine Or.inr ⟨_, _, _, Or.inr ⟨_, rfl, ?_⟩, fun k => by rw [if_pos h15]⟩
    rfl
  simp only [if_neg h15]
  by_cases h16 : (c == 43) = true
  · refine Or.inr ⟨_, _, _, Or.inr ⟨_, rfl, ?_⟩, fun k => by rw [if_pos h16]⟩
    rfl
  simp only [if_neg h16]
  by_cases h17 : (c == 42) = true
  · refine Or.inr ⟨_, _, _, Or.inr ⟨_, rfl, ?_⟩, fun k => by rw [if_pos h17]⟩
    rfl
  simp only [if_neg h17]
  exact Or.inl ⟨_, Or.inr ⟨_, rfl⟩, fun k => rfl⟩

theorem lexLoop_wellFormed (ln : Nat) : ∀ (f pos : Nat) (rest : GoString)
    (acc toks : List Token), (∀ t ∈ acc, t.wellFormed) →
    lexLoop ln f pos rest acc = .ok toks → ∀ t ∈ toks, t.wellFormed := by
  intro f
  induction f with
  | zero =>
    intro pos rest acc toks hacc h
    cases rest with
    | nil => rw [lexLoop_nil] at h; cases h; exact hacc
    | cons c cs => simp [lexLoop] at h
  | succ n ih =>
    intro pos rest acc toks hacc h
    cases rest with
    | nil => rw [lexLoop_nil] at h; cases h; exact hacc
    | cons c cs =>
      rw [lexLoop_cons] at h
      rcases lexStep_wellFormed ln pos c cs acc with ⟨res, hres, hk⟩ | ⟨p, r, a, ha, hk⟩
      · rw [hk] at h
        rcases hres with rfl | ⟨e, rfl⟩
        · cases h; exact hacc
        · cases h
      · rw [hk] at h
        refine ih p r a toks ?_ h
        rcases ha with rfl | ⟨t, rfl, ht⟩
        · exact hacc
        · intro t2 ht2
          rcases List.mem_append.mp ht2 with h1 | h1
          · exact hacc t2 h1
          · simp only [List.mem_singleton] at h1; subst h1; exact ht

theorem lexLines_wellFormed (lines : List GoString) : ∀ (rest : List GoString) (lineNum : Nat)
    (acc toks : List Token), (∀ t ∈ acc, t.wellFormed) →
    lexLines lines lineNum rest acc = .ok toks → ∀ t ∈ toks, t.wellFormed := by
  intro rest
  induction rest with
  | nil =>
    intro lineNum acc toks hacc h
    simp only [lexLines] at h
    cases h; exact hacc
  | cons raw rest ih =>
    intro lineNum acc toks hacc h
    simp only [lexLines] at h
    split at h
    · exact ih _ _ _ hacc h
    · split at h
      · exact ih _ _ _ hacc h
      · split at h
        · cases h
        · rename_i tokens2 hloop
          exact ih _ _ _ (lexLoop_wellFormed _ _ _ _ _ _ hacc hloop) h

theorem lex_wellFormed (input : GoString) (tokens : List Token) (h : lex input = .ok tokens) :
    ∀ t ∈ tokens, t.wellFormed := by
  unfold lex at h
  simp only [] at h
  split at h
  · cases h
  · rename_i body hbody
    cases h
    have hb := lexLines_wellFormed _ _ _ _ _ (fun _ hm => by cases hm) hbody
    intro t ht
    rcases List.mem_append.mp ht with h1 | h1
    · exact hb t h1
    · simp only [List.mem_singleton] at h1; subst h1; exact rfl

theorem current_mem {tokens : List Token} {pos : Nat}
    (h : (current tokens pos).Kind ≠ TOKEN_EOF) : current tokens pos ∈ tokens := by
  unfold current at *
  rw [List.getD_eq_getElem?_getD] at *
  cases hg : tokens[pos]? with
  | none => rw [hg] at h; exact absurd rfl h
  | some t =>
    simp only [Option.getD_some]
    obtain ⟨hl, he⟩ := List.getElem?_eq_some_iff.mp hg
    rw [← he]
    exact List.getElem_mem hl

/-- C20: in every token sequence `lex` returns, each token is well formed for its kind. The
text of an identifier token is not empty and is the UTF-8 text of code points `c :: cs`,
where `c` is a letter or the underscore and every code point of `cs` is a letter, a digit or
the underscore (for ASCII the text is these bytes themselves); it is none of `define`,
`begin`, `end`. A token of one of these keywords or of a punctuation kind has its fixed text
(`fixedText`). So an identifier token is never `+` or `*`, and at an identifier token of
lexer output the operator switch of a constant expression always returns "unexpected
identifier in expression". -/
theorem lexer_tokens_well_formed (input : GoString) (tokens : List Token)
    (h : lex input = .ok tokens) :
    (∀ t ∈ tokens, t.wellFormed) ∧
    (∀ t ∈ tokens, t.Kind = TOKEN_IDENT →
      (∃ c cs, t.Value = identText (c :: cs) ∧ (isLetter c = true ∨ c = 95) ∧
        cs.all isIdentChar = true ∧
        ((c :: cs).all (fun b => decide (b < 128)) = true → t.Value = c :: cs)) ∧
      t.Value ≠ [] ∧
      t.Value ≠ bytes "define" ∧ t.Value ≠ bytes "begin" ∧ t.Value ≠ bytes "end" ∧
      t.Value ≠ bytes "+" ∧ t.Value ≠ bytes "*") ∧
    (∀ t ∈ tokens, ∀ s, fixedText t.Kind = some s → t.Value = s) ∧
    (∀ pos, (current tokens pos).Kind = TOKEN_IDENT →
      parseOperator tokens pos =
        .error (.unexpectedExprIdentifier (current tokens pos).Value (current tokens pos).Line)) := by
  have hwf := lex_wellFormed input tokens h
  have hid : ∀ t ∈ tokens, t.Kind = TOKEN_IDENT →
      (∃ c cs, t.Value = identText (c :: cs) ∧ (isLetter c = true ∨ c = 95) ∧
        cs.all isIdentChar = true ∧
        ((c :: cs).all (fun b => decide (b < 128)) = true → t.Value = c :: cs)) ∧
      t.Value ≠ [] ∧
      t.Value ≠ bytes "define" ∧ t.Value ≠ bytes "begin" ∧ t.Value ≠ bytes "end" ∧
      t.Value ≠ bytes "+" ∧ t.Value ≠ bytes "*" := by
    intro t ht hk
    have hw := hwf t ht
    obtain ⟨k, v, l, p⟩ := t
    simp only at hk
    subst hk
    simp only [Token.wellFormed, keywords, List.mem_cons,
      List.mem_singleton, List.not_mem_nil, or_false, not_or] at hw
    obtain ⟨⟨raw, hi, hv⟩, h1, h2, h3⟩ := hw
    cases raw with
    | nil => simp [isIdentifier] at hi
    | cons c cs =>
      simp only [isIdentifier, Bool.and_eq_true, Bool.or_eq_true, beq_iff_eq] at hi
      obtain ⟨b, rest, hb, hbc⟩ := identText_head c cs
      have hc43 : c ≠ 43 ∧ c ≠ 42 := by
        rcases hi.1 with hh | hh
        · simp only [isLetter, Bool.or_eq_true, Bool.and_eq_true, decide_eq_true_eq,
            beq_iff_eq] at hh
          omega
        · omega
      have hb43 : b ≠ 43 ∧ b ≠ 42 := by
        rcases hbc with e | e
        · rw [e]; exact hc43
        · omega
      refine ⟨⟨c, cs, hv, hi.1, hi.2, fun hasc => ?_⟩, ?_, h1, h2, h3, ?_, ?_⟩
      · simp only
        rw [hv, identText_ascii _ hasc]
      · simp only
        rw [hv, hb]
        exact List.cons_ne_nil _ _
      · simp only
        rw [hv, hb, show bytes "+" = [43] from by decide]
        intro e
        exact hb43.1 (List.cons.inj e).1
      · simp only
        rw [hv, hb, show bytes "*" = [42] from by decide]
        intro e
        exact hb43.2 (List.cons.inj e).1
  refine ⟨hwf, hid, fun t ht s hs => wellFormed_fixedText t (hwf t ht) s hs, ?_⟩
  intro pos hk
  have hm : current tokens pos ∈ tokens := current_mem (by rw [hk]; decide)
  obtain ⟨_, _, _, _, _, hp, hs⟩ := hid _ hm hk
  have e43 : bytes "+" = [43] := by decide
  have e42 : bytes "*" = [42] := by decide
  rw [e43] at hp
  rw [e42] at hs
  simp only [parseOperator, hk, if_neg hp, if_neg hs]

/-- The tokens of `plus := 1; x := ![plus + 1];`, where `plus` is an identifier and `+`
a token of its own kind, and the tokens of a line that holds the byte 233: the text of
its identifier token is the two bytes of the UTF-8 text of the code point 233. -/
theorem lexer_tokens_well_formed_witness :
    (∃ tokens, lex (bytes "plus := 1; x := ![plus + 1];") = .ok tokens ∧
      (∀ t ∈ tokens, t.wellFormed) ∧
      (current tokens 8).Kind = TOKEN_IDENT ∧
      parseOperator tokens 8 = .error (.unexpectedExprIdentifier (bytes "plus") 1)) ∧
    lex ([233] ++ bytes " := 1;") =
      .ok [⟨TOKEN_IDENT, [195, 169], 1, 0⟩, ⟨TOKEN_ASSIGN, bytes ":=", 1, 2⟩,
        ⟨TOKEN_NUMBER, bytes "1", 1, 5⟩, ⟨TOKEN_SEMICOLON, bytes ";", 1, 6⟩,
        ⟨TOKEN_EOF, [], 2, 0⟩] ∧
    [195, 169] = identText [233] ∧
    (∀ t ∈ [(⟨TOKEN_IDENT, [195, 169], 1, 0⟩ : Token), ⟨TOKEN_ASSIGN, bytes ":=", 1, 2⟩,
        ⟨TOKEN_NUMBER, bytes "1", 1, 5⟩, ⟨TOKEN_SEMICOLON, bytes ";", 1, 6⟩,
        ⟨TOKEN_EOF, [], 2, 0⟩], t.wellFormed) :=
  ⟨⟨_, rfl,
    (lexer_tokens_well_formed (bytes "plus := 1; x := ![plus + 1];") _ rfl).1, rfl,
    (lexer_tokens_well_formed (bytes "plus := 1; x := ![plus + 1];") _ rfl).2.2.2 8 rfl⟩,
   by decide, by decide,
   (lexer_tokens_well_formed ([233] ++ bytes " := 1;")
      [⟨TOKEN_IDENT, [195, 169], 1, 0⟩, ⟨TOKEN_ASSIGN, bytes ":=", 1, 2⟩,
        ⟨TOKEN_NUMBER, bytes "1", 1, 5⟩, ⟨TOKEN_SEMICOLON, bytes ";", 1, 6⟩,
        ⟨TOKEN_EOF, [], 2, 0⟩] (by decide)).1⟩

/-! ## The order of the lines -/

theorem entriesToTOML_eq_map {F : Type} (fmtFloat : F → GoString)
    (order : List (GoString × GoString) → List (GoString × GoString))
    (m : List (GoString × Value F)) :
    entriesToTOML fmtFloat order m = m.map (fun e => (e.1, valueToTOML fmtFloat order e.2)) := by
  induction m with
  | nil => simp [entriesToTOML]
  | cons e rest ih =>
    obtain ⟨k, v⟩ := e
    simp [entriesToTOML, ih]

/-- C13, amended: `toTOML` writes exactly one newline-terminated line `key = value` per
entry of the Document, in the order in which the map iteration of the run visits the
entries: the output is the concatenation of a permutation of the lines of the entries, and
it is the concatenation of the lines in insertion order when the visit happens to follow
that order. -/
theorem toTOML_lines {F : Type} (fmtFloat : F → GoString)
    (order : List (GoString × GoString) → List (GoString × GoString))
    (horder : IsVisitOrder order) (data : GoMap (Value F)) :
    (∃ lines : List GoString, lines.Perm (data.map (lineOf fmtFloat order)) ∧
      lines.length = data.length ∧ toTOML fmtFloat order data = lines.flatten) ∧
    (order (entriesToTOML fmtFloat order data) = entriesToTOML fmtFloat order data →
      toTOML fmtFloat order data = (data.map (lineOf fmtFloat order)).flatten) := by
  have hmap : (entriesToTOML fmtFloat order data).map (fun e => entryText e ++ bytes "\n") =
      data.map (lineOf fmtFloat order) := by
    rw [entriesToTOML_eq_map, List.map_map]
    apply List.map_congr_left
    intro e _
    simp [lineOf, entryText]
  refine ⟨⟨(order (entriesToTOML fmtFloat order data)).map (fun e => entryText e ++ bytes "\n"),
    ?_, ?_, rfl⟩, ?_⟩
  · rw [← hmap]
    exact (horder _).map _
  · rw [List.length_map, (horder _).length_eq, entriesToTOML_eq_map, List.length_map]
  · intro hid
    unfold toTOML
    rw [hid, hmap]

/-- The Document of `a := 1; b := 2;` under a visit in reverse order: the lines are a
permutation of the two lines, `b` first. -/
theorem toTOML_lines_witness :
    IsVisitOrder List.reverse ∧
    ∃ lines : List GoString,
      lines.Perm [bytes "a = 1\n", bytes "b = 2\n"] ∧ lines.length = 2 ∧
      toTOML (fun _ : Unit => []) List.reverse [(bytes "a", .int 1), (bytes "b", .int 2)] =
        lines.flatten :=
  ⟨fun l => List.reverse_perm l,
   (toTOML_lines (fun _ : Unit => []) List.reverse (fun l => List.reverse_perm l)
      [(bytes "a", .int 1), (bytes "b", .int 2)]).1⟩

/-- C13, the counterexample: the Document of `a := 1; b := 2;` holds `a` before `b`, yet
two visits of its map, both permutations of its entries, give two different texts; the
second one is not in insertion order. -/
theorem toTOML_depends_on_visit_order :
    ParsesTo (bytes "a := 1; b := 2;") (fun _ => [(bytes "a", .int 1), (bytes "b", .int 2)]) ∧
    IsVisitOrder id ∧ IsVisitOrder List.reverse ∧
    toTOML (fun _ : Unit => []) id [(bytes "a", .int 1), (bytes "b", .int 2)] =
      bytes "a = 1\nb = 2\n" ∧
    toTOML (fun _ : Unit => []) List.reverse [(bytes "a", .int 1), (bytes "b", .int 2)] =
      bytes "b = 2\na = 1\n" :=
  ⟨fun _ _ => rfl, fun l => List.Perm.refl l, fun l => List.reverse_perm l, by decide, by decide⟩

/-! ## The reference renderer -/

theorem digitChar_toNat (d : Nat) (h : d < 10) : (Nat.digitChar d).toNat = 48 + d := by
  interval_cases d <;> rfl

theorem toDigitsCore_digits : ∀ (fuel n : Nat) (ds : List Char), n < fuel →
    Nat.toDigitsCore 10 fuel n ds =
      (if n = 0 then [Nat.digitChar 0]
        else (Nat.digits 10 n).reverse.map Nat.digitChar) ++ ds := by
  intro fuel
  induction fuel with
  | zero => intro n ds h; omega
  | succ f ih =>
    intro n ds h
    by_cases h0 : n = 0
    · subst h0; simp [Nat.toDigitsCore]
    · have hd : Nat.digits 10 n = (n % 10) :: Nat.digits 10 (n / 10) :=
        Nat.digits_def' (by decide) (Nat.pos_of_ne_zero h0)
      by_cases hq : n / 10 = 0
      · simp [Nat.toDigitsCore, hq, h0, hd]
      · have hlt : n / 10 < f := by omega
        simp only [Nat.toDigitsCore, hq, if_false, h0, hd, List.reverse_cons, List.map_append,
          List.map_cons, List.map_nil, List.append_assoc, List.singleton_append]
        rw [ih (n / 10) _ hlt]
        simp [hq]

theorem decimal_eq_reference (n : Nat) : decimal n = referenceDecimal n := by
  unfold decimal referenceDecimal Nat.toDigits
  rw [toDigitsCore_digits (n + 1) n [] (Nat.lt_succ_self n)]
  by_cases h0 : n = 0
  · subst h0; simp; rfl
  · simp only [h0, if_false, List.append_nil, List.map_map, List.map_reverse]
    congr 1
    apply List.map_congr_left
    intro d hd
    exact digitChar_toNat d (Nat.digits_lt_base (by decide) hd)

theorem joinWith_eq_intersperse (sep : GoString) (l : List GoString) :
    joinWith sep l = (List.intersperse sep l).flatten := by
  induction l with
  | nil => rfl
  | cons s rest ih =>
    cases rest with
    | nil => simp [joinWith]
    | cons s2 rest2 =>
      simp only [joinWith] at ih ⊢
      simp [List.intersperse, ih]

mutual

theorem valueToTOML_plain {F : Type} (fmtFloat : F → GoString)
    (order : List (GoString × GoString) → List (GoString × GoString)) :
    ∀ v : Value F, v.isPlain = true → valueToTOML fmtFloat order v = referenceRender v
  | .int v, _ => by
    simp only [valueToTOML, referenceRender, formatInt, decimal_eq_reference]
    split <;> simp [bytes, encodeRune]
  | .str s, _ => rfl
  | .array l, h => by
    simp only [Value.isPlain] at h
    simp only [valueToTOML, referenceRender, elementsToTOML_plain fmtFloat order l h,
      joinWith_eq_intersperse]
  | .nil, h => by simp [Value.isPlain] at h
  | .float _, h => by simp [Value.isPlain] at h
  | .dict _, h => by simp [Value.isPlain] at h

theorem elementsToTOML_plain {F : Type} (fmtFloat : F → GoString)
    (order : List (GoString × GoString) → List (GoString × GoString)) :
    ∀ l : List (Value F), Value.allPlain l = true →
      elementsToTOML fmtFloat order l = referenceRenderAll l
  | [], _ => rfl
  | v :: rest, h => by
    simp only [Value.allPlain, Bool.and_eq_true] at h
    simp only [elementsToTOML, referenceRenderAll, valueToTOML_plain fmtFloat order v h.1,
      elementsToTOML_plain fmtFloat order rest h.2]

end

/-- C14: on every value built only from integers, strings and arrays, nested to any depth,
`valueToTOML` equals the reference renderer `referenceRender`: an integer is its decimal
digits with a leading `-` exactly when negative, a string is put between double quotes
unchanged (no escaping), and an array is `[`, its elements' renderings in order joined by
`, `, and `]`. The float format and the order of map visits play no part. -/
theorem valueToTOML_refines_reference {F : Type} (fmtFloat : F → GoString)
    (order : List (GoString × GoString) → List (GoString × GoString)) (v : Value F)
    (h : v.isPlain = true) :
    valueToTOML fmtFloat order v = referenceRender v :=
  valueToTOML_plain fmtFloat order v h

/-- The array `[1, 2, 3]` renders as `[1, 2, 3]`, the empty array as `[]`, and a string
with a double quote and a backslash in it keeps both unescaped. -/
theorem valueToTOML_refines_reference_witness :
    Value.isPlain (.array [.int 1, .int 2, .int 3] : Value Unit) = true ∧
    valueToTOML (fun _ => []) id (.array [.int 1, .int 2, .int 3] : Value Unit) =
      referenceRender (.array [.int 1, .int 2, .int 3] : Value Unit) ∧
    valueToTOML (fun _ => []) id (.array [.int 1, .int 2, .int 3] : Value Unit) =
      bytes "[1, 2, 3]" ∧
    valueToTOML (fun _ => []) id (.array [] : Value Unit) = bytes "[]" ∧
    valueToTOML (fun _ => []) id (.array [.int (-7), .array [.str (bytes "a\"b\\")]] : Value Unit) =
      bytes "[-7, [\"a\"b\\\"]]" :=
  ⟨by decide,
   valueToTOML_refines_reference (fun _ => []) id (.array [.int 1, .int 2, .int 3]) (by decide),
   by decide, by decide, by decide⟩

/-! ## The value model is closed under parsing -/

theorem allClosed_iff {F : Type} (l : List (Value F)) :
    Value.allClosed l = true ↔ ∀ v ∈ l, v.closed = true := by
  induction l with
  | nil => simp [Value.allClosed]
  | cons v rest ih => simp [Value.allClosed, ih]

theorem entriesClosed_iff {F : Type} (m : List (GoString × Value F)) :
    Value.entriesClosed m = true ↔ ∀ e ∈ m, e.2.closed = true := by
  induction m with
  | nil => simp [Value.entriesClosed]
  | cons e rest ih =>
    obtain ⟨k, v⟩ := e
    simp [Value.entriesClosed, ih]

theorem allClosed_append {F : Type} (l : List (Value F)) (v : Value F)
    (hl : Value.allClosed l = true) (hv : v.closed = true) :
    Value.allClosed (l ++ [v]) = true := by
  rw [allClosed_iff] at *
  intro x hx
  rcases List.mem_append.mp hx with h | h
  · exact hl x h
  · rw [List.mem_singleton] at h; subst h; exact hv

theorem entriesClosed_set {F : Type} (m : GoMap (Value F)) (k : GoString) (v : Value F)
    (hm : Value.entriesClosed m = true) (hv : v.closed = true) :
    Value.entriesClosed (m.set k v) = true := by
  induction m with
  | nil => simp [GoMap.set, Value.entriesClosed, hv]
  | cons e rest ih =>
    obtain ⟨k2, v2⟩ := e
    simp only [Value.entriesClosed, Bool.and_eq_true] at hm
    by_cases h : k2 = k
    · simp [GoMap.set, h, Value.entriesClosed, hv, hm.2]
    · simp [GoMap.set, h, Value.entriesClosed, hm.1, ih hm.2]

theorem entriesClosed_get {F : Type} (m : GoMap (Value F)) (k : GoString) (v : Value F)
    (hm : Value.entriesClosed m = true) (hg : m.get k = some v) : v.closed = true := by
  induction m with
  | nil => simp [GoMap.get] at hg
  | cons e rest ih =>
    obtain ⟨k2, v2⟩ := e
    simp only [Value.entriesClosed, Bool.and_eq_true] at hm
    by_cases h : k2 = k
    · simp only [GoMap.get, h, if_true, Option.some.injEq] at hg
      subst hg; exact hm.1
    · simp only [GoMap.get, h, if_false] at hg
      exact ih hm.2 hg

theorem parseArrayLoop_closed {F : Type} (pv : Nat → Except ParseError (Value F × Nat))
    (tokens : List Token) (hpv : ClosedResults pv) :
    ∀ (fuel pos : Nat) (arr arr2 : List (Value F)) (pos2 : Nat),
    Value.allClosed arr = true → parseArrayLoop pv tokens fuel pos arr = .ok (arr2, pos2) →
    Value.allClosed arr2 = true := by
  intro fuel
  induction fuel with
  | zero => intro pos arr arr2 pos2 _ h; simp [parseArrayLoop] at h
  | succ k ih =>
    intro pos arr arr2 pos2 ha h
    simp only [parseArrayLoop] at h
    split at h
    · split at h
      · cases h
      · rename_i val p3 hv
        exact ih _ _ _ _ (allClosed_append _ _ ha (hpv _ _ _ hv)) h
    · cases h
      exact ha

theorem parseArray_closed {F : Type} (pv : Nat → Except ParseError (Value F × Nat))
    (tokens : List Token) (hpv : ClosedResults pv) : ClosedResults (parseArray pv tokens) := by
  intro pos v pos2 h
  unfold parseArray at h
  split at h
  · cases h
  · split at h
    · cases h
    · split at h
      · cases h
      · rename_i arr p3 h3
        split at h
        · cases h
        · cases h
          simp only [Value.closed]
          exact parseArrayLoop_closed pv tokens hpv _ _ [] _ _ rfl h3

theorem parseDictionaryLoop_closed {F : Type} (pv : Nat → Except ParseError (Value F × Nat))
    (tokens : List Token) (hpv : ClosedResults pv) :
    ∀ (fuel pos : Nat) (dict dict2 : GoMap (Value F)) (pos2 : Nat),
    Value.entriesClosed dict = true →
    parseDictionaryLoop pv tokens fuel pos dict = .ok (dict2, pos2) →
    Value.entriesClosed dict2 = true := by
  intro fuel
  induction fuel with
  | zero => intro pos dict dict2 pos2 _ h; simp [parseDictionaryLoop] at h
  | succ k ih =>
    intro pos dict dict2 pos2 hd h
    simp only [parseDictionaryLoop] at h
    split at h
    · split at h
      · cases h
      · split at h
        · cases h
        · split at h
          · cases h
          · rename_i val p3 hv
            split at h
            · cases h
            · exact ih _ _ _ _ (entriesClosed_set _ _ _ hd (hpv _ _ _ hv)) h
    · cases h
      exact hd

theorem parseDictionary_closed {F : Type} (pv : Nat → Except ParseError (Value F × Nat))
    (tokens : List Token) (hpv : ClosedResults pv) :
    ClosedResults (parseDictionary pv tokens) := by
  intro pos v pos2 h
  unfold parseDictionary at h
  split at h
  · cases h
  · split at h
    · cases h
    · rename_i dict p2 h2
      split at h
      · cases h
      · cases h
        simp only [Value.closed]
        exact parseDictionaryLoop_closed pv tokens hpv _ _ [] _ _ rfl h2

theorem applyOperator_closed {F : Type} (fl : FloatOps F) (op : GoString) (left right : Value F)
    (line : Nat) (v : Value F) (hl : left.closed = true)
    (h : applyOperator fl op left right line = .ok v) : v.closed = true := by
  unfold applyOperator at h
  split at h
  · split at h
    · cases h; rfl
    · split at h
      · cases h; rfl
      · cases h
  · split at h
    · split at h
      · cases h; rfl
      · split at h
        · cases h; rfl
        · cases h
    · cases h; exact hl

theorem parseConstantExpressionLoop_closed {F : Type} (fl : FloatOps F)
    (pv : Nat → Except ParseError (Value F × Nat)) (tokens : List Token) :
    ∀ (fuel pos : Nat) (left v : Value F) (pos2 : Nat), left.closed = true →
    parseConstantExpressionLoop fl pv tokens fuel pos left = .ok (v, pos2) →
    v.closed = true := by
  intro fuel
  induction fuel with
  | zero => intro pos left v pos2 _ h; simp [parseConstantExpressionLoop] at h
  | succ k ih =>
    intro pos left v pos2 hl h
    simp only [parseConstantExpressionLoop] at h
    split at h
    · split at h
      · cases h
      · split at h
        · cases h
        · split at h
          · cases h
          · rename_i left2 ha
            exact ih _ _ _ _ (applyOperator_closed fl _ _ _ _ _ hl ha) h
    · cases h
      exact hl

theorem parseConstantExpression_closed {F : Type} (fl : FloatOps F)
    (pv : Nat → Except ParseError (Value F × Nat)) (tokens : List Token)
    (hpv : ClosedResults pv) : ClosedResults (parseConstantExpression fl pv tokens) := by
  intro pos v pos2 h
  unfold parseConstantExpression at h
  split at h
  · cases h
  · split at h
    · cases h
    · split at h
      · cases h
      · rename_i left p3 hleft
        split at h
        · cases h
        · rename_i left2 p4 hloop
          split at h
          · cases h
          · cases h
            exact parseConstantExpressionLoop_closed fl pv tokens _ _ _ _ _
              (hpv _ _ _ hleft) hloop

theorem parseValue_closed {F : Type} (fl : FloatOps F) (tokens : List Token)
    (defs : GoMap (Value F)) (hdefs : Value.entriesClosed defs = true) :
    ∀ fuel, ClosedResults (parseValue fl tokens defs fuel) := by
  intro fuel
  induction fuel with
  | zero => intro p v p2 h; simp [parseValue] at h
  | succ k ih =>
    intro p v p2 h
    simp only [parseValue] at h
    split at h
    · split at h
      · split at h
        · cases h
        · cases h; rfl
      · split at h
        · cases h
        · cases h; rfl
    · cases h; rfl
    · exact parseArray_closed _ tokens ih _ _ _ h
    · exact parseDictionary_closed _ tokens ih _ _ _ h
    · exact parseConstantExpression_closed fl _ tokens ih _ _ _ h
    · split at h
      · rename_i val hg
        cases h
        exact entriesClosed_get defs _ _ hdefs hg
      · cases h; rfl
    · cases h

theorem parseDefine_closed {F : Type} (fl : FloatOps F) (tokens : List Token)
    (defs defs2 : GoMap (Value F)) (pos pos2 : Nat) (hdefs : Value.entriesClosed defs = true)
    (h : parseDefine fl tokens defs pos = .ok (defs2, pos2)) :
    Value.entriesClosed defs2 = true := by
  unfold parseDefine at h
  split at h
  · cases h
  · split at h
    · cases h
    · split at h
      · cases h
      · simp only at h
        split at h
        · cases h
        · rename_i val p3 hv
          split at h
          · cases h
          · split at h
            · cases h
            · cases h
              exact entriesClosed_set _ _ _ hdefs (parseValue_closed fl tokens defs hdefs _ _ _ _ hv)

theorem parseLoop_closed {F : Type} (fl : FloatOps F) (tokens : List Token) :
    ∀ (fuel pos : Nat) (defs result doc : GoMap (Value F)),
    Value.entriesClosed defs = true → Value.entriesClosed result = true →
    parseLoop fl tokens fuel pos defs result = .ok doc → Value.entriesClosed doc = true := by
  intro fuel
  induction fuel with
  | zero => intro pos defs result doc _ _ h; simp [parseLoop] at h
  | succ k ih =>
    intro pos defs result doc hdefs hres h
    simp only [parseLoop] at h
    split at h
    · split at h
      · split at h
        · cases h
        · rename_i defs2 p2 hd
          exact ih _ _ _ _ (parseDefine_closed fl tokens _ _ _ _ hdefs hd) hres h
      · split at h
        · cases h
        · split at h
          · cases h
          · rename_i val p3 hv
            split at h
            · cases h
            · exact ih _ _ _ _ hdefs
                (entriesClosed_set _ _ _ hres (parseValue_closed fl tokens defs hdefs _ _ _ _ hv)) h
      · cases h
    · cases h
      exact hres

theorem decimal_lt (n : Nat) : ∀ c ∈ decimal n, c < 58 := by
  rw [decimal_eq_reference]
  unfold referenceDecimal
  split
  · intro c hc; rw [List.mem_singleton] at hc; omega
  · intro c hc
    simp only [List.mem_map, List.mem_reverse] at hc
    obtain ⟨d, hd, rfl⟩ := hc
    have := Nat.digits_lt_base (by decide : 1 < 10) hd
    omega

theorem formatInt_ne_null (v : Int) : formatInt v ≠ bytes "null" := by
  intro h
  have hm : 108 ∈ formatInt v := by rw [h]; decide
  unfold formatInt at hm
  split at hm
  · rcases List.mem_cons.mp hm with h1 | h1
    · omega
    · have := decimal_lt _ _ h1; omega
  · have := decimal_lt _ _ hm; omega

theorem valueToTOML_ne_null {F : Type} (fmtFloat : F → GoString)
    (order : List (GoString × GoString) → List (GoString × GoString))
    (hfmt : ∀ x, fmtFloat x ≠ bytes "null") (v : Value F) (hv : v.closed = true) :
    valueToTOML fmtFloat order v ≠ bytes "null" := by
  cases v with
  | nil => exact absurd hv (Bool.false_ne_true)
  | int i => simp only [valueToTOML]; exact formatInt_ne_null i
  | float x => simp only [valueToTOML]; exact hfmt x
  | str s =>
    intro h
    have := congrArg List.head? h
    simp only [valueToTOML] at this
    revert this
    rw [show bytes "\"" = [34] from by decide, show bytes "null" = [110, 117, 108, 108] from by decide]
    simp
  | array l =>
    intro h
    have := congrArg List.head? h
    simp only [valueToTOML] at this
    revert this
    rw [show bytes "[" = [91] from by decide, show bytes "null" = [110, 117, 108, 108] from by decide]
    simp
  | dict m =>
    intro h
    have := congrArg List.head? h
    simp only [valueToTOML] at this
    revert this
    rw [show bytes "\x7b " = [123, 32] from by decide,
      show bytes "null" = [110, 117, 108, 108] from by decide]
    simp

mutual

theorem closed_subvalues {F : Type} :
    ∀ v : Value F, v.closed = true → ∀ w ∈ v.subvalues, w.closed = true
  | .nil, h => fun w hw => by
    simp only [Value.subvalues, List.mem_singleton] at hw; subst hw; exact h
  | .int _, h => fun w hw => by
    simp only [Value.subvalues, List.mem_singleton] at hw; subst hw; exact h
  | .float _, h => fun w hw => by
    simp only [Value.subvalues, List.mem_singleton] at hw; subst hw; exact h
  | .str _, h => fun w hw => by
    simp only [Value.subvalues, List.mem_singleton] at hw; subst hw; exact h
  | .array l, h => fun w hw => by
    simp only [Value.subvalues, List.mem_cons] at hw
    rcases hw with rfl | hw
    · exact h
    · exact allClosed_subvalues l (by simpa only [Value.closed] using h) w hw
  | .dict m, h => fun w hw => by
    simp only [Value.subvalues, List.mem_cons] at hw
    rcases hw with rfl | hw
    · exact h
    · exact entriesClosed_subvalues m (by simpa only [Value.closed] using h) w hw

theorem allClosed_subvalues {F : Type} :
    ∀ l : List (Value F), Value.allClosed l = true →
      ∀ w ∈ Value.subvaluesOfList l, w.closed = true
  | [], _ => fun w hw => by simp [Value.subvaluesOfList] at hw
  | v :: rest, h => fun w hw => by
    simp only [Value.allClosed, Bool.and_eq_true] at h
    simp only [Value.subvaluesOfList, List.mem_append] at hw
    rcases hw with hw | hw
    · exact closed_subvalues v h.1 w hw
    · exact allClosed_subvalues rest h.2 w hw

theorem entriesClosed_subvalues {F : Type} :
    ∀ m : List (GoString × Value F), Value.entriesClosed m = true →
      ∀ w ∈ Value.subvaluesOfEntries m, w.closed = true
  | [], _ => fun w hw => by simp [Value.subvaluesOfEntries] at hw
  | (_, v) :: rest, h => fun w hw => by
    simp only [Value.entriesClosed, Bool.and_eq_true] at h
    simp only [Value.subvaluesOfEntries, List.mem_append] at hw
    rcases hw with hw | hw
    · exact closed_subvalues v h.1 w hw
    · exact entriesClosed_subvalues rest h.2 w hw

end

theorem closed_ne_nil {F : Type} (v : Value F) (h : v.closed = true) : v ≠ .nil := by
  intro e
  subst e
  exact absurd h Bool.false_ne_true

/-- C18: every value stored in a Document that `parse` returns, and every value stored in
it at any depth, is closed (an integer, a float, a string, an array of closed values or a
dictionary of closed values) and is not the nil interface; so `valueToTOML` gives none of
them the text `null`, as long as the float format never writes `null`. The constant table
keeps the same invariant: a `define` on a table of closed values gives a table of closed
values, and a value parsed against such a table is closed. -/
theorem parsed_values_are_closed {F : Type} (fl : FloatOps F) (tokens : List Token)
    (doc : GoMap (Value F)) (h : parse fl tokens = .ok doc) :
    (∀ e ∈ doc, ∀ w ∈ e.2.subvalues, w.closed = true ∧ w ≠ .nil ∧
      ∀ (fmtFloat : F → GoString) (order : List (GoString × GoString) → List (GoString × GoString)),
        (∀ x, fmtFloat x ≠ bytes "null") → valueToTOML fmtFloat order w ≠ bytes "null") ∧
    (∀ (defs defs2 : GoMap (Value F)) (pos pos2 : Nat), (∀ e ∈ defs, e.2.closed = true) →
      parseDefine fl tokens defs pos = .ok (defs2, pos2) → ∀ e ∈ defs2, e.2.closed = true) ∧
    (∀ (defs : GoMap (Value F)) (fuel pos pos2 : Nat) (v : Value F),
      (∀ e ∈ defs, e.2.closed = true) →
      parseValue fl tokens defs fuel pos = .ok (v, pos2) → v.closed = true) := by
  refine ⟨?_, ?_, ?_⟩
  · have hdoc := parseLoop_closed fl tokens _ _ [] [] _ rfl rfl h
    rw [entriesClosed_iff] at hdoc
    intro e he w hw
    have hc := closed_subvalues e.2 (hdoc e he) w hw
    exact ⟨hc, closed_ne_nil w hc, fun fmtFloat order hfmt =>
      valueToTOML_ne_null fmtFloat order hfmt w hc⟩
  · intro defs defs2 pos pos2 hd hp
    rw [← entriesClosed_iff] at hd ⊢
    exact parseDefine_closed fl tokens defs defs2 pos pos2 hd hp
  · intro defs fuel pos pos2 v hd hp
    rw [← entriesClosed_iff] at hd
    exact parseValue_closed fl tokens defs hd fuel pos v pos2 hp

/-- The Document of `x := #( 1 'a' );`: the array and its two elements are closed. -/
theorem parsed_values_are_closed_witness :
    lex (bytes "x := #( 1 'a' );") =
      .ok [⟨TOKEN_IDENT, bytes "x", 1, 0⟩, ⟨TOKEN_ASSIGN, bytes ":=", 1, 2⟩,
        ⟨TOKEN_HASH, bytes "#", 1, 5⟩, ⟨TOKEN_LPAREN, bytes "(", 1, 6⟩,
        ⟨TOKEN_NUMBER, bytes "1", 1, 8⟩, ⟨TOKEN_STRING, bytes "a", 1, 10⟩,
        ⟨TOKEN_RPAREN, bytes ")", 1, 14⟩, ⟨TOKEN_SEMICOLON, bytes ";", 1, 15⟩,
        ⟨TOKEN_EOF, [], 2, 0⟩] ∧
    ∀ e ∈ [(bytes "x", (.array [.int 1, .str (bytes "a")] : Value Unit))],
      ∀ w ∈ e.2.subvalues, w.closed = true ∧ w ≠ .nil ∧
        ∀ (fmtFloat : Unit → GoString)
          (order : List (GoString × GoString) → List (GoString × GoString)),
          (∀ x, fmtFloat x ≠ bytes "null") → valueToTOML fmtFloat order w ≠ bytes "null" :=
  ⟨by decide,
    (parsed_values_are_closed
      (⟨fun _ => none, fun _ => (), fun _ _ => (), fun _ _ => ()⟩ : FloatOps Unit)
      [⟨TOKEN_IDENT, bytes "x", 1, 0⟩, ⟨TOKEN_ASSIGN, bytes ":=", 1, 2⟩,
        ⟨TOKEN_HASH, bytes "#", 1, 5⟩, ⟨TOKEN_LPAREN, bytes "(", 1, 6⟩,
        ⟨TOKEN_NUMBER, bytes "1", 1, 8⟩, ⟨TOKEN_STRING, bytes "a", 1, 10⟩,
        ⟨TOKEN_RPAREN, bytes ")", 1, 14⟩, ⟨TOKEN_SEMICOLON, bytes ";", 1, 15⟩,
        ⟨TOKEN_EOF, [], 2, 0⟩]
      [(bytes "x", .array [.int 1, .str (bytes "a")])] rfl).1⟩

/-! ## Trailing comments -/

theorem space_facts {x : Nat} (h : isSpace x = true) :
    isDigit x = false ∧ isIdentChar x = false ∧ isSciChar x = false ∧ isLetter x = false ∧
    x ≠ 39 ∧ x ≠ 45 ∧ x ≠ 46 ∧ x ≠ 61 ∧ x ≠ 101 ∧ x ≠ 69 ∧ x ≠ 43 := by
  simp only [isSpace, Bool.or_eq_true, beq_iff_eq] at h
  rcases h with ((((((h | h) | h) | h) | h) | h) | h) | h <;> subst h <;> decide

theorem startsWith_append_stop (x : Nat) (Y : GoString) :
    ∀ (s p : GoString), x ∉ p → startsWith (s ++ x :: Y) p = startsWith s p := by
  intro s
  induction s with
  | nil =>
    intro p hp
    cases p with
    | nil => rfl
    | cons d p =>
      simp only [List.mem_cons, not_or] at hp
      have : (x == d) = false := by simpa using hp.1
      simp [startsWith, this]
  | cons c s ih =>
    intro p hp
    cases p with
    | nil => rfl
    | cons d p =>
      simp only [List.mem_cons, not_or] at hp
      show (c == d && startsWith (s ++ x :: Y) p) = (c == d && startsWith s p)
      rw [ih p hp.2]

theorem startsWith_append_tail (x : Nat) (Y : GoString) (c : Nat) (s p : GoString)
    (hp : x ∉ p.tail) : startsWith (c :: s ++ x :: Y) p = startsWith (c :: s) p := by
  cases p with
  | nil => rfl
  | cons d p =>
    simp only [List.tail_cons] at hp
    show (c == d && startsWith (s ++ x :: Y) p) = (c == d && startsWith s p)
    rw [startsWith_append_stop x Y s p hp]

theorem startsWith_prefix : ∀ (s p Z : GoString), startsWith s p = true →
    startsWith (s ++ Z) p = true := by
  intro s
  induction s with
  | nil =>
    intro p Z h
    cases p with
    | nil => cases Z <;> rfl
    | cons d p => simp [startsWith] at h
  | cons c s ih =>
    intro p Z h
    cases p with
    | nil => rfl
    | cons d p =>
      simp only [startsWith, Bool.and_eq_true] at h
      show (c == d && startsWith (s ++ Z) p) = true
      rw [h.1, ih p Z h.2]
      rfl

theorem takeWhile_append_head (p : Nat → Bool) (x : Nat) (Y : GoString) (hx : p x = false) :
    ∀ l : GoString, (l ++ x :: Y).takeWhile p = l.takeWhile p ∧
      (l ++ x :: Y).dropWhile p = l.dropWhile p ++ x :: Y := by
  intro l
  induction l with
  | nil => simp [List.takeWhile, List.dropWhile, hx]
  | cons c l ih =>
    by_cases hc : p c = true
    · simp [List.takeWhile, List.dropWhile, hc, ih.1, ih.2]
    · simp [List.takeWhile, List.dropWhile, hc]

theorem head_append_space (f : Nat → Bool) (x : Nat) (Y cs : GoString) (hx : f x = false) :
    ((cs ++ x :: Y).head?.map f).getD false = (cs.head?.map f).getD false := by
  cases cs with
  | nil => simp [hx]
  | cons d r => simp

theorem sciExponent_append (x : Nat) (Y : GoString) (hx : isSpace x = true) (s : GoString) :
    sciExponent (s ++ x :: Y) = sciExponent s := by
  obtain ⟨hd, _, _, _, _, h45, _, _, h101, h69, h43⟩ := space_facts hx
  cases s with
  | nil => simp [sciExponent, h101, h69]
  | cons c r =>
    cases r with
    | nil => simp [sciExponent, h43, h45, hd]
    | cons d r2 =>
      simp only [List.cons_append, sciExponent]
      rw [head_append_space isDigit x Y r2 hd]

theorem sciFraction_append (x : Nat) (Y : GoString) (hx : isSpace x = true) (s : GoString) :
    sciFraction (s ++ x :: Y) = sciFraction s := by
  obtain ⟨hd, _, _, _, _, _, h46, _, _, _, _⟩ := space_facts hx
  cases s with
  | nil =>
    have e1 : sciFraction (x :: Y) = sciExponent (x :: Y) := by
      unfold sciFraction
      split
      · rename_i heq; cases heq; exact absurd rfl h46
      · rfl
    have e2 : sciFraction [] = sciExponent [] := rfl
    rw [List.nil_append, e1, e2]
    exact sciExponent_append x Y hx []
  | cons c r =>
    by_cases hc : c = 46
    · subst hc
      simp only [List.cons_append, sciFraction]
      rw [(takeWhile_append_head isDigit x Y hd r).2]
      exact sciExponent_append x Y hx _
    · have e1 : sciFraction (c :: r ++ x :: Y) = sciExponent (c :: r ++ x :: Y) := by
        simp only [List.cons_append]
        unfold sciFraction
        split
        · rename_i heq; cases heq; exact absurd rfl hc
        · rfl
      have e2 : sciFraction (c :: r) = sciExponent (c :: r) := by
        unfold sciFraction
        split
        · rename_i heq; cases heq; exact absurd rfl hc
        · rfl
      rw [e1, e2]
      exact sciExponent_append x Y hx _

theorem digitsThen_append (x : Nat) (Y : GoString) (hx : isSpace x = true) (s : GoString) :
    digitsThen sciFraction (s ++ x :: Y) = digitsThen sciFraction s := by
  obtain ⟨hd, _⟩ := space_facts hx
  cases s with
  | nil => simp [digitsThen, hd]
  | cons c r =>
    simp only [List.cons_append, digitsThen]
    rw [← List.cons_append, (takeWhile_append_head isDigit x Y hd (c :: r)).2,
      sciFraction_append x Y hx]

theorem sciMatch_append (x : Nat) (Y : GoString) (hx : isSpace x = true) (c : Nat)
    (cs : GoString) : sciMatch (c :: (cs ++ x :: Y)) = sciMatch (c :: cs) := by
  simp only [sciMatch]
  rw [← List.cons_append, digitsThen_append x Y hx (c :: cs), digitsThen_append x Y hx cs]

theorem scanFraction_append (x : Nat) (Y : GoString) (hx : isSpace x = true) (s : GoString) :
    scanFraction (s ++ x :: Y) = ((scanFraction s).1, (scanFraction s).2 ++ x :: Y) := by
  obtain ⟨hd, _, _, _, _, _, h46, _⟩ := space_facts hx
  cases s with
  | nil =>
    simp only [List.nil_append]
    unfold scanFraction
    split
    · rename_i heq; cases heq; exact absurd rfl h46
    · rfl
  | cons c r =>
    by_cases hc : c = 46
    · subst hc
      simp only [List.cons_append, scanFraction]
      rw [(takeWhile_append_head isDigit x Y hd r).1, (takeWhile_append_head isDigit x Y hd r).2]
    · have e1 : scanFraction (c :: r ++ x :: Y) = ([], c :: r ++ x :: Y) := by
        simp only [List.cons_append]
        unfold scanFraction
        split
        · rename_i heq; cases heq; exact absurd rfl hc
        · rfl
      have e2 : scanFraction (c :: r) = ([], c :: r) := by
        unfold scanFraction
        split
        · rename_i heq; cases heq; exact absurd rfl hc
        · rfl
      rw [e1, e2]

theorem scanNumber_append (x : Nat) (Y : GoString) (hx : isSpace x = true) (c : Nat)
    (cs : GoString) :
    scanNumber (c :: (cs ++ x :: Y)) =
      ((scanNumber (c :: cs)).1, (scanNumber (c :: cs)).2 ++ x :: Y) := by
  obtain ⟨hd, _⟩ := space_facts hx
  have hsign : scanSign (c :: (cs ++ x :: Y)) = scanSign (c :: cs) := rfl
  have hdrop : (c :: (cs ++ x :: Y)).drop (scanSign (c :: cs)).length =
      (c :: cs).drop (scanSign (c :: cs)).length ++ x :: Y := by
    simp only [scanSign]
    split <;> simp
  simp only [scanNumber, hsign, hdrop]
  rw [(takeWhile_append_head isDigit x Y hd _).1, (takeWhile_append_head isDigit x Y hd _).2,
    scanFraction_append x Y hx]

theorem indexByte_append_some (b : Nat) (Z : GoString) :
    ∀ (s : GoString) (e : Nat), indexByte s b = some e →
      indexByte (s ++ Z) b = some e ∧ e < s.length := by
  intro s
  induction s with
  | nil => intro e h; simp [indexByte] at h
  | cons c s ih =>
    intro e h
    simp only [indexByte] at h
    by_cases hc : (c == b) = true
    · simp only [hc, if_true, Option.some.injEq] at h
      subst h
      simp [indexByte, hc]
    · simp only [hc, Bool.false_eq_true, if_false, Option.map_eq_some'] at h
      obtain ⟨e2, h2, rfl⟩ := h
      obtain ⟨i1, i2⟩ := ih e2 h2
      simp [indexByte, hc, i1, i2]

/-- An iteration of the inner loop on a line and on the same line followed by
text that starts with a byte the loop skips: unless the iteration ends in an
error, both end the loop with the same tokens or both go on with the same
cursor and tokens, the second with the text still appended. -/
theorem lexStep_append (ln pos c : Nat) (cs : GoString) (acc : List Token) (x : Nat)
    (Y : GoString) (hx : isSpace x = true) :
    (∃ e, ∀ k, lexStep ln k pos c cs acc = .error e) ∨
    ((∀ k, lexStep ln k pos c cs acc = .ok acc) ∧
      (∀ k, lexStep ln k pos c (cs ++ x :: Y) acc = .ok acc)) ∨
    (∃ p r a, r.length ≤ cs.length ∧ (∀ k, lexStep ln k pos c cs acc = k p r a) ∧
      (∀ k, lexStep ln k pos c (cs ++ x :: Y) acc = k p (r ++ x :: Y) a)) := by
  obtain ⟨hxd, hxi, hxs, _, h39, h45, h46, h61, h101, h69, h43⟩ := space_facts hx
  have hd : ∀ k, (cs.drop k).length ≤ cs.length := by
    intro k; rw [List.length_drop]; omega
  have hcomment : startsWith (c :: (cs ++ x :: Y)) [45, 45] = startsWith (c :: cs) [45, 45] := by
    rw [← List.cons_append]
    exact startsWith_append_stop x Y (c :: cs) [45, 45] (by simp [h45])
  have hsci := sciMatch_append x Y hx c cs
  have hhead := head_append_space isDigit x Y cs hxd
  unfold lexStep
  rw [hcomment, hsci, hhead]
  by_cases h1 : isSpace c = true
  · exact Or.inr (Or.inr ⟨_, _, _, Nat.le_refl _, fun k => by rw [if_pos h1],
      fun k => by rw [if_pos h1]⟩)
  simp only [if_neg h1]
  by_cases h2 : startsWith (c :: cs) [45, 45] = true
  · exact Or.inr (Or.inl ⟨fun k => by rw [if_pos h2], fun k => by rw [if_pos h2]⟩)
  simp only [if_neg h2]
  by_cases h3 : (c == 39) = true
  · cases hi : indexByte cs 39 with
    | none => exact Or.inl ⟨_, fun k => by rw [if_pos h3]⟩
    | some e =>
      obtain ⟨i1, i2⟩ := indexByte_append_some 39 (x :: Y) cs e hi
      exact Or.inr (Or.inr ⟨_, _, _, hd (e + 1), fun k => by rw [if_pos h3],
        fun k => by
          rw [if_pos h3, i1]
          simp only
          rw [List.take_append_of_le_length (Nat.le_of_lt i2),
            List.drop_append_of_le_length (Nat.succ_le_of_lt i2)]⟩)
  simp only [if_neg h3]
  by_cases h4 : sciMatch (c :: cs) = true
  · have hc := sciMatch_first h4
    have hl := length_dropWhile_le isSciChar cs
    have ht := takeWhile_append_head isSciChar x Y hxs (c :: cs)
    rw [List.cons_append] at ht
    refine Or.inr (Or.inr ⟨_, _, _, ?_, fun k => by rw [if_pos h4],
      fun k => by rw [if_pos h4, ht.1, ht.2]⟩)
    simp only [List.dropWhile_cons, hc, if_true]
    exact hl
  simp only [if_neg h4]
  by_cases h5 : (isDigit c || ((c == 45 || c == 43) && (cs.head?.map isDigit).getD false)) = true
  · refine Or.inr (Or.inr ⟨_, _, _, scanNumber_length c cs h5, fun k => by rw [if_pos h5],
      fun k => by rw [if_pos h5, scanNumber_append x Y hx c cs]⟩)
  simp only [if_neg h5]
  by_cases h6 : (isLetter c || c == 95) = true
  · have hc : isIdentChar c = true := (identStart_facts h6).2.2.2.2.2
    have hl := length_dropWhile_le isIdentChar cs
    have ht := takeWhile_append_head isIdentChar x Y hxi (c :: cs)
    rw [List.cons_append] at ht
    refine Or.inr (Or.inr ⟨_, _, _, ?_, fun k => by rw [if_pos h6],
      fun k => by rw [if_pos h6, ht.1, ht.2]⟩)
    simp only [List.dropWhile_cons, hc, if_true]
    exact hl
  simp only [if_neg h6]
  by_cases h7 : (c == 40) = true
  · exact Or.inr (Or.inr ⟨_, _, _, Nat.le_refl _, fun k => by rw [if_pos h7],
      fun k => by rw [if_pos h7]⟩)
  simp only [if_neg h7]
  by_cases h8 : (c == 41) = true
  · exact Or.inr (Or.inr ⟨_, _, _, Nat.le_refl _, fun k => by rw [if_pos h8],
      fun k => by rw [if_pos h8]⟩)
  simp only [if_neg h8]
  by_cases h9 : (c == 91) = true
  · exact Or.inr (Or.inr ⟨_, _, _, Nat.le_refl _, fun k => by rw [if_pos h9],
      fun k => by rw [if_pos h9]⟩)
  simp only [if_neg h9]
  by_cases h10 : (c == 93) = true
  · exact Or.inr (Or.inr ⟨_, _, _, Nat.le_refl _, fun k => by rw [if_pos h10],
      fun k => by rw [if_pos h10]⟩)
  simp only [if_neg h10]
  by_cases h11 : (c == 59) = true
  · exact Or.inr (Or.inr ⟨_, _, _, Nat.le_refl _, fun k => by rw [if_pos h11],
      fun k => by rw [if_pos h11]⟩)
  simp only [if_neg h11]
  by_cases h12 : (c == 58) = true
  · by_cases h13 : cs.head? = some 61
    · have h13b : (cs ++ x :: Y).head? = some 61 := by
        cases cs with
        | nil => simp at h13
        | cons d r => simpa using h13
      have hdr : (cs ++ x :: Y).drop 1 = cs.drop 1 ++ x :: Y := by
        cases cs with
        | nil => simp at h13
        | cons d r => simp
      exact Or.inr (Or.inr ⟨_, _, _, hd 1, fun k => by rw [if_pos h12, if_pos h13],
        fun k => by rw [if_pos h12, if_pos h13b, hdr]⟩)
    · exact Or.inl ⟨_, fun k => by rw [if_pos h12, if_neg h13]⟩
  simp only [if_neg h12]
  by_cases h14 : (c == 35) = true
  · exact Or.inr (Or.inr ⟨_, _, _, Nat.le_refl _, fun k => by rw [if_pos h14],
      fun k => by rw [if_pos h14]⟩)
  simp only [if_neg h14]
  by_cases h15 : (c == 33) = true
  · exact Or.inr (Or.inr ⟨_, _, _, Nat.le_refl _, fun k => by rw [if_pos h15],
      fun k => by rw [if_pos h15]⟩)
  simp only [if_neg h15]
  by_cases h16 : (c == 43) = true
  · exact Or.inr (Or.inr ⟨_, _, _, Nat.le_refl _, fun k => by rw [if_pos h16],
      fun k => by rw [if_pos h16]⟩)
  simp only [if_neg h16]
  by_cases h17 : (c == 42) = true
  · exact Or.inr (Or.inr ⟨_, _, _, Nat.le_refl _, fun k => by rw [if_pos h17],
      fun k => by rw [if_pos h17]⟩)
  simp only [if_neg h17]
  exact Or.inl ⟨_, fun k => rfl⟩

/-- What the inner loop makes of a line stays the same when text that starts
with a byte the loop skips, and that the loop reads without a token, follows
the line. -/
theorem lexRun_append (ln : Nat) (x : Nat) (Y : GoString) (hx : isSpace x = true)
    (hX : ∀ p a, lexRun ln p (x :: Y) a = .ok a) :
    ∀ (n : Nat) (T : GoString) (pos : Nat) (acc toks : List Token), T.length ≤ n →
    lexRun ln pos T acc = .ok toks → lexRun ln pos (T ++ x :: Y) acc = .ok toks := by
  intro n
  induction n with
  | zero =>
    intro T pos acc toks hlen h
    have : T = [] := List.length_eq_zero.mp (Nat.le_zero.mp hlen)
    subst this
    rw [lexRun_nil] at h
    cases h
    exact hX pos acc
  | succ n ih =>
    intro T pos acc toks hlen h
    cases T with
    | nil =>
      rw [lexRun_nil] at h
      cases h
      exact hX pos acc
    | cons c cs =>
      rw [lexRun_cons] at h
      rw [List.cons_append, lexRun_cons]
      rcases lexStep_append ln pos c cs acc x Y hx with ⟨e, he⟩ | ⟨h1, h2⟩ | ⟨p, r, a, hr, h1, h2⟩
      · rw [he] at h; cases h
      · rw [h1] at h; rw [h2]; exact h
      · rw [h1] at h
        rw [h2]
        exact ih r p a toks (by simp only [List.length_cons] at hlen; omega) h

/-- White space, ` --` and the rest of the line give no token. -/
theorem lexRun_comment (ln : Nat) (C : GoString) : ∀ (W : GoString), W.all isSpace = true →
    ∀ (p : Nat) (a : List Token), lexRun ln p (W ++ 32 :: 45 :: 45 :: C) a = .ok a := by
  intro W
  induction W with
  | nil =>
    intro _ p a
    rw [List.nil_append, lexRun_space _ _ _ _ _ (by decide), lexRun_cons]
    simp [lexStep, isSpace, startsWith]
  | cons w W ih =>
    intro hW p a
    simp only [List.all_cons, Bool.and_eq_true] at hW
    rw [List.cons_append, lexRun_space _ _ _ _ _ hW.1]
    exact ih hW.2 _ _

theorem find_congr {α : Type} (p q : α → Bool) :
    ∀ (l : List α), (∀ a ∈ l, p a = q a) → l.find? p = l.find? q := by
  intro l
  induction l with
  | nil => intro _; rfl
  | cons a l ih =>
    intro h
    simp only [List.find?_cons, h a (List.mem_cons_self _ _)]
    rw [ih (fun b hb => h b (List.mem_cons_of_mem _ hb))]

theorem startsWith_le_length : ∀ (s p : GoString), startsWith s p = true → p.length ≤ s.length := by
  intro s
  induction s with
  | nil =>
    intro p h
    cases p with
    | nil => simp
    | cons d p => simp [startsWith] at h
  | cons c s ih =>
    intro p h
    cases p with
    | nil => simp
    | cons d p =>
      simp only [startsWith, Bool.and_eq_true] at h
      have := ih p h.2
      simp only [List.length_cons]; omega

theorem leadingSpaceLen_le (s : GoString) : leadingSpaceLen s ≤ s.length := by
  unfold leadingSpaceLen
  cases hf : spaceEncodings.find? (fun e => startsWith s e) with
  | none => simp
  | some e =>
    simp only
    exact startsWith_le_length s e (List.find?_some hf)

theorem leadingSpaceLen_append (c : Nat) (s Y : GoString) :
    leadingSpaceLen (c :: s ++ 32 :: Y) = leadingSpaceLen (c :: s) := by
  unfold leadingSpaceLen
  rw [find_congr (fun e => startsWith (c :: s ++ 32 :: Y) e) (fun e => startsWith (c :: s) e)
    spaceEncodings (fun e he => startsWith_append_tail 32 Y c s e (by
      revert e; decide))]

theorem trimLeftLoop_append (Y : GoString) : ∀ (n : Nat) (s : GoString), s.length ≤ n →
    trimLeftLoop n s ≠ [] → ∀ m, n ≤ m →
    trimLeftLoop m (s ++ 32 :: Y) = trimLeftLoop n s ++ 32 :: Y := by
  intro n
  induction n with
  | zero =>
    intro s hlen hne
    have : s = [] := List.length_eq_zero.mp (Nat.le_zero.mp hlen)
    subst this
    exact absurd rfl hne
  | succ n ih =>
    intro s hlen hne m hm
    obtain ⟨m2, rfl⟩ := Nat.exists_eq_succ_of_ne_zero (by omega : m ≠ 0)
    cases s with
    | nil =>
      exfalso; apply hne
      simp [trimLeftLoop, leadingSpaceLen, spaceEncodings, startsWith]
    | cons c s =>
      have hk := leadingSpaceLen_append c s Y
      have hle := leadingSpaceLen_le (c :: s)
      simp only [trimLeftLoop] at hne ⊢
      rw [hk]
      by_cases h0 : leadingSpaceLen (c :: s) = 0
      · rw [if_pos h0, if_pos h0]
      · rw [if_neg h0] at hne
        rw [if_neg h0, if_neg h0, List.drop_append_of_le_length hle]
        exact ih _ (by rw [List.length_drop]; simp only [List.length_cons] at hlen ⊢; omega)
          hne m2 (by omega)

theorem trimLeftLoop_comment (R : GoString) : ∀ m, 0 < m →
    trimLeftLoop m (32 :: 45 :: R) = 45 :: R := by
  intro m hm
  obtain ⟨m2, rfl⟩ := Nat.exists_eq_succ_of_ne_zero (by omega : m ≠ 0)
  have h1 : leadingSpaceLen (32 :: 45 :: R) = 1 := by
    simp [leadingSpaceLen, spaceEncodings, startsWith, List.find?]
  have h2 : leadingSpaceLen (45 :: R) = 0 := by
    cases R with
    | nil => simp [leadingSpaceLen, spaceEncodings, startsWith, List.find?]
    | cons d R => simp [leadingSpaceLen, spaceEncodings, startsWith, List.find?]
  simp only [trimLeftLoop, h1, List.drop_succ_cons, List.drop_zero]
  cases m2 with
  | zero => rfl
  | succ m3 => simp [trimLeftLoop, h2]

theorem trimLeftLoop_append_blank (R : GoString) : ∀ (n : Nat) (s : GoString), s.length ≤ n →
    trimLeftLoop n s = [] → ∀ m, n + 1 ≤ m →
    trimLeftLoop m (s ++ 32 :: 45 :: R) = 45 :: R := by
  intro n
  induction n with
  | zero =>
    intro s hlen _ m hm
    have : s = [] := List.length_eq_zero.mp (Nat.le_zero.mp hlen)
    subst this
    exact trimLeftLoop_comment R m (by omega)
  | succ n ih =>
    intro s hlen he m hm
    cases s with
    | nil => exact trimLeftLoop_comment R m (by omega)
    | cons c s =>
      obtain ⟨m2, rfl⟩ := Nat.exists_eq_succ_of_ne_zero (by omega : m ≠ 0)
      have hk := leadingSpaceLen_append c s (45 :: R)
      have hle := leadingSpaceLen_le (c :: s)
      simp only [trimLeftLoop] at he ⊢
      rw [hk]
      by_cases h0 : leadingSpaceLen (c :: s) = 0
      · rw [if_pos h0] at he; cases he
      · rw [if_neg h0] at he
        rw [if_neg h0, List.drop_append_of_le_length hle]
        exact ih _ (by rw [List.length_drop]; simp only [List.length_cons] at hlen ⊢; omega)
          he m2 (by omega)

theorem trimRightLoop_prefix : ∀ (n : Nat) (s : GoString), trimRightLoop n s <+: s := by
  intro n
  induction n with
  | zero => intro s; exact List.prefix_refl s
  | succ n ih =>
    intro s
    simp only [trimRightLoop]
    split
    · exact List.prefix_refl s
    · exact (ih _).trans (List.take_prefix _ _)

/-- The tokens of an input of one line. -/
theorem lex_line (L : GoString) (h10 : 10 ∉ L) :
    lex L =
      if TrimSpace L = [] ∨ startsWith (TrimSpace L) (bytes "--") = true ∨
          startsWith (TrimSpace L) (bytes "=begin") = true then
        .ok [⟨TOKEN_EOF, [], 2, 0⟩]
      else
        match lexRun 1 0 (TrimSpace L) [] with
        | .error e => .error e
        | .ok t => .ok (t ++ [⟨TOKEN_EOF, [], 2, 0⟩]) := by
  unfold lex
  simp only [splitLines_no_newline L h10, lexLines, List.length_singleton]
  by_cases h1 : TrimSpace L = []
  · simp [h1]
  by_cases h2 : startsWith (TrimSpace L) (bytes "--") = true
  · simp [h2]
  by_cases h3 : startsWith (TrimSpace L) (bytes "=begin") = true
  · simp [h1, h2, h3]
  simp only [h1, h2, h3, or_self, if_false, decide_False, Bool.false_eq_true, Bool.or_self]
  have e : lexLoop 1 (TrimSpace L).length 0 (TrimSpace L) [] = lexRun 1 0 (TrimSpace L) [] := rfl
  rw [e]
  cases lexRun 1 0 (TrimSpace L) [] <;> rfl

theorem space_not_in_markers {x : Nat} (h : isSpace x = true) :
    x ∉ bytes "--" ∧ x ∉ bytes "=begin" := by
  simp only [isSpace, Bool.or_eq_true, beq_iff_eq] at h
  rcases h with ((((((h | h) | h) | h) | h) | h) | h) | h <;> subst h <;> decide

/-- The line `L --C` after trimming: the line without the leading white space of
`L`, or the comment alone when `L` is white space only, and without the white
space that ends `C`. -/
theorem TrimSpace_comment (L C : GoString) :
    ∃ C2, C2 <+: C ∧
      TrimSpace (L ++ bytes " --" ++ C) =
        if trimLeftLoop L.length L = [] then 45 :: 45 :: C2
        else trimLeftLoop L.length L ++ 32 :: 45 :: 45 :: C2 := by
  have e : bytes " --" = [32, 45, 45] := by decide
  have eL : L ++ bytes " --" ++ C = L ++ 32 :: 45 :: 45 :: C := by simp [e]
  have hlen : (L ++ 32 :: 45 :: 45 :: C).length = L.length + (C.length + 3) := by
    simp only [List.length_append, List.length_cons]
  rw [eL]
  by_cases hU : trimLeftLoop L.length L = []
  · simp only [if_pos hU]
    have ht := trimLeftLoop_append_blank (45 :: C) L.length L (Nat.le_refl _) hU
      (L ++ 32 :: 45 :: 45 :: C).length (by rw [hlen]; omega)
    obtain ⟨C2, hC2, h2⟩ := trimRightLoop_keep [45] 45 (by decide) (45 :: 45 :: C).length C
    refine ⟨C2, hC2, ?_⟩
    simp only [TrimSpace, ht]
    exact h2
  · simp only [if_neg hU]
    have ht := trimLeftLoop_append (45 :: 45 :: C) L.length L (Nat.le_refl _) hU
      (L ++ 32 :: 45 :: 45 :: C).length (by rw [hlen]; omega)
    obtain ⟨C2, hC2, h2⟩ := trimRightLoop_keep (trimLeftLoop L.length L ++ [32, 45]) 45
      (by decide) (trimLeftLoop L.length L ++ 32 :: 45 :: 45 :: C).length C
    refine ⟨C2, hC2, ?_⟩
    simp only [TrimSpace, ht]
    simpa using h2

/-- C16, amended: for a line `L` without a newline on which `lex` succeeds, and whose white
space at the end (the part `strings.TrimSpace` removes) is made of bytes the inner loop
skips, `lex` on `L`, ` --` and any newline-free text succeeds with exactly the same tokens
as `lex` on `L`. A line that after trimming is empty or starts with `--` contributes no
token: the outer loop goes on with the next line and the same tokens. -/
theorem trailing_comment_keeps_tokens (L C : GoString) (toks : List Token) (hL : 10 ∉ L)
    (hC : 10 ∉ C) (hW : (trailingSpace L).all isSpace = true) (h : lex L = .ok toks) :
    lex (L ++ bytes " --" ++ C) = .ok toks ∧
    ∀ (lines : List GoString) (raw : GoString) (rest : List GoString) (lineNum : Nat)
      (acc : List Token),
      TrimSpace raw = [] ∨ startsWith (TrimSpace raw) (bytes "--") = true →
      lexLines lines lineNum (raw :: rest) acc = lexLines lines (lineNum + 1) rest acc := by
  refine ⟨?_, ?_⟩
  · have e : bytes " --" = [32, 45, 45] := by decide
    have h10 : 10 ∉ L ++ bytes " --" ++ C := by simp [e, hL, hC]
    rw [lex_line L hL] at h
    rw [lex_line _ h10]
    obtain ⟨C2, _, hT⟩ := TrimSpace_comment L C
    rw [hT]
    have hpre : TrimSpace L <+: trimLeftLoop L.length L := trimRightLoop_prefix _ _
    obtain ⟨W, hUW⟩ := hpre
    have hWeq : trailingSpace L = W := by
      unfold trailingSpace
      rw [← hUW, List.drop_left]
    rw [hWeq] at hW
    have e2 : bytes "--" = [45, 45] := by decide
    by_cases hU : trimLeftLoop L.length L = []
    · have hTe : TrimSpace L = [] := by
        rw [hU] at hUW
        exact (List.append_eq_nil.mp hUW).1
      rw [if_pos hU]
      rw [hTe] at h
      rw [if_pos (Or.inl rfl)] at h
      rw [if_pos (Or.inr (Or.inl (by rw [e2]; simp [startsWith])))]
      exact h
    · rw [if_neg hU, ← hUW, List.append_assoc]
      by_cases hTe : TrimSpace L = []
      · rw [hTe] at h hUW ⊢
        rw [if_pos (Or.inl rfl)] at h
        rw [List.nil_append] at hUW ⊢
        cases W with
        | nil => exact absurd hUW.symm hU
        | cons w W2 =>
          have hw : isSpace w = true := by
            simp only [List.all_cons, Bool.and_eq_true] at hW; exact hW.1
          obtain ⟨m1, m2⟩ := space_not_in_markers hw
          have s1 := startsWith_append_stop w (W2 ++ 32 :: 45 :: 45 :: C2) [] (bytes "--") m1
          have s2 := startsWith_append_stop w (W2 ++ 32 :: 45 :: 45 :: C2) [] (bytes "=begin") m2
          simp only [List.nil_append] at s1 s2
          have s3 : startsWith [] (bytes "--") = false := by decide
          have s4 : startsWith [] (bytes "=begin") = false := by decide
          rw [s3] at s1
          rw [s4] at s2
          have hrun := lexRun_comment 1 C2 (w :: W2) hW 0 []
          rw [if_neg (by
            rw [List.cons_append, s1, s2]
            simp), hrun]
          exact h
      · cases hX : W ++ 32 :: 45 :: 45 :: C2 with
        | nil => cases W <;> simp at hX
        | cons x Y =>
          have hx : isSpace x = true := by
            cases W with
            | nil =>
              rw [List.nil_append] at hX
              rw [← (List.cons.inj hX).1]; decide
            | cons w W2 =>
              rw [List.cons_append] at hX
              rw [← (List.cons.inj hX).1]
              simp only [List.all_cons, Bool.and_eq_true] at hW; exact hW.1
          obtain ⟨m1, m2⟩ := space_not_in_markers hx
          have s1 := startsWith_append_stop x Y (TrimSpace L) (bytes "--") m1
          have s2 := startsWith_append_stop x Y (TrimSpace L) (bytes "=begin") m2
          have hrunX : ∀ p a, lexRun 1 p (x :: Y) a = .ok a := by
            intro p a
            rw [← hX]
            exact lexRun_comment 1 C2 W hW p a
          rw [s1, s2]
          by_cases hcond : TrimSpace L = [] ∨ startsWith (TrimSpace L) (bytes "--") = true ∨
              startsWith (TrimSpace L) (bytes "=begin") = true
          · rw [if_pos hcond] at h
            rcases hcond with hc | hc
            · exact absurd hc hTe
            · rw [if_pos (Or.inr hc)]
              exact h
          · rw [if_neg hcond] at h
            have hcond2 : ¬ (TrimSpace L ++ x :: Y = [] ∨
                startsWith (TrimSpace L) (bytes "--") = true ∨
                startsWith (TrimSpace L) (bytes "=begin") = true) := by
              intro hc
              rcases hc with hc | hc
              · simp at hc
              · exact hcond (Or.inr hc)
            rw [if_neg hcond2]
            cases hr : lexRun 1 0 (TrimSpace L) [] with
            | error e => rw [hr] at h; cases h
            | ok t =>
              rw [hr] at h
              rw [lexRun_append 1 x Y hx hrunX (TrimSpace L).length (TrimSpace L) 0 [] t
                (Nat.le_refl _) hr]
              exact h
  · intro lines raw rest lineNum acc hc
    rcases hc with hc | hc
    · simp [lexLines, hc]
    · simp [lexLines, hc]

/-- The line `x := 1;` with a space after it, and the comment ` -- the port`. -/
theorem trailing_comment_keeps_tokens_witness :
    10 ∉ bytes "x := 1;" ++ [32] ∧ 10 ∉ bytes " the port" ∧
    trailingSpace (bytes "x := 1;" ++ [32]) = [32] ∧
    lex (bytes "x := 1;" ++ [32] ++ bytes " --" ++ bytes " the port") =
      .ok [⟨TOKEN_IDENT, bytes "x", 1, 0⟩, ⟨TOKEN_ASSIGN, bytes ":=", 1, 2⟩,
        ⟨TOKEN_NUMBER, bytes "1", 1, 5⟩, ⟨TOKEN_SEMICOLON, bytes ";", 1, 6⟩,
        ⟨TOKEN_EOF, [], 2, 0⟩] :=
  ⟨by decide, by decide, by decide,
   (trailing_comment_keeps_tokens (bytes "x := 1;" ++ [32]) (bytes " the port") _
      (by decide) (by decide) (by decide) (by decide)).1⟩

/-- C16, the counterexample: the line `x := 1;` followed by a no-break space (U+00A0, the
bytes 194 and 160) has no newline and lexes to the tokens of `x := 1;`, since trimming
removes the no-break space. With ` --c` after it, nothing is trimmed, and the inner loop
reads the byte 194 as the letter of an identifier, whose token holds the UTF-8 text of the
code point 194 (the bytes 195, 130): the tokens hold one more token. After
U+2000 (the bytes 226, 128, 128) the same comment turns success into a lexer error. -/
theorem trailing_comment_after_wide_space :
    10 ∉ bytes "x := 1;" ++ [194, 160] ∧ 10 ∉ bytes "c" ∧
    lex (bytes "x := 1;" ++ [194, 160]) =
      .ok [⟨TOKEN_IDENT, bytes "x", 1, 0⟩, ⟨TOKEN_ASSIGN, bytes ":=", 1, 2⟩,
        ⟨TOKEN_NUMBER, bytes "1", 1, 5⟩, ⟨TOKEN_SEMICOLON, bytes ";", 1, 6⟩,
        ⟨TOKEN_EOF, [], 2, 0⟩] ∧
    lex (bytes "x := 1;" ++ [194, 160] ++ bytes " --" ++ bytes "c") =
      .ok [⟨TOKEN_IDENT, bytes "x", 1, 0⟩, ⟨TOKEN_ASSIGN, bytes ":=", 1, 2⟩,
        ⟨TOKEN_NUMBER, bytes "1", 1, 5⟩, ⟨TOKEN_SEMICOLON, bytes ";", 1, 6⟩,
        ⟨TOKEN_IDENT, [195, 130], 1, 7⟩, ⟨TOKEN_EOF, [], 2, 0⟩] ∧
    lex (bytes "x := 1;" ++ [226, 128, 128]) =
      .ok [⟨TOKEN_IDENT, bytes "x", 1, 0⟩, ⟨TOKEN_ASSIGN, bytes ":=", 1, 2⟩,
        ⟨TOKEN_NUMBER, bytes "1", 1, 5⟩, ⟨TOKEN_SEMICOLON, bytes ";", 1, 6⟩,
        ⟨TOKEN_EOF, [], 2, 0⟩] ∧
    lex (bytes "x := 1;" ++ [226, 128, 128] ++ bytes " --" ++ bytes "c") =
      .error (.unexpectedCharacter 128 1 8) := by
  refine ⟨by decide, by decide, by decide, by decide, by decide, by decide⟩

end GoParser
